import Mathlib

/-!
# ExportScreen: PNG export of screen and diagnostic matrices

A shallow embedding of `ale_v0.1/src/common/export_screen.cpp`.

* Bytes (`uInt8`) are natural numbers; every store into a `uInt8` cell goes
  through `u8`, which reduces modulo 256.
* `int` values are integers; matrix and screen dimensions are natural numbers
  (they are sizes of vectors or the unsigned dimensions of the media source).
* The output stream is the list of bytes written to it so far; closing the
  stream, at the end of the `try` block or in the handler, makes them the
  content of the file.
* A run that trips an `assert` (assertions are taken as compiled in) or reads
  or writes outside an array ends in a `Fault`. An access outside an array is
  undefined behaviour: the fault marks the point from which the language
  guarantees nothing. What reaches the file is `Run.file`: nothing after an
  abort, since the stream is never flushed.
* Values of type `double` are modelled bit-exactly for finite numbers:
  binary64, round to nearest, ties to even.
* Writes to an open file always succeed.
-/

namespace ExportScreen

/-! ## Faults and outcomes -/

/-- Ways in which a run leaves defined, non-aborting execution. -/
inductive Fault where
  /-- an `assert` evaluated to false (the process aborts) -/
  | assertion
  /-- an array or vector was indexed outside its bounds (undefined behaviour) -/
  | outOfBounds
  deriving DecidableEq, Repr

deriving instance DecidableEq for Except

/-- An RGB colour as three `int`s, the `r`, `g`, `b` out-parameters. -/
abbrev RGB := Int × Int × Int

/-- Conversion of an `int` to `uInt8` on assignment: reduction modulo 256. -/
def u8 (x : Int) : Nat := (x % 256).toNat

/-! ## The palette -/

/-- The part of the object that colour lookup reads.

`pi_palette` is the pointer to the 256 packed entries of the base palette
(`none` is the `NULL` the constructor stores). `v_custom_pallete` is the
vector of extra colours; each element is a `vector<int>` that
`init_custom_pallete` always builds with exactly three components, so it is
kept as a triple. -/
structure Palette where
  pi_palette : Option (List Nat)
  v_custom_pallete : List RGB

/-- Embedding of `ExportScreen::get_rgb_from_pallete`, lines 307-322. -/
def get_rgb_from_pallete (pal : Palette) (val : Int) : Except Fault RGB :=
  match pal.pi_palette with
  | none => .error .assertion                       -- assert (pi_palette)
  | some p =>
    if val < 256 then
      -- p[val] for an index outside the array is an out-of-bounds read
      if val < 0 then .error .outOfBounds else
      match p[val.toNat]? with
      | none => .error .outOfBounds
      | some e =>
        .ok (((e >>> 16) &&& 0xff : Nat), ((e >>> 8) &&& 0xff : Nat), ((e &&& 0xff : Nat) : Int))
    else
      let val := val - 256
      -- assert (val <= v_custom_pallete.size())
      if val ≤ (pal.v_custom_pallete.length : Int) then
        match pal.v_custom_pallete[val.toNat]? with
        | none => .error .outOfBounds
        | some c => .ok c
      else .error .assertion

/-! ## Byte strings and the chunk writer -/

/-- The bytes of a string literal or `std::string` (character codes). -/
def cstr (s : String) : List Nat := s.toList.map Char.toNat

/-- The PNG file header written first by every exporter. -/
def header : List Nat := [137, 80, 78, 71, 13, 10, 26, 10]

/-- One bit step of the reflected CRC-32 register (polynomial 0xEDB88320). -/
def crcBit (reg : Nat) : Nat :=
  if reg &&& 1 = 1 then (reg >>> 1) ^^^ 0xEDB88320 else reg >>> 1

/-- Feeding one byte (an `unsigned char`) to the CRC-32 register. -/
def crcByte (reg byte : Nat) : Nat :=
  crcBit (crcBit (crcBit (crcBit (crcBit (crcBit (crcBit (crcBit (reg ^^^ (byte % 256)))))))))

/-- Feeding a buffer to the CRC-32 register, first byte first. -/
def crcUpdate (reg : Nat) (buf : List Nat) : Nat := buf.foldl crcByte reg

/-- Modelled from the spec: zlib's `crc32(crc, buf, len)`, a library routine
whose code is not part of the sources, as the running IEEE CRC32 that the
specification names. The 32-bit running value is complemented on entry and on
exit, and `buf` holds the `len` bytes read. -/
def crc32 (crc : Nat) (buf : List Nat) : Nat :=
  crcUpdate ((crc % 2 ^ 32) ^^^ 0xFFFFFFFF) buf ^^^ 0xFFFFFFFF

/-- The one-shot IEEE CRC32 of a byte sequence: register preset to all ones,
all bytes fed in order, result complemented. -/
def ieeeCrc32 (bs : List Nat) : Nat := crcUpdate 0xFFFFFFFF bs ^^^ 0xFFFFFFFF

/-- Big-endian 32-bit encoding of a number (most significant byte first). -/
def be32 (n : Nat) : List Nat := [n / 2 ^ 24 % 256, n / 2 ^ 16 % 256, n / 2 ^ 8 % 256, n % 256]

/-- Reading four bytes as a big-endian 32-bit number. -/
def decode32 : List Nat → Option Nat
  | [a, b, c, d] => some (a * 2 ^ 24 + b * 2 ^ 16 + c * 2 ^ 8 + d)
  | _ => none

/-- Embedding of `ExportScreen::writePNGChunk`, lines 325-355.

`out` is the file content so far and the result is the content afterwards.
`type` is the tag string, of which the first four characters are read; `data`
is the array behind the `data` pointer (empty for the null pointer), of which
the first `size` bytes are written; every call site passes a `size` that is at
most the length of the array. `crc` is a `uInt32`, hence the reduction modulo
`2 ^ 32` on assignment. -/
def writePNGChunk (out : List Nat) (type : List Nat) (data : List Nat) (size : Int) :
    List Nat :=
  -- Stuff the length/type into the buffer
  let temp : List Nat :=
    [u8 (size >>> (24 : Nat)), u8 (size >>> (16 : Nat)), u8 (size >>> (8 : Nat)), u8 size,
     type.getD 0 0, type.getD 1 0, type.getD 2 0, type.getD 3 0]
  -- Write the header
  let out := out ++ temp
  -- Append the actual data
  let crc := crc32 0 (temp.drop 4) % 2 ^ 32
  let step : List Nat × Nat :=
    if size > 0 then
      (out ++ data.take size.toNat, crc32 crc (data.take size.toNat) % 2 ^ 32)
    else (out, crc)
  let out := step.1
  let crc := step.2
  -- Write the CRC
  out ++ [(crc >>> 24) % 256, (crc >>> 16) % 256, (crc >>> 8) % 256, crc % 256]

/-- The call `strcpy(dst + pos, src.c_str())` of `writePNGText` (lines 364-365).
The characters of `src` up to its first NUL (or all of them) are copied,
followed by one NUL. -/
def strcpy (dst : List Nat) (pos : Nat) (src : List Nat) : List Nat :=
  let s := src.takeWhile (fun c => c ≠ 0) ++ [0]
  dst.take pos ++ s ++ dst.drop (pos + s.length)

/-- A freshly allocated `uInt8` array of `n` cells (`new uInt8[n]`): its cells
are not initialised and hold whatever `heap` left there. -/
def newArray (heap : Nat → Nat) (n : Nat) : List Nat := (List.range n).map fun k => heap k % 256

/-- Embedding of `ExportScreen::writePNGText`, lines 358-370. -/
def writePNGText (heap : Nat → Nat) (out : List Nat) (key text : List Nat) : List Nat :=
  let length := key.length + 1 + text.length + 1
  let data := newArray heap length
  let data := strcpy data 0 key
  let data := strcpy data (key.length + 1) text
  writePNGChunk out (cstr "tEXt") data ((length : Int) - 1)

/-! ## Scanline buffers -/

/-- A store `buf[idx] = v` into a `uInt8` array; outside the array it is a fault. -/
def poke (buf : List Nat) (idx : Nat) (v : Int) : Except Fault (List Nat) :=
  if idx < buf.length then .ok (buf.set idx (u8 v)) else .error .outOfBounds

/-- The read `(*matrix)[i][j]` of a `vector<vector<int>>`. -/
def readMatrix (m : List (List Int)) (i j : Nat) : Except Fault Int :=
  match m[i]? with
  | none => .error .outOfBounds
  | some row =>
    match row[j]? with
    | none => .error .outOfBounds
    | some v => .ok v

/-- The three stores `buf_ptr[j * 3 + 0] = r; buf_ptr[j * 3 + 1] = g;
buf_ptr[j * 3 + 2] = b;` that end the pixel loop of every exporter (lines
74-76, 178-180 and 265-267); `ptr` is `buf_ptr` as an offset into the buffer. -/
def storeRGB (buf : List Nat) (ptr j : Nat) (c : RGB) : Except Fault (List Nat) := do
  let buf ← poke buf (ptr + (j * 3 + 0)) c.1
  let buf ← poke buf (ptr + (j * 3 + 1)) c.2.1
  poke buf (ptr + (j * 3 + 2)) c.2.2

/-- Body of the inner `for (j ...)` loop of the indexed exporters (lines 71-77
and 262-268): resolve the colour of pixel `(i, j)` and store its three bytes. -/
def indexedPixel (pal : Palette) (m : List (List Int)) (i ptr : Nat) (buf : List Nat)
    (j : Nat) : Except Fault (List Nat) := do
  let v ← readMatrix m i j
  let c ← get_rgb_from_pallete pal v
  storeRGB buf ptr j c

/-- Body of the outer `for (i ...)` loop of the indexed exporters (lines 69-79
and 260-270). The state is `buf_ptr` (as an offset into `buffer`) and the
buffer content. -/
def indexedRow (pal : Palette) (m : List (List Int)) (width : Nat) (st : Nat × List Nat)
    (i : Nat) : Except Fault (Nat × List Nat) := do
  let buf ← poke st.2 st.1 0                        -- *buf_ptr++ = 0
  let ptr := st.1 + 1
  let buf ← (List.range width).foldlM (indexedPixel pal m i ptr) buf
  pure (ptr + width * 3, buf)                       -- buf_ptr += rowbytes

/-- The scanline buffer of the indexed exporters, "Fill the buffer with scanline
data" (lines 65-79 of `save_png` with the screen dimensions, lines 256-270 of
`export_any_matrix` with the matrix dimensions; the two loops are the same text). -/
def indexedScanlines (pal : Palette) (heap : Nat → Nat) (m : List (List Int))
    (height width : Nat) : Except Fault (List Nat) := do
  let rowbytes := width * 3
  let buffer := newArray heap ((rowbytes + 1) * height)
  let st ← (List.range height).foldlM (indexedRow pal m width) (0, buffer)
  pure st.2

/-! ### Arithmetic in `double`

A finite `double` is kept as a pair of integers standing for
`man * 2 ^ exp`; every operation computes the exact result as a fraction of
integers and rounds it to the nearest double, ties to the even mantissa. -/

/-- Number of binary digits of `n`, with `fuel` steps at hand. -/
def bitsAux : Nat → Nat → Nat
  | 0, _ => 0
  | fuel + 1, n => if n = 0 then 0 else bitsAux fuel (n / 2) + 1

/-- Number of binary digits of `n` (0 for 0). -/
def bitLength (n : Nat) : Nat := bitsAux n n

/-- The integer nearest to `p / q`, the even one of the two when `p / q` lies
half-way between them. -/
def rneDiv (p q : Nat) : Nat :=
  if 2 * (p % q) < q then p / q
  else if q < 2 * (p % q) then p / q + 1
  else if p / q % 2 = 0 then p / q else p / q + 1

/-- Numerator and denominator of `(a / d) / 2 ^ e`. -/
def scaled (a d : Nat) (e : Int) : Nat × Nat :=
  if 0 ≤ e then (a, d * 2 ^ e.toNat) else (a * 2 ^ (-e).toNat, d)

/-- The binary exponent of `a / d`: the `k` with `2 ^ k ≤ a / d < 2 ^ (k + 1)`,
found from the digit counts of `a` and `d` and one comparison. -/
def binade (a d : Nat) : Int :=
  if (scaled a d ((bitLength a : Int) - (bitLength d : Int))).2 ≤
      (scaled a d ((bitLength a : Int) - (bitLength d : Int))).1
  then (bitLength a : Int) - (bitLength d : Int)
  else (bitLength a : Int) - (bitLength d : Int) - 1

/-- The exponent of the last mantissa bit of the double nearest to `a / d`:
53 significant bits, and not below `-1074` (subnormal numbers). -/
def roundExp (a d : Nat) : Int := max (binade a d - 52) (-1074)

/-- A finite value of the C++ type `double`: `man * 2 ^ exp`. Exponents are
not capped from above: a magnitude of `2 ^ 1024` or more stands for an
infinity. -/
structure Double where
  man : Int
  exp : Int
  deriving DecidableEq, Repr

/-- The double nearest to the fraction `n / d` (round to nearest, ties to
even), as every arithmetic operation and every conversion to `double` yields
it from its exact result. -/
def Double.ofFrac (n : Int) (d : Nat) : Double :=
  let s := scaled n.natAbs d (roundExp n.natAbs d)
  ⟨(if n < 0 then -(rneDiv s.1 s.2 : Int) else (rneDiv s.1 s.2 : Int)), roundExp n.natAbs d⟩

/-- Numerator of the value of a double written as a fraction. -/
def Double.num (x : Double) : Int := if 0 ≤ x.exp then x.man * 2 ^ x.exp.toNat else x.man

/-- Denominator of the value of a double written as a fraction. -/
def Double.den (x : Double) : Nat := if 0 ≤ x.exp then 1 else 2 ^ (-x.exp).toNat

/-- The value of a double as a rational number. -/
def Double.toRat (x : Double) : ℚ := (x.num : ℚ) / (x.den : ℚ)

/-- The product `x * y` of two doubles. -/
def Double.mul (x y : Double) : Double := Double.ofFrac (x.num * y.num) (x.den * y.den)

/-- The sum `x + y` of two doubles. -/
def Double.add (x y : Double) : Double :=
  Double.ofFrac (x.num * y.den + y.num * x.den) (x.den * y.den)

/-- Conversion of an integer to `double`. -/
def Double.ofInt (k : Int) : Double := Double.ofFrac k 1

/-- The conversion `(uLongf)x` of a `double` that is not negative: the
fraction is dropped. -/
def Double.toULong (x : Double) : Nat := (x.num.tdiv x.den).toNat

/-- The conversion `(int)x` of a `double`: truncation towards zero. When the
truncated value does not fit the 32-bit `int` the language leaves the result
undefined; the value taken here is `INT_MIN`, which the conversion
instruction of x86-64 (`cvttsd2si`) delivers. -/
def truncToInt (x : Double) : Int :=
  if -2 ^ 31 ≤ x.num.tdiv x.den ∧ x.num.tdiv x.den < 2 ^ 31 then x.num.tdiv x.den else -2 ^ 31

/-- The colour chosen for one heat-plot entry (lines 168-177). The entry `val`
is the finite value the `double` holds; `255.0 * val` is the exact product
`255 * val.num / val.den` rounded to a double. -/
def heatColour (val : ℚ) : RGB :=
  if val = 1313 then (255, 0, 0)
  else if val = 1314 then (0, 0, 0)
  else
    (truncToInt (Double.ofFrac (255 * val.num) val.den),
     truncToInt (Double.ofFrac (255 * val.num) val.den),
     truncToInt (Double.ofFrac (255 * val.num) val.den))

/-- The inner iterator loop of `save_heat_plot` (lines 164-182): it walks the
elements of the row itself, counting `j` up from the given value. -/
def heatCols (ptr : Nat) : List ℚ → Nat → List Nat → Except Fault (List Nat)
  | [], _, buf => .ok buf
  | val :: rest, j, buf => do
    let buf ← storeRGB buf ptr j (heatColour val)
    heatCols ptr rest (j + 1) buf

/-- Body of the outer iterator loop of `save_heat_plot` (lines 161-184). -/
def heatRow (width : Nat) (st : Nat × List Nat) (row : List ℚ) :
    Except Fault (Nat × List Nat) := do
  let buf ← poke st.2 st.1 0                        -- *buf_ptr++ = 0
  let ptr := st.1 + 1
  let buf ← heatCols ptr row 0 buf
  pure (ptr + width * 3, buf)                       -- buf_ptr += rowbytes

/-- The scanline buffer of `save_heat_plot` (lines 157-184), built from the
matrix as it is after normalisation. -/
def heatScanlines (heap : Nat → Nat) (m : List (List ℚ)) (height width : Nat) :
    Except Fault (List Nat) := do
  let rowbytes := width * 3
  let buffer := newArray heap ((rowbytes + 1) * height)
  let st ← m.foldlM (heatRow width) (0, buffer)
  pure st.2

/-! ## The three exporters -/

/-- The object: palette, screen dimensions (`i_screen_width`, `i_screen_height`,
non-negative) and the three cartridge properties read through `p_props`. -/
structure Exporter extends Palette where
  i_screen_width : Nat
  i_screen_height : Nat
  Cartridge_Name : List Nat
  Cartridge_MD5 : List Nat
  Display_Format : List Nat

/-- What a call meets outside the object: whether the file can be opened, what
zlib's `compress` does with a source buffer and a destination capacity (`none`
for a result other than `Z_OK`, otherwise the compressed bytes, whose count is
stored back into `compmemsize`), and the stale content of fresh arrays. -/
structure World where
  openOk : Bool
  compress : List Nat → Nat → Option (List Nat)
  heap : Nat → Nat

/-- How a call ends. -/
inductive Outcome where
  /-- the `try` block ran to its end and the file was closed -/
  | finished
  /-- a thrown message was caught, printed, and the file closed -/
  | caught (msg : String)
  /-- an assertion failed or memory was accessed out of bounds -/
  | fault (f : Fault)
  deriving DecidableEq, Repr

/-- The result of a call: the bytes passed to the stream `out` (by `out.write`
and `writePNGChunk`), and how the call ended. In a finished or caught run the
stream is closed and these bytes are the content of the file. In a run that
ends in a fault `out.close()` is never reached: `out` then only records what
was handed to the stream, not what the file holds, which is `Run.file`. -/
structure Run where
  out : List Nat
  outcome : Outcome
  deriving DecidableEq, Repr

/-- The 13-byte IHDR payload filled in at lines 49-62, 141-154 and 240-253. -/
def ihdr (width height : Nat) : List Nat :=
  [(width >>> 24) % 256, (width >>> 16) % 256, (width >>> 8) % 256, (width &&& 0xFF) % 256,
   (height >>> 24) % 256, (height >>> 16) % 256, (height >>> 8) % 256, (height &&& 0xFF) % 256,
   8, 2, 0, 0, 0]

/-- The size given to the compression output buffer:
`(uLongf)((height * (width + 1) * 3 * 1.001 + 1) + 12)`. The integer product
is converted to `double`, multiplied by the double nearest to `1.001`, and
the two additions are additions of doubles, each rounded; the conversion to
`uLongf` drops the fraction. (The integer product is taken without overflow.) -/
def compmemsize (height width : Nat) : Nat :=
  let x := Double.mul (Double.ofInt ((height * (width + 1) * 3 : Nat) : Int))
    (Double.ofFrac 1001 1000)
  let x := Double.add x (Double.ofInt 1)
  let x := Double.add x (Double.ofInt 12)
  x.toULong

/-- Conversion of an unsigned long to `int` (32 bits, two's complement). -/
def toInt32 (n : Nat) : Int := ((n : Int) + 2 ^ 31) % 2 ^ 32 - 2 ^ 31

/-- Embedding of `ExportScreen::save_png`, lines 32-114. -/
def save_png (e : Exporter) (w : World) (screen_matrix : List (List Int)) : Run :=
  if !w.openOk then ⟨[], .caught "Couldn't open PNG file"⟩ else
  -- PNG file header
  let out := header
  -- PNG IHDR
  let out := writePNGChunk out (cstr "IHDR") (ihdr e.i_screen_width e.i_screen_height) 13
  -- Fill the buffer with scanline data
  match indexedScanlines e.toPalette w.heap screen_matrix e.i_screen_height e.i_screen_width with
  | .error f => ⟨out, .fault f⟩
  | .ok buffer =>
    -- Compress the data with zlib
    match w.compress (buffer.take (e.i_screen_height * (e.i_screen_width * 3 + 1)))
        (compmemsize e.i_screen_height e.i_screen_width) with
    | none => ⟨out, .caught "Error: Couldn't compress PNG"⟩
    | some compmem =>
      -- Write the compressed framebuffer data
      let out := writePNGChunk out (cstr "IDAT") compmem (toInt32 compmem.length)
      -- Add some info about this snapshot
      let out := writePNGText w.heap out (cstr "ROM Name") e.Cartridge_Name
      let out := writePNGText w.heap out (cstr "ROM MD5") e.Cartridge_MD5
      let out := writePNGText w.heap out (cstr "Display Format") e.Display_Format
      -- Finish up
      let out := writePNGChunk out (cstr "IEND") [] 0
      ⟨out, .finished⟩

/-- Embedding of `ExportScreen::save_heat_plot`, lines 120-215. `normalize_matrix` is the
in-place normaliser of `vector_matrix_tools.h`, which is not part of the
sources at hand and is taken as a parameter. -/
def save_heat_plot (normalize_matrix : List (List ℚ) → List (List ℚ)) (w : World)
    (pm_matrix : List (List ℚ)) : Run :=
  let height := pm_matrix.length
  if ¬ height > 0 then ⟨[], .fault .assertion⟩ else      -- assert(height > 0)
  let width := (pm_matrix.headD []).length
  if ¬ width > 0 then ⟨[], .fault .assertion⟩ else       -- assert(width > 0)
  let m := normalize_matrix pm_matrix
  if !w.openOk then ⟨[], .caught "Couldn't open PNG file"⟩ else
  let out := header
  let out := writePNGChunk out (cstr "IHDR") (ihdr width height) 13
  match heatScanlines w.heap m height width with
  | .error f => ⟨out, .fault f⟩
  | .ok buffer =>
    match w.compress (buffer.take (height * (width * 3 + 1))) (compmemsize height width) with
    | none => ⟨out, .caught "Error: Couldn't compress PNG"⟩
    | some compmem =>
      let out := writePNGChunk out (cstr "IDAT") compmem (toInt32 compmem.length)
      let out := writePNGChunk out (cstr "IEND") [] 0
      ⟨out, .finished⟩

/-- Embedding of `ExportScreen::export_any_matrix`, lines 220-301. -/
def export_any_matrix (pal : Palette) (w : World) (pm_matrix : List (List Int)) : Run :=
  let height := pm_matrix.length
  match pm_matrix[0]? with
  | none => ⟨[], .fault .outOfBounds⟩                    -- (*pm_matrix)[0] of an empty vector
  | some row0 =>
    let width := row0.length
    if !w.openOk then ⟨[], .caught "Couldn't open PNG file"⟩ else
    let out := header
    let out := writePNGChunk out (cstr "IHDR") (ihdr width height) 13
    match indexedScanlines pal w.heap pm_matrix height width with
    | .error f => ⟨out, .fault f⟩
    | .ok buffer =>
      match w.compress (buffer.take (height * (width * 3 + 1))) (compmemsize height width) with
      | none => ⟨out, .caught "Error: Couldn't compress PNG"⟩
      | some compmem =>
        let out := writePNGChunk out (cstr "IDAT") compmem (toInt32 compmem.length)
        let out := writePNGChunk out (cstr "IEND") [] 0
        ⟨out, .finished⟩

/-! ## Descriptions used in the statements -/

/-- The three bytes stored for a colour. -/
def rgbBytes (c : RGB) : List Nat := [u8 c.1, u8 c.2.1, u8 c.2.2]

/-- The bytes of one pixel code: those of its palette colour (none if the code
does not resolve). -/
def resolveBytes (pal : Palette) (v : Int) : List Nat :=
  match get_rgb_from_pallete pal v with
  | .ok c => rgbBytes c
  | .error _ => []

/-- One scanline of an indexed image: filter byte 0, then three bytes per pixel. -/
def indexedRowBytes (pal : Palette) (row : List Int) : List Nat :=
  0 :: row.flatMap (resolveBytes pal)

/-- All scanlines of an indexed image, top row first. -/
def indexedBytes (pal : Palette) (m : List (List Int)) : List Nat :=
  m.flatMap (indexedRowBytes pal)

/-- One scanline of a heat plot. -/
def heatRowBytes (row : List ℚ) : List Nat :=
  0 :: row.flatMap fun v => rgbBytes (heatColour v)

/-- All scanlines of a heat plot. -/
def heatBytes (m : List (List ℚ)) : List Nat := m.flatMap heatRowBytes

/-- A matrix is rectangular of the given height and width. -/
def Rect {α : Type} (m : List (List α)) (height width : Nat) : Prop :=
  m.length = height ∧ ∀ row ∈ m, row.length = width

/-- Every code of the matrix resolves in the palette. -/
def Resolves (pal : Palette) (m : List (List Int)) : Prop :=
  ∀ row ∈ m, ∀ v ∈ row, ∃ c, get_rgb_from_pallete pal v = .ok c

/-- One framed chunk: length, tag, data, CRC. -/
def chunk (t d : List Nat) : List Nat := be32 d.length ++ t ++ d ++ be32 (ieeeCrc32 (t ++ d))

/-- The chunk tags met when reading a stream chunk by chunk: four length
bytes, four tag bytes, the data, four CRC bytes. Reading stops at the first
incomplete chunk. -/
def chunkTagsFrom : Nat → List Nat → List (List Nat)
  | 0, _ => []
  | fuel + 1, bs =>
    match decode32 (bs.take 4) with
    | none => []
    | some n =>
      if bs.length < 12 + n then []
      else (bs.drop 4).take 4 :: chunkTagsFrom fuel (bs.drop (12 + n))

/-- The chunk tags of a PNG stream, in stream order (the 8 header bytes skipped). -/
def chunkTags (stream : List Nat) : List (List Nat) :=
  chunkTagsFrom stream.length (stream.drop 8)

/-- Every text chunk comes before the image data chunk. -/
def TextBeforeData (tags : List (List Nat)) : Prop :=
  ∀ i j : Nat, tags[i]? = some (cstr "tEXt") → tags[j]? = some (cstr "IDAT") → i < j

/-! ## Concrete inputs for the examples -/

/-- The Adler-32 checksum that ends a zlib stream. -/
def adler32 (bs : List Nat) : Nat :=
  let st := bs.foldl (fun (st : Nat × Nat) b =>
    ((st.1 + b % 256) % 65521, (st.2 + (st.1 + b % 256) % 65521) % 65521)) (1, 0)
  st.2 * 65536 + st.1

/-- A compressor for the examples: the zlib stream that stores the source in
one uncompressed block (at most 65535 bytes), refused when it does not fit the
destination capacity. -/
def storedCompress (src : List Nat) (cap : Nat) : Option (List Nat) :=
  if src.length < 65536 ∧ src.length + 11 ≤ cap then
    some ([0x78, 0x01, 0x01, src.length % 256, src.length / 256,
           255 - src.length % 256, 255 - src.length / 256]
          ++ src.map (fun b => b % 256) ++ be32 (adler32 src))
  else none

/-- A base palette of 256 entries whose entries 0-3 are black, red, green and
blue, with no extended colours. -/
def demoPalette : Palette :=
  ⟨some ([0x000000, 0xFF0000, 0x00FF00, 0x0000FF] ++ List.replicate 252 0), []⟩

/-- A world in which the file opens, `compress` stores, and fresh memory is zero. -/
def demoWorld : World := ⟨true, storedCompress, fun _ => 0⟩

/-- A 2 x 2 screen with the demo palette and three property strings. -/
def demoExporter : Exporter :=
  { toPalette := demoPalette, i_screen_width := 2, i_screen_height := 2,
    Cartridge_Name := cstr "Pong", Cartridge_MD5 := cstr "60e0ea3cbe0913d39803477945e9e5ec",
    Display_Format := cstr "NTSC" }

/-- The bytes of a sequence of chunks, each given by its tag and its data. -/
def encodeChunks (cs : List (List Nat × List Nat)) : List Nat :=
  cs.flatMap fun c => chunk c.1 c.2

/-- A chunk sequence with its metadata removed: every "tEXt" chunk is dropped
and the other chunks stay in order. -/
def withoutMetadata (cs : List (List Nat × List Nat)) : List (List Nat × List Nat) :=
  cs.filter fun c => c.1 ≠ cstr "tEXt"

/-! ## The extended palette -/

/-- The constants of `export_screen.h` that `init_custom_pallete` uses; the
header is not part of the sources, so they are parameters. -/
structure PaletteConsts where
  CUSTOM_PALETTE_SIZE : Nat
  BLACK_COLOR_IND : Nat
  RED_COLOR_IND : Nat
  WHITE_COLOR_IND : Nat
  SECAM_COLOR_IND : Nat

/-- The array `shades` of `init_custom_pallete` (line 377). -/
def shades : List Int := [0, 51, 102, 153, 204, 255]

/-- The three nested loops of lines 379-395, pushing onto the vector `v`: `i`
and `j` run from 5 down to 0, `k` runs from 0 up to 5, and black is skipped. -/
def pushWebSafe (v : List RGB) : List RGB :=
  [5, 4, 3, 2, 1, 0].foldl (fun v i =>
    [5, 4, 3, 2, 1, 0].foldl (fun v j =>
      [0, 1, 2, 3, 4, 5].foldl (fun v k =>
        let r := shades.getD i 0
        let g := shades.getD j 0
        let b := shades.getD k 0
        if r = 0 ∧ g = 0 ∧ b = 0 then v          -- continue
        else v ++ [(r, g, b)]) v) v) v

/-- The loop of lines 398-407: `n` colours are pushed, each of three successive
results of `rand_range(0, 256)`; `draws k` is the result of the `k`-th call. -/
def pushRandom (draws : Nat → Int) (n : Nat) (v : List RGB) : List RGB :=
  (List.range n).foldl
    (fun v i => v ++ [(draws (3 * i), draws (3 * i + 1), draws (3 * i + 2))]) v

/-- The assignment `v_custom_pallete[idx] = colour`; outside the vector it is a fault. -/
def assign (v : List RGB) (idx : Nat) (c : RGB) : Except Fault (List RGB) :=
  if idx < v.length then .ok (v.set idx c) else .error .outOfBounds

/-- Embedding of `ExportScreen::init_custom_pallete`, lines 375-432. `v` is the
vector before the call (empty when the constructor calls it),
`random_shuffle` is what `std::random_shuffle` does to the vector, and `draws`
are the results of the calls of `rand_range`, which is not part of the
sources. -/
def init_custom_pallete (K : PaletteConsts) (random_shuffle : List RGB → List RGB)
    (draws : Nat → Int) (v : List RGB) : Except Fault (List RGB) := do
  -- add the 216 'web-safe' standard colors
  let v := pushWebSafe v
  let v := random_shuffle v
  -- add CUSTOM_PALLETE_SIZE random colors
  let v := pushRandom draws K.CUSTOM_PALETTE_SIZE v
  let v ← assign v K.BLACK_COLOR_IND (0, 0, 0)
  let v ← assign v K.RED_COLOR_IND (255, 0, 0)
  let v ← assign v K.WHITE_COLOR_IND (255, 255, 255)
  let v ← assign v (K.SECAM_COLOR_IND + 0) (0, 0, 0)
  let v ← assign v (K.SECAM_COLOR_IND + 1) (33, 33, 255)
  let v ← assign v (K.SECAM_COLOR_IND + 2) (255, 33, 33)
  let v ← assign v (K.SECAM_COLOR_IND + 3) (255, 80, 255)
  let v ← assign v (K.SECAM_COLOR_IND + 4) (127, 255, 0)
  let v ← assign v (K.SECAM_COLOR_IND + 5) (127, 255, 255)
  let v ← assign v (K.SECAM_COLOR_IND + 6) (255, 255, 63)
  assign v (K.SECAM_COLOR_IND + 7) (255, 255, 255)

/-- The web-safe triples in nested-descending order: red, green and blue
levels each running from 255 down to 0, black left out. -/
def nestedDescending : List RGB :=
  ([255, 204, 153, 102, 51, 0] : List Int).flatMap fun r =>
    ([255, 204, 153, 102, 51, 0] : List Int).flatMap fun g =>
      ([255, 204, 153, 102, 51, 0] : List Int).flatMap fun b =>
        if r = 0 ∧ g = 0 ∧ b = 0 then [] else [(r, g, b)]

/-- The web-safe triples as the loops list them: red and green levels running
from 255 down to 0, the blue level (innermost) from 0 up to 255, black left out. -/
def webSafeListing : List RGB :=
  ([255, 204, 153, 102, 51, 0] : List Int).flatMap fun r =>
    ([255, 204, 153, 102, 51, 0] : List Int).flatMap fun g =>
      ([0, 51, 102, 153, 204, 255] : List Int).flatMap fun b =>
        if r = 0 ∧ g = 0 ∧ b = 0 then [] else [(r, g, b)]

/-- The indices that `init_custom_pallete` overwrites at its end. -/
def reservedIndices (K : PaletteConsts) : List Nat :=
  [K.BLACK_COLOR_IND, K.RED_COLOR_IND, K.WHITE_COLOR_IND, K.SECAM_COLOR_IND + 0,
   K.SECAM_COLOR_IND + 1, K.SECAM_COLOR_IND + 2, K.SECAM_COLOR_IND + 3, K.SECAM_COLOR_IND + 4,
   K.SECAM_COLOR_IND + 5, K.SECAM_COLOR_IND + 6, K.SECAM_COLOR_IND + 7]

/-- Constants for the examples: 20 random colours, black, red and white at
215, 216, 217 and the SECAM colours from 220 on. -/
def demoConsts : PaletteConsts := ⟨20, 215, 216, 217, 220⟩

/-- Constants under which the black slot is also the SECAM slot 1. -/
def clashConsts : PaletteConsts := ⟨20, 221, 216, 217, 220⟩

/-- The eleven overwrites of lines 408-431 applied in order to a table that
holds all the indices. -/
def overwriteReserved (K : PaletteConsts) (v : List RGB) : List RGB :=
  ((((((((((v.set K.BLACK_COLOR_IND (0, 0, 0)).set K.RED_COLOR_IND (255, 0, 0)).set
    K.WHITE_COLOR_IND (255, 255, 255)).set (K.SECAM_COLOR_IND + 0) (0, 0, 0)).set
    (K.SECAM_COLOR_IND + 1) (33, 33, 255)).set (K.SECAM_COLOR_IND + 2) (255, 33, 33)).set
    (K.SECAM_COLOR_IND + 3) (255, 80, 255)).set (K.SECAM_COLOR_IND + 4) (127, 255, 0)).set
    (K.SECAM_COLOR_IND + 5) (127, 255, 255)).set (K.SECAM_COLOR_IND + 6) (255, 255, 63)).set
    (K.SECAM_COLOR_IND + 7) (255, 255, 255)

end ExportScreen

/-!
# AtariExperiment: choosing the action

A shallow embedding of `selectAction` and its helpers in
`Hypercube_NEAT/src/Experiments/HCUBE_AtariExperiment.cpp`, in the build with
`CON_ACTION` defined (line 13). Activations (`float`) are rationals, so there
is no NaN among them.
-/

namespace AtariExperiment

/-- The enumerators of ALE's `Action` that `map_to_action` returns; `other`
stands for the remaining enumerators, which are declared outside the sources. -/
inductive Action where
  | PLAYER_A_NOOP
  | PLAYER_A_FIRE
  | PLAYER_A_UP
  | PLAYER_A_RIGHT
  | PLAYER_A_LEFT
  | PLAYER_A_DOWN
  | PLAYER_A_UPRIGHT
  | PLAYER_A_UPLEFT
  | PLAYER_A_DOWNRIGHT
  | PLAYER_A_DOWNLEFT
  | PLAYER_A_UPFIRE
  | PLAYER_A_RIGHTFIRE
  | PLAYER_A_LEFTFIRE
  | PLAYER_A_DOWNFIRE
  | PLAYER_A_UPRIGHTFIRE
  | PLAYER_A_UPLEFTFIRE
  | PLAYER_A_DOWNRIGHTFIRE
  | PLAYER_A_DOWNLEFTFIRE
  | other (code : Nat)
  deriving DecidableEq, Repr

open Action

/-- Embedding of `AtariExperiment::is_allowable`, lines 26-32: a linear search
of `ale.legal_actions`. -/
def is_allowable : List Action → Action → Bool
  | [], _ => false
  | x :: rest, a => if a = x then true else is_allowable rest a

/-- Embedding of `map_to_action`, lines 34-98. `indx` is an `int`; the indices
passed are the values `x + y * 3`, which are not negative. -/
def map_to_action (indx : Nat) (firing : Bool) : Action :=
  if !firing then
    match indx with
    | 0 => PLAYER_A_UPLEFT
    | 1 => PLAYER_A_UP
    | 2 => PLAYER_A_UPRIGHT
    | 3 => PLAYER_A_LEFT
    | 4 => PLAYER_A_NOOP
    | 5 => PLAYER_A_RIGHT
    | 6 => PLAYER_A_DOWNLEFT
    | 7 => PLAYER_A_DOWN
    | 8 => PLAYER_A_DOWNRIGHT
    | _ => PLAYER_A_NOOP
  else
    match indx with
    | 0 => PLAYER_A_UPLEFTFIRE
    | 1 => PLAYER_A_UPFIRE
    | 2 => PLAYER_A_UPRIGHTFIRE
    | 3 => PLAYER_A_LEFTFIRE
    | 4 => PLAYER_A_FIRE
    | 5 => PLAYER_A_RIGHTFIRE
    | 6 => PLAYER_A_DOWNLEFTFIRE
    | 7 => PLAYER_A_DOWNFIRE
    | 8 => PLAYER_A_DOWNRIGHTFIRE
    | _ => PLAYER_A_NOOP

/-- The vector `activations` after the two loops of lines 417-421:
`getValue x y` is `substrate->getValue(Node(x, y, outputLayerIndx))`. -/
def activations (getValue : Nat → Nat → ℚ) : List (ℚ × Nat) :=
  [0, 1, 2].foldl (fun acts x =>
    [0, 1, 2].foldl (fun acts y => acts ++ [(getValue x y, x + y * 3)]) acts) []

/-- The loop of lines 435-444 over the entries it visits; `none` means the
loop ended without a `return`. -/
def selectLoop (legal_actions : List Action) (firing : Bool) :
    List (ℚ × Nat) → Option Action
  | [] => none
  | p :: rest =>
    -- try action as is
    if is_allowable legal_actions (map_to_action p.2 firing) then
      some (map_to_action p.2 firing)
    -- if that isn't legal and we were firing, see if not firing makes it legal
    else if is_allowable legal_actions (map_to_action p.2 (!firing)) then
      some (map_to_action p.2 (!firing))
    else selectLoop legal_actions firing rest

/-- Embedding of `AtariExperiment::selectAction`, lines 407-445 (the branch
under `CON_ACTION`). `sort` is what `std::sort` with `pair_sort_pred` does to
the vector (the order it gives to equal activations is not specified);
`fire_output` is `substrate->getValue(Node(0, 0, outputLayerIndx + 1))`. The
result is the action returned, or `none` when the loop over the entries 0..8
ends without returning. -/
def selectAction (sort : List (ℚ × Nat) → List (ℚ × Nat)) (legal_actions : List Action)
    (getValue : Nat → Nat → ℚ) (fire_output : ℚ) : Option Action :=
  let firing : Bool := decide (fire_output > 0)
  let activations := activations getValue
  let activations := sort activations
  let activations := activations.reverse
  selectLoop legal_actions firing (activations.take 9)

/-- Some variant of direction `d` (firing or not) is in the legal set. -/
def HasLegalVariant (legal_actions : List Action) (d : Nat) : Prop :=
  map_to_action d true ∈ legal_actions ∨ map_to_action d false ∈ legal_actions

/-- A grid of activations for the examples: direction `x + 3 * y` has
activation `x + 3 * y`. -/
def demoGrid (x y : Nat) : ℚ := (x + 3 * y : Nat)

/-- A sorting routine for the examples: insertion sort by activation. -/
def demoSort (l : List (ℚ × Nat)) : List (ℚ × Nat) :=
  l.insertionSort fun a b => a.1 ≤ b.1

end AtariExperiment

namespace ExportScreen

/-! # Theorems -/

/-! ## Palette lookup -/

/-- C1. With a base palette of 256 packed entries, a code `v` in `0..255`
resolves to the three shifted and masked components of `p[v]`, and a code `v`
with `256 ≤ v < 256 + extendedLen` resolves to the triple `extended[v - 256]`. -/
theorem get_rgb_from_pallete_spec (p : List Nat) (ext : List RGB) (v : Int)
    (hp : p.length = 256) :
    (0 ≤ v → v ≤ 255 →
      get_rgb_from_pallete ⟨some p, ext⟩ v =
        .ok ((((p.getD v.toNat 0) >>> 16) &&& 0xff : Nat),
             (((p.getD v.toNat 0) >>> 8) &&& 0xff : Nat),
             (((p.getD v.toNat 0) &&& 0xff : Nat) : Int))) ∧
    (256 ≤ v → v < 256 + ext.length →
      ∃ c, ext[(v - 256).toNat]? = some c ∧
        get_rgb_from_pallete ⟨some p, ext⟩ v = .ok c) := by
  constructor
  · intro h0 h255
    have hlt : v.toNat < p.length := by omega
    simp only [get_rgb_from_pallete]
    rw [if_pos (by omega), if_neg (by omega)]
    simp [List.getElem?_eq_getElem hlt, List.getD_eq_getElem?_getD]
  · intro h256 hlt
    have hidx : (v - 256).toNat < ext.length := by omega
    refine ⟨ext[(v - 256).toNat], List.getElem?_eq_getElem hidx, ?_⟩
    simp only [get_rgb_from_pallete]
    rw [if_neg (by omega), if_pos (by omega)]
    simp [List.getElem?_eq_getElem hidx]

/-- Witness for C1: a 256-entry palette holding red at index 1 and one extra colour. -/
theorem get_rgb_from_pallete_spec_witness :
    get_rgb_from_pallete ⟨some (0 :: 0xff0000 :: List.replicate 254 0), [(1, 2, 3)]⟩ 1
        = .ok (255, 0, 0) ∧
    (∃ c, [((1, 2, 3) : RGB)][((256 : Int) - 256).toNat]? = some c ∧
      get_rgb_from_pallete ⟨some (0 :: 0xff0000 :: List.replicate 254 0), [(1, 2, 3)]⟩ 256
        = .ok c) :=
  ⟨(get_rgb_from_pallete_spec (0 :: 0xff0000 :: List.replicate 254 0) [(1, 2, 3)] 1
      (by simp only [List.length_cons, List.length_replicate])).1 (by decide) (by decide),
   (get_rgb_from_pallete_spec (0 :: 0xff0000 :: List.replicate 254 0) [(1, 2, 3)] 256
      (by simp only [List.length_cons, List.length_replicate])).2 (by decide) (by decide)⟩

/-- C2 (the code at the boundary). For `v = 256 + extendedLen` the assertion
`val <= v_custom_pallete.size()` holds, so the lookup is not rejected by the
range check: it goes on to index the extended palette one past its end. -/
theorem get_rgb_from_pallete_at_end (p : List Nat) (ext : List RGB) :
    get_rgb_from_pallete ⟨some p, ext⟩ (256 + ext.length) = .error .outOfBounds ∧
    get_rgb_from_pallete ⟨some p, ext⟩ (256 + ext.length) ≠ .error .assertion := by
  have h : get_rgb_from_pallete ⟨some p, ext⟩ (256 + ext.length) = .error .outOfBounds := by
    simp only [get_rgb_from_pallete]
    rw [if_neg (by omega), if_pos (by omega)]
    have : (256 + (ext.length : Int) - 256).toNat = ext.length := by omega
    simp [this]
  exact ⟨h, by rw [h]; decide⟩

/-! ## Chunk framing -/

theorem crcBit_lt (reg : Nat) (h : reg < 2 ^ 32) : crcBit reg < 2 ^ 32 := by
  have hs : reg >>> 1 < 2 ^ 32 := by
    rw [Nat.shiftRight_eq_div_pow]; omega
  unfold crcBit
  split
  · exact Nat.xor_lt_two_pow hs (by norm_num)
  · exact hs

theorem crcByte_lt (reg byte : Nat) (h : reg < 2 ^ 32) : crcByte reg byte < 2 ^ 32 := by
  have hb : byte % 256 < 2 ^ 32 := by omega
  have h0 : reg ^^^ (byte % 256) < 2 ^ 32 := Nat.xor_lt_two_pow h hb
  unfold crcByte
  exact crcBit_lt _ (crcBit_lt _ (crcBit_lt _ (crcBit_lt _ (crcBit_lt _ (crcBit_lt _
    (crcBit_lt _ (crcBit_lt _ h0)))))))

theorem crcUpdate_lt (buf : List Nat) (reg : Nat) (h : reg < 2 ^ 32) :
    crcUpdate reg buf < 2 ^ 32 := by
  induction buf generalizing reg with
  | nil => simpa [crcUpdate] using h
  | cons b bs ih =>
    simp only [crcUpdate, List.foldl_cons]
    exact ih _ (crcByte_lt reg b h)

theorem crcUpdate_append (reg : Nat) (xs ys : List Nat) :
    crcUpdate reg (xs ++ ys) = crcUpdate (crcUpdate reg xs) ys := by
  simp [crcUpdate, List.foldl_append]

theorem xor_ones_ones (x : Nat) : (x ^^^ 0xFFFFFFFF) ^^^ 0xFFFFFFFF = x := by
  rw [Nat.xor_assoc, Nat.xor_self, Nat.xor_zero]

theorem ieeeCrc32_lt (bs : List Nat) : ieeeCrc32 bs < 2 ^ 32 :=
  Nat.xor_lt_two_pow (crcUpdate_lt bs _ (by norm_num)) (by norm_num)

theorem crc32_zero (bs : List Nat) : crc32 0 bs = ieeeCrc32 bs := by
  simp [crc32, ieeeCrc32]

/-- Continuing a CRC: `crc32(crc32(0, t), d)` is the one-shot CRC of `t ++ d`. -/
theorem crc32_incremental (t d : List Nat) :
    crc32 (crc32 0 t) d = ieeeCrc32 (t ++ d) := by
  rw [crc32_zero]
  unfold crc32
  rw [Nat.mod_eq_of_lt (ieeeCrc32_lt t)]
  unfold ieeeCrc32
  rw [xor_ones_ones, crcUpdate_append]

theorem u8_shift (n k : Nat) : u8 ((n : Int) >>> k) = n / 2 ^ k % 256 := by
  unfold u8
  rw [Int.shiftRight_eq_div_pow]
  have h : ((n : Int) / ((2 ^ k : Nat) : Int)) % 256 = ((n / 2 ^ k % 256 : Nat) : Int) := by
    push_cast; rfl
  rw [h, Int.toNat_ofNat]

theorem u8_cast (n : Nat) : u8 (n : Int) = n % 256 := by
  unfold u8
  omega

theorem u8_be32 (n : Nat) :
    [u8 ((n : Int) >>> (24 : Nat)), u8 ((n : Int) >>> (16 : Nat)), u8 ((n : Int) >>> (8 : Nat)),
      u8 (n : Int)] = be32 n := by
  rw [u8_shift, u8_shift, u8_shift, u8_cast]
  rfl

theorem crc_be32 (c : Nat) :
    [((c % 2 ^ 32) >>> 24) % 256, ((c % 2 ^ 32) >>> 16) % 256, ((c % 2 ^ 32) >>> 8) % 256,
      c % 2 ^ 32 % 256] = be32 c := by
  have e24 : (2 : Nat) ^ 24 = 16777216 := by norm_num
  have e16 : (2 : Nat) ^ 16 = 65536 := by norm_num
  have e8 : (2 : Nat) ^ 8 = 256 := by norm_num
  have e32 : (2 : Nat) ^ 32 = 4294967296 := by norm_num
  have h24 : c % 4294967296 / 16777216 % 256 = c / 16777216 % 256 := by omega
  have h16 : c % 4294967296 / 65536 % 256 = c / 65536 % 256 := by omega
  have h8 : c % 4294967296 / 256 % 256 = c / 256 % 256 := by omega
  have h0 : c % 4294967296 % 256 = c % 256 := by omega
  simp only [be32, Nat.shiftRight_eq_div_pow, e24, e16, e8, e32, h24, h16, h8, h0]

theorem decode32_be32 (n : Nat) (h : n < 2 ^ 32) : decode32 (be32 n) = some n := by
  simp only [be32, decode32]
  congr 1
  omega

/-- The frame of a chunk: length, tag, data, CRC over tag and data. -/
theorem writePNGChunk_eq (out t d : List Nat) (ht : t.length = 4) :
    writePNGChunk out t d d.length =
      out ++ (be32 d.length ++ t ++ d ++ be32 (ieeeCrc32 (t ++ d))) := by
  obtain ⟨t0, t1, t2, t3, rfl⟩ : ∃ a b c e, t = [a, b, c, e] := by
    match t, ht with
    | [a, b, c, e], _ => exact ⟨a, b, c, e, rfl⟩
  have h24 := u8_shift d.length 24
  have h16 := u8_shift d.length 16
  have h8 := u8_shift d.length 8
  have h0 := u8_cast d.length
  unfold writePNGChunk
  simp only [h24, h16, h8, h0, List.getD_cons_zero, List.getD_cons_succ, List.drop_succ_cons,
    List.drop_zero, Int.toNat_ofNat, List.take_length]
  by_cases hd : d = []
  · subst hd
    simp only [List.length_nil, Int.ofNat_zero, gt_iff_lt, lt_self_iff_false, if_false,
      List.append_nil]
    have hc := crc_be32 (crc32 0 [t0, t1, t2, t3])
    rw [crc32_zero] at hc
    rw [crc32_zero, hc]
    simp [be32]
  · have hpos : (d.length : Int) > 0 := by
      have := List.length_pos.mpr hd
      omega
    rw [if_pos hpos]
    simp only []
    have hmod : crc32 0 [t0, t1, t2, t3] % 2 ^ 32 = crc32 0 [t0, t1, t2, t3] := by
      rw [crc32_zero]; exact Nat.mod_eq_of_lt (ieeeCrc32_lt _)
    have hc := crc_be32 (crc32 (crc32 0 [t0, t1, t2, t3]) d)
    rw [crc32_incremental] at hc
    rw [hmod, crc32_incremental, hc]
    simp [be32]

/-- C4. For a four-byte tag `t` and data `d` of length `n < 2 ^ 31`, the chunk
writer appends exactly the `n + 12` bytes `be32 n ++ t ++ d ++ be32 (crc)`,
where `crc` is the IEEE CRC32 of `t ++ d`; the incremental computation
`crc32(crc32(0, t), d)` is that one-shot CRC, also for empty `d`, and `be32`
is the big-endian encoding (decoding it gives the number back). -/
theorem writePNGChunk_frame (out t d : List Nat) (ht : t.length = 4)
    (hn : d.length < 2 ^ 31) :
    writePNGChunk out t d d.length =
      out ++ (be32 d.length ++ t ++ d ++ be32 (ieeeCrc32 (t ++ d))) ∧
    (be32 d.length ++ t ++ d ++ be32 (ieeeCrc32 (t ++ d))).length = d.length + 12 ∧
    crc32 (crc32 0 t) d = ieeeCrc32 (t ++ d) ∧
    crc32 0 t = ieeeCrc32 (t ++ []) ∧
    decode32 (be32 d.length) = some d.length ∧
    decode32 (be32 (ieeeCrc32 (t ++ d))) = some (ieeeCrc32 (t ++ d)) := by
  refine ⟨writePNGChunk_eq out t d ht, ?_, crc32_incremental t d, ?_, ?_, ?_⟩
  · simp [be32, ht]; omega
  · rw [List.append_nil, crc32_zero]
  · exact decode32_be32 _ (by omega)
  · exact decode32_be32 _ (ieeeCrc32_lt _)

/-- Witness for C4: the `IEND` chunk, whose CRC is `AE 42 60 82`. -/
theorem writePNGChunk_frame_witness :
    writePNGChunk [] (cstr "IEND") [] ((([] : List Nat).length : Nat) : Int) =
      [] ++ (be32 0 ++ cstr "IEND" ++ [] ++ be32 0xAE426082) :=
  (writePNGChunk_frame [] (cstr "IEND") [] (by decide) (by decide)).1

/-! ## Filling the scanline buffer -/

theorem poke_append (pre suf : List Nat) (x idx : Nat) (v : Int) (h : idx = pre.length) :
    poke (pre ++ x :: suf) idx v = .ok (pre ++ u8 v :: suf) := by
  subst h
  simp [poke]

theorem storeRGB_append (pre suf : List Nat) (x0 x1 x2 ptr j : Nat) (c : RGB)
    (h : ptr + j * 3 = pre.length) :
    storeRGB (pre ++ x0 :: x1 :: x2 :: suf) ptr j c = .ok (pre ++ rgbBytes c ++ suf) := by
  have h1 := poke_append pre (x1 :: x2 :: suf) x0 (ptr + (j * 3 + 0)) c.1 (by omega)
  have h2 := poke_append (pre ++ [u8 c.1]) (x2 :: suf) x1 (ptr + (j * 3 + 1)) c.2.1
    (by simp; omega)
  have h3 := poke_append (pre ++ [u8 c.1, u8 c.2.1]) suf x2 (ptr + (j * 3 + 2)) c.2.2
    (by simp; omega)
  simp only [List.append_assoc, List.singleton_append, List.cons_append, List.nil_append]
    at h2 h3
  unfold storeRGB
  rw [h1]
  show (poke (pre ++ u8 c.1 :: x1 :: x2 :: suf) (ptr + (j * 3 + 1)) c.2.1 >>= fun buf =>
    poke buf (ptr + (j * 3 + 2)) c.2.2) = _
  rw [h2]
  show poke (pre ++ u8 c.1 :: u8 c.2.1 :: x2 :: suf) (ptr + (j * 3 + 2)) c.2.2 = _
  rw [h3]
  simp [rgbBytes]

theorem drop_three (l : List Nat) (n : Nat) (h : n + 3 ≤ l.length) :
    ∃ x0 x1 x2, l.drop n = x0 :: x1 :: x2 :: l.drop (n + 3) := by
  refine ⟨l[n], l[n + 1], l[n + 2], ?_⟩
  rw [List.drop_eq_getElem_cons (by omega : n < l.length),
    List.drop_eq_getElem_cons (by omega : n + 1 < l.length),
    List.drop_eq_getElem_cons (by omega : n + 1 + 1 < l.length)]

theorem length_rgbBytes (c : RGB) : (rgbBytes c).length = 3 := rfl

theorem length_resolved (pal : Palette) (l : List Int)
    (hres : ∀ v ∈ l, ∃ c, get_rgb_from_pallete pal v = .ok c) :
    (l.flatMap (resolveBytes pal)).length = 3 * l.length := by
  induction l with
  | nil => rfl
  | cons v vs ih =>
    obtain ⟨c, hc⟩ := hres v (List.mem_cons_self _ _)
    have := ih fun x hx => hres x (List.mem_cons_of_mem _ hx)
    simp only [List.flatMap_cons, List.length_append, List.length_cons, this, resolveBytes, hc,
      length_rgbBytes]
    omega

theorem length_indexedRowBytes (pal : Palette) (row : List Int)
    (hres : ∀ v ∈ row, ∃ c, get_rgb_from_pallete pal v = .ok c) :
    (indexedRowBytes pal row).length = 1 + 3 * row.length := by
  simp only [indexedRowBytes, List.length_cons, length_resolved pal row hres]
  omega

/-- The inner loop of the indexed exporters writes the pixel bytes of the row
one after the other, starting at `buf_ptr`. -/
theorem indexedPixels_fold (pal : Palette) (m : List (List Int)) (i ptr : Nat)
    (row : List Int) (pre rest : List Nat) (hrow : m[i]? = some row)
    (hres : ∀ v ∈ row, ∃ c, get_rgb_from_pallete pal v = .ok c)
    (hptr : pre.length = ptr) (hrest : 3 * row.length ≤ rest.length) (k : Nat)
    (hk : k ≤ row.length) :
    (List.range k).foldlM (indexedPixel pal m i ptr) (pre ++ rest) =
      .ok (pre ++ (row.take k).flatMap (resolveBytes pal) ++ rest.drop (3 * k)) := by
  induction k with
  | zero => simp [pure, Except.pure]
  | succ k ih =>
    have hklt : k < row.length := by omega
    rw [List.range_succ, List.foldlM_append, ih (by omega)]
    obtain ⟨x0, x1, x2, hdrop⟩ := drop_three rest (3 * k) (by omega)
    obtain ⟨c, hc⟩ := hres row[k] (List.getElem_mem _)
    have hread : readMatrix m i k = .ok row[k] := by
      simp [readMatrix, hrow, List.getElem?_eq_getElem hklt]
    have hlen : (pre ++ (row.take k).flatMap (resolveBytes pal)).length = ptr + k * 3 := by
      rw [List.length_append, length_resolved pal _ fun v hv => hres v (List.mem_of_mem_take hv),
        List.length_take, hptr]
      omega
    have hstore := storeRGB_append (pre ++ (row.take k).flatMap (resolveBytes pal))
      (rest.drop (3 * k + 3)) x0 x1 x2 ptr k c hlen.symm
    have htake : (row.take (k + 1)).flatMap (resolveBytes pal) =
        (row.take k).flatMap (resolveBytes pal) ++ rgbBytes c := by
      rw [List.take_succ, List.flatMap_append, List.getElem?_eq_getElem hklt]
      simp [resolveBytes, hc]
    show (List.foldlM (indexedPixel pal m i ptr)
      (pre ++ (row.take k).flatMap (resolveBytes pal) ++ rest.drop (3 * k)) [k]) = _
    rw [List.foldlM_cons, hdrop]
    have hpix : indexedPixel pal m i ptr
        (pre ++ (row.take k).flatMap (resolveBytes pal) ++ x0 :: x1 :: x2 :: rest.drop (3 * k + 3))
        k = .ok (pre ++ (row.take k).flatMap (resolveBytes pal) ++ rgbBytes c ++
          rest.drop (3 * k + 3)) := by
      unfold indexedPixel
      rw [hread]
      show (get_rgb_from_pallete pal row[k] >>= fun c => storeRGB _ ptr k c) = _
      rw [hc]
      exact hstore
    rw [hpix, htake]
    simp [pure, Except.pure, bind, Except.bind, Nat.mul_succ]

theorem u8_zero : u8 0 = 0 := rfl

/-- One pass of the outer loop of the indexed exporters writes one scanline at
`buf_ptr` and advances `buf_ptr` by `1 + rowbytes`. -/
theorem indexedRow_eq (pal : Palette) (m : List (List Int)) (width i ptr : Nat)
    (row : List Int) (done rest : List Nat) (hrow : m[i]? = some row)
    (hw : row.length = width)
    (hres : ∀ v ∈ row, ∃ c, get_rgb_from_pallete pal v = .ok c)
    (hptr : done.length = ptr) (hrest : 1 + 3 * width ≤ rest.length) :
    indexedRow pal m width (ptr, done ++ rest) i =
      .ok (ptr + (1 + 3 * width),
        done ++ indexedRowBytes pal row ++ rest.drop (1 + 3 * width)) := by
  match rest, hrest with
  | [], hrest => exact absurd hrest (by simp)
  | x :: rest', hrest =>
    have hfold := indexedPixels_fold pal m i (ptr + 1) row (done ++ [0]) rest' hrow hres
      (by simp [hptr]) (by simp only [List.length_cons] at hrest; omega) row.length
      (Nat.le_refl _)
    rw [List.take_length] at hfold
    simp only [List.append_assoc, List.singleton_append] at hfold
    unfold indexedRow
    show (poke (done ++ x :: rest') ptr 0 >>= fun buf =>
      (List.range width).foldlM (indexedPixel pal m i (ptr + 1)) buf >>= fun buf =>
        pure (ptr + 1 + width * 3, buf)) = _
    rw [poke_append done rest' x ptr 0 hptr.symm, u8_zero]
    show ((List.range width).foldlM (indexedPixel pal m i (ptr + 1)) (done ++ 0 :: rest')
      >>= fun buf => pure (ptr + 1 + width * 3, buf)) = _
    rw [← hw, hfold]
    show Except.ok _ = Except.ok _
    have hd : List.drop (1 + 3 * row.length) (x :: rest') = List.drop (3 * row.length) rest' := by
      rw [Nat.add_comm 1, List.drop_succ_cons]
    rw [hd]
    simp only [indexedRowBytes, List.cons_append, List.append_assoc]
    congr 2
    omega

theorem length_indexedBytes (pal : Palette) (l : List (List Int)) (width : Nat)
    (hrect : ∀ row ∈ l, row.length = width) (hres : Resolves pal l) :
    (indexedBytes pal l).length = l.length * (1 + 3 * width) := by
  induction l with
  | nil => simp [indexedBytes]
  | cons row rows ih =>
    have h1 := length_indexedRowBytes pal row (hres row (List.mem_cons_self _ _))
    have h2 := ih (fun r hr => hrect r (List.mem_cons_of_mem _ hr))
      (fun r hr => hres r (List.mem_cons_of_mem _ hr))
    rw [hrect row (List.mem_cons_self _ _)] at h1
    unfold indexedBytes at h2 ⊢
    rw [List.flatMap_cons, List.length_append, List.length_cons, h1, h2, Nat.add_mul,
      Nat.one_mul]
    exact Nat.add_comm _ _

/-- After `k` passes the outer loop has written the first `k` scanlines. -/
theorem indexedRows_fold (pal : Palette) (m : List (List Int)) (width : Nat)
    (buf0 : List Nat) (hrect : ∀ row ∈ m, row.length = width) (hres : Resolves pal m)
    (hbuf : m.length * (1 + 3 * width) ≤ buf0.length) (k : Nat) (hk : k ≤ m.length) :
    (List.range k).foldlM (indexedRow pal m width) (0, buf0) =
      .ok (k * (1 + 3 * width),
        indexedBytes pal (m.take k) ++ buf0.drop (k * (1 + 3 * width))) := by
  induction k with
  | zero => simp [pure, Except.pure, indexedBytes]
  | succ k ih =>
    have hklt : k < m.length := by omega
    have hmem : m[k] ∈ m := List.getElem_mem _
    have hlen : (indexedBytes pal (m.take k)).length = k * (1 + 3 * width) := by
      rw [length_indexedBytes pal (m.take k) width
        (fun r hr => hrect r (List.mem_of_mem_take hr))
        (fun r hr => hres r (List.mem_of_mem_take hr)), List.length_take]
      congr 1
      omega
    have hmul : (k + 1) * (1 + 3 * width) ≤ m.length * (1 + 3 * width) :=
      Nat.mul_le_mul_right _ hk
    have hsucc : (k + 1) * (1 + 3 * width) = k * (1 + 3 * width) + (1 + 3 * width) :=
      Nat.succ_mul _ _
    have hstep := indexedRow_eq pal m width k (k * (1 + 3 * width)) m[k]
      (indexedBytes pal (m.take k)) (buf0.drop (k * (1 + 3 * width)))
      (List.getElem?_eq_getElem hklt) (hrect _ hmem) (hres _ hmem) hlen
      (by rw [List.length_drop]; omega)
    rw [List.range_succ, List.foldlM_append, ih (by omega)]
    show (List.foldlM (indexedRow pal m width) _ [k]) = _
    rw [List.foldlM_cons, hstep]
    show List.foldlM (indexedRow pal m width) _ [] = _
    rw [List.foldlM_nil]
    show Except.ok _ = Except.ok _
    rw [List.drop_drop, ← hsucc, List.take_succ, List.getElem?_eq_getElem hklt]
    simp only [indexedBytes, List.flatMap_append, List.flatMap_cons, List.flatMap_nil,
      List.append_assoc, Option.toList, List.append_nil]

theorem length_newArray (heap : Nat → Nat) (n : Nat) : (newArray heap n).length = n := by
  simp [newArray]

/-- For a rectangular matrix whose codes all resolve, the scanline loop of the
indexed exporters ends normally and fills the whole buffer with the scanlines
of the image, whatever the buffer held before. -/
theorem indexedScanlines_eq (pal : Palette) (heap : Nat → Nat) (m : List (List Int))
    (height width : Nat) (hrect : Rect m height width) (hres : Resolves pal m) :
    indexedScanlines pal heap m height width = .ok (indexedBytes pal m) := by
  obtain ⟨hh, hrows⟩ := hrect
  subst hh
  have hlen : (newArray heap ((width * 3 + 1) * m.length)).length =
      m.length * (1 + 3 * width) := by
    rw [length_newArray, Nat.mul_comm]
    congr 1
    omega
  have hfold := indexedRows_fold pal m width (newArray heap ((width * 3 + 1) * m.length)) hrows
    hres (by omega) m.length (Nat.le_refl _)
  rw [List.take_length, List.drop_of_length_le (by omega), List.append_nil] at hfold
  unfold indexedScanlines
  show ((List.range m.length).foldlM (indexedRow pal m width)
    (0, newArray heap ((width * 3 + 1) * m.length)) >>= fun st => pure st.2) = _
  rw [hfold]
  rfl

theorem length_heatRowBytes (row : List ℚ) : (heatRowBytes row).length = 1 + 3 * row.length := by
  have h : (row.flatMap fun v => rgbBytes (heatColour v)).length = 3 * row.length := by
    induction row with
    | nil => rfl
    | cons v vs ih =>
      rw [List.flatMap_cons, List.length_append, ih, length_rgbBytes, List.length_cons]
      omega
  simp only [heatRowBytes, List.length_cons, h]
  omega

/-- The inner loop of the heat plot writes the bytes of the row's entries one
after the other. -/
theorem heatCols_eq (ptr : Nat) (row : List ℚ) (j : Nat) (pre rest : List Nat)
    (hpre : pre.length = ptr + j * 3) (hrest : 3 * row.length ≤ rest.length) :
    heatCols ptr row j (pre ++ rest) =
      .ok (pre ++ (row.flatMap fun v => rgbBytes (heatColour v)) ++
        rest.drop (3 * row.length)) := by
  induction row generalizing j pre rest with
  | nil => simp [heatCols]
  | cons v vs ih =>
    simp only [List.length_cons] at hrest
    match rest, hrest with
    | [], hrest => exact absurd hrest (by simp)
    | [_], hrest => exact absurd hrest (by simp; omega)
    | [_, _], hrest => exact absurd hrest (by simp; omega)
    | x0 :: x1 :: x2 :: rest', hrest =>
      have hstore := storeRGB_append pre rest' x0 x1 x2 ptr j (heatColour v) hpre.symm
      have hnext := ih (j + 1) (pre ++ rgbBytes (heatColour v)) rest'
        (by rw [List.length_append, length_rgbBytes, hpre]; omega)
        (by simp only [List.length_cons] at hrest; omega)
      unfold heatCols
      show (storeRGB (pre ++ x0 :: x1 :: x2 :: rest') ptr j (heatColour v) >>= fun buf =>
        heatCols ptr vs (j + 1) buf) = _
      rw [hstore]
      show heatCols ptr vs (j + 1) (pre ++ rgbBytes (heatColour v) ++ rest') = _
      rw [hnext, List.flatMap_cons, List.length_cons]
      have hd : List.drop (3 * (vs.length + 1)) (x0 :: x1 :: x2 :: rest') =
          List.drop (3 * vs.length) rest' := by
        rw [Nat.mul_succ]
        rfl
      rw [hd]
      simp only [List.append_assoc]

theorem heatRow_eq (width ptr : Nat) (row : List ℚ) (done rest : List Nat)
    (hw : row.length = width) (hptr : done.length = ptr)
    (hrest : 1 + 3 * width ≤ rest.length) :
    heatRow width (ptr, done ++ rest) row =
      .ok (ptr + (1 + 3 * width), done ++ heatRowBytes row ++ rest.drop (1 + 3 * width)) := by
  match rest, hrest with
  | [], hrest => exact absurd hrest (by simp)
  | x :: rest', hrest =>
    have hcols := heatCols_eq (ptr + 1) row 0 (done ++ [0]) rest' (by simp [hptr])
      (by simp only [List.length_cons] at hrest; omega)
    simp only [List.append_assoc, List.singleton_append] at hcols
    unfold heatRow
    show (poke (done ++ x :: rest') ptr 0 >>= fun buf =>
      heatCols (ptr + 1) row 0 buf >>= fun buf => pure (ptr + 1 + width * 3, buf)) = _
    rw [poke_append done rest' x ptr 0 hptr.symm, u8_zero]
    show (heatCols (ptr + 1) row 0 (done ++ 0 :: rest') >>= fun buf =>
      pure (ptr + 1 + width * 3, buf)) = _
    rw [hcols]
    show Except.ok _ = Except.ok _
    have hd : List.drop (1 + 3 * width) (x :: rest') = List.drop (3 * row.length) rest' := by
      rw [Nat.add_comm 1, List.drop_succ_cons, hw]
    rw [hd]
    simp only [heatRowBytes, List.cons_append, List.append_assoc]
    congr 2
    omega

/-- The outer loop of the heat plot writes the scanlines of the rows it walks. -/
theorem heatRows_fold (width : Nat) (m : List (List ℚ)) (ptr : Nat) (done rest : List Nat)
    (hrect : ∀ row ∈ m, row.length = width) (hptr : done.length = ptr)
    (hrest : m.length * (1 + 3 * width) ≤ rest.length) :
    m.foldlM (heatRow width) (ptr, done ++ rest) =
      .ok (ptr + m.length * (1 + 3 * width),
        done ++ heatBytes m ++ rest.drop (m.length * (1 + 3 * width))) := by
  induction m generalizing ptr done rest with
  | nil => simp [heatBytes, pure, Except.pure]
  | cons row rows ih =>
    have hsucc : (rows.length + 1) * (1 + 3 * width) =
        (1 + 3 * width) + rows.length * (1 + 3 * width) := by
      rw [Nat.add_mul, Nat.one_mul, Nat.add_comm]
    rw [List.length_cons] at hrest ⊢
    have hstep := heatRow_eq width ptr row done rest (hrect row (List.mem_cons_self _ _)) hptr
      (by omega)
    have hnext := ih (ptr + (1 + 3 * width)) (done ++ heatRowBytes row)
      (rest.drop (1 + 3 * width)) (fun r hr => hrect r (List.mem_cons_of_mem _ hr))
      (by rw [List.length_append, length_heatRowBytes, hptr,
            hrect row (List.mem_cons_self _ _)])
      (by rw [List.length_drop]; omega)
    rw [List.foldlM_cons, hstep]
    show List.foldlM (heatRow width) _ rows = _
    rw [hnext, List.drop_drop, hsucc]
    simp only [heatBytes, List.flatMap_cons, List.append_assoc, Nat.add_assoc]

/-- For a rectangular matrix the scanline loop of the heat plot ends normally
and fills the whole buffer with the scanlines of the plot. -/
theorem heatScanlines_eq (heap : Nat → Nat) (m : List (List ℚ)) (height width : Nat)
    (hrect : Rect m height width) :
    heatScanlines heap m height width = .ok (heatBytes m) := by
  obtain ⟨hh, hrows⟩ := hrect
  subst hh
  have hlen : (newArray heap ((width * 3 + 1) * m.length)).length =
      m.length * (1 + 3 * width) := by
    rw [length_newArray, Nat.mul_comm]
    congr 1
    omega
  have hfold := heatRows_fold width m 0 [] (newArray heap ((width * 3 + 1) * m.length)) hrows
    rfl (by omega)
  rw [List.drop_of_length_le (by omega), List.append_nil, List.nil_append, List.nil_append]
    at hfold
  unfold heatScanlines
  show (m.foldlM (heatRow width) (0, newArray heap ((width * 3 + 1) * m.length)) >>=
    fun st => pure st.2) = _
  rw [hfold]
  rfl

/-! ## The exporters as chunk sequences -/

/-- Only the first `size` bytes behind the data pointer matter to the chunk writer. -/
theorem writePNGChunk_take (out t d : List Nat) (size : Int) :
    writePNGChunk out t d size = writePNGChunk out t (d.take size.toNat) size := by
  unfold writePNGChunk
  simp only [List.take_take, Nat.min_self]

/-- A chunk write with a size within the array appends one framed chunk
holding the first `size` bytes of the array. -/
theorem writePNGChunk_chunk (out t d : List Nat) (n : Nat) (ht : t.length = 4)
    (hn : n ≤ d.length) :
    writePNGChunk out t d (n : Int) = out ++ chunk t (d.take n) := by
  have h := writePNGChunk_eq out t (d.take n) ht
  rw [List.length_take, Nat.min_eq_left hn] at h
  rw [writePNGChunk_take, Int.toNat_ofNat, h, chunk, List.length_take, Nat.min_eq_left hn]

/-- Whatever its arguments, the chunk writer only appends to the file. -/
theorem writePNGChunk_appends (out t d : List Nat) (size : Int) :
    ∃ s, writePNGChunk out t d size = out ++ s := by
  unfold writePNGChunk
  by_cases h : size > 0
  · simp only [h, if_true, List.append_assoc]
    exact ⟨_, rfl⟩
  · simp only [h, if_false, List.append_assoc]
    exact ⟨_, rfl⟩

theorem toInt32_small (n : Nat) (h : n < 2 ^ 31) : toInt32 n = (n : Int) := by
  unfold toInt32
  omega

theorem length_ihdr (width height : Nat) : (ihdr width height).length = 13 := rfl

/-- The IHDR payload is the big-endian width, the big-endian height, and the
five fixed bytes. -/
theorem ihdr_eq (width height : Nat) :
    ihdr width height = be32 width ++ be32 height ++ [8, 2, 0, 0, 0] := by
  have hand : ∀ x : Nat, (x &&& 0xFF) % 256 = x % 256 := by
    intro x
    have := Nat.and_pow_two_sub_one_eq_mod x 8
    norm_num at this
    rw [this]
    omega
  simp only [ihdr, be32, Nat.shiftRight_eq_div_pow, hand, List.cons_append, List.nil_append]

theorem ihdr_chunk (out : List Nat) (width height : Nat) :
    writePNGChunk out (cstr "IHDR") (ihdr width height) 13 =
      out ++ chunk (cstr "IHDR") (ihdr width height) := by
  have h := writePNGChunk_chunk out (cstr "IHDR") (ihdr width height) 13 (by decide)
    (by rw [length_ihdr])
  rw [List.take_of_length_le (by rw [length_ihdr])] at h
  exact h

theorem iend_chunk (out : List Nat) :
    writePNGChunk out (cstr "IEND") [] 0 = out ++ chunk (cstr "IEND") [] :=
  writePNGChunk_chunk out (cstr "IEND") [] 0 (by decide) (Nat.le_refl _)

theorem idat_chunk (out z : List Nat) (hz : z.length < 2 ^ 31) :
    writePNGChunk out (cstr "IDAT") z (toInt32 z.length) = out ++ chunk (cstr "IDAT") z := by
  rw [toInt32_small _ hz]
  have h := writePNGChunk_chunk out (cstr "IDAT") z z.length (by decide) (Nat.le_refl _)
  rw [List.take_length] at h
  exact h

theorem takeWhile_nonzero (l : List Nat) (h : ∀ c ∈ l, c ≠ 0) :
    l.takeWhile (fun c => c ≠ 0) = l := by
  rw [List.takeWhile_eq_self_iff]
  intro c hc
  simpa using h c hc

theorem length_takeWhile_le (l : List Nat) :
    (l.takeWhile (fun c => c ≠ 0)).length ≤ l.length :=
  (List.takeWhile_sublist _).length_le

/-- A text chunk write appends one framed `tEXt` chunk whose payload is the
keyword, a NUL, and as many bytes as the text is long; those bytes are the
text itself when the text holds no NUL. -/
theorem writePNGText_chunk (heap : Nat → Nat) (out key text : List Nat)
    (hkey : ∀ c ∈ key, c ≠ 0) :
    ∃ q, q.length = text.length ∧ ((∀ c ∈ text, c ≠ 0) → q = text) ∧
      writePNGText heap out key text = out ++ chunk (cstr "tEXt") (key ++ 0 :: q) := by
  let data0 := newArray heap (key.length + 1 + text.length + 1)
  let s := text.takeWhile (fun c => c ≠ 0) ++ [0]
  let data1 := key ++ [0] ++ data0.drop (key.length + 1)
  let tail := data1.drop (key.length + 1 + s.length)
  have hs : s.length ≤ text.length + 1 := by
    have := length_takeWhile_le text
    simp only [s, List.length_append, List.length_singleton]
    omega
  have hd0 : data0.length = key.length + 1 + text.length + 1 := length_newArray _ _
  have hd1len : data1.length = key.length + 1 + text.length + 1 := by
    simp only [data1, List.length_append, List.length_singleton, List.length_drop, hd0]
    omega
  have h1 : strcpy data0 0 key = data1 := by
    simp only [strcpy, takeWhile_nonzero key hkey, List.take_zero, List.nil_append,
      List.length_append, List.length_singleton, Nat.zero_add, data1]
  have htake1 : data1.take (key.length + 1) = key ++ [0] := by
    simp only [data1]
    rw [List.take_append_of_le_length (by simp), List.take_of_length_le (by simp)]
  have h2 : strcpy data1 (key.length + 1) text = key ++ [0] ++ s ++ tail := by
    simp only [strcpy, htake1, s, tail]
  have htail : tail.length = text.length + 1 - s.length := by
    simp only [tail, List.length_drop, hd1len]
    omega
  refine ⟨(s ++ tail).take text.length, ?_, ?_, ?_⟩
  · rw [List.length_take, List.length_append, htail]
    omega
  · intro htext
    simp only [s, takeWhile_nonzero text htext, List.append_assoc]
    rw [List.take_append_of_le_length (Nat.le_refl _), List.take_length]
  · have hsize : (((key.length + 1 + text.length + 1 : Nat) : Int) - 1) =
        ((key.length + 1 + text.length : Nat) : Int) := by
      push_cast
      omega
    have hpay : (key ++ [0] ++ s ++ tail).take (key.length + 1 + text.length) =
        key ++ 0 :: (s ++ tail).take text.length := by
      have : key ++ [0] ++ s ++ tail = (key ++ [0]) ++ (s ++ tail) := by
        simp only [List.append_assoc]
      rw [this, List.take_append_eq_append_take]
      simp only [List.length_append, List.length_singleton]
      rw [List.take_of_length_le (by simp)]
      have : key.length + 1 + text.length - (key.length + 1) = text.length := by omega
      rw [this]
      simp only [List.append_assoc, List.singleton_append]
    unfold writePNGText
    show writePNGChunk out (cstr "tEXt")
      (strcpy (strcpy data0 0 key) (key.length + 1) text)
      (((key.length + 1 + text.length + 1 : Nat) : Int) - 1) = _
    rw [h1, h2, hsize, writePNGChunk_chunk out (cstr "tEXt") _ _ (by decide)
      (by simp only [List.length_append, List.length_singleton, htail]; omega), hpay]

theorem writePNGText_appends (heap : Nat → Nat) (out key text : List Nat) :
    ∃ s, writePNGText heap out key text = out ++ s :=
  writePNGChunk_appends _ _ _ _

/-- Once the file is open, `save_png` leaves in it the header and the IHDR
chunk of the screen dimensions, followed by whatever else it gets to write. -/
theorem save_png_starts (e : Exporter) (W : World) (m : List (List Int))
    (hopen : W.openOk = true) :
    ∃ rest, (save_png e W m).out =
      header ++ chunk (cstr "IHDR") (ihdr e.i_screen_width e.i_screen_height) ++ rest := by
  unfold save_png
  simp only [hopen, Bool.not_true, Bool.false_eq_true, if_false, ihdr_chunk]
  cases indexedScanlines e.toPalette W.heap m e.i_screen_height e.i_screen_width with
  | error f => exact ⟨[], by simp⟩
  | ok buffer =>
    simp only []
    cases W.compress (List.take (e.i_screen_height * (e.i_screen_width * 3 + 1)) buffer)
        (compmemsize e.i_screen_height e.i_screen_width) with
    | none => exact ⟨[], by simp⟩
    | some z =>
      simp only []
      obtain ⟨s1, h1⟩ := writePNGChunk_appends
        (header ++ chunk (cstr "IHDR") (ihdr e.i_screen_width e.i_screen_height))
        (cstr "IDAT") z (toInt32 z.length)
      rw [h1]
      obtain ⟨s2, h2⟩ := writePNGText_appends W.heap
        (header ++ chunk (cstr "IHDR") (ihdr e.i_screen_width e.i_screen_height) ++ s1)
        (cstr "ROM Name") e.Cartridge_Name
      rw [h2]
      obtain ⟨s3, h3⟩ := writePNGText_appends W.heap
        (header ++ chunk (cstr "IHDR") (ihdr e.i_screen_width e.i_screen_height) ++ s1 ++ s2)
        (cstr "ROM MD5") e.Cartridge_MD5
      rw [h3]
      obtain ⟨s4, h4⟩ := writePNGText_appends W.heap
        (header ++ chunk (cstr "IHDR") (ihdr e.i_screen_width e.i_screen_height) ++ s1 ++ s2
          ++ s3)
        (cstr "Display Format") e.Display_Format
      rw [h4, iend_chunk]
      exact ⟨s1 ++ s2 ++ s3 ++ s4 ++ chunk (cstr "IEND") [], by simp only [List.append_assoc]⟩

theorem take_indexedBytes (pal : Palette) (m : List (List Int)) (height width : Nat)
    (hrect : Rect m height width) (hres : Resolves pal m) :
    (indexedBytes pal m).take (height * (width * 3 + 1)) = indexedBytes pal m := by
  apply List.take_of_length_le
  rw [length_indexedBytes pal m width hrect.2 hres, hrect.1]
  apply Nat.le_of_eq
  congr 1
  omega


theorem storedCompress_small (src : List Nat) (cap : Nat) (z : List Nat)
    (h : storedCompress src cap = some z) : z.length < 2 ^ 31 := by
  unfold storedCompress at h
  split at h
  · next hc =>
    injection h with h
    subst h
    simp only [List.length_append, List.length_cons, List.length_nil, List.length_map, be32]
    omega
  · exact absurd h (by simp)

/-! ## Chunk order of `save_png` -/

/-- C3 (as the code has it). With a compressor whose output length fits an
`int`: every `save_png` call that runs to its end has written the 8-byte
header followed by IHDR, then exactly one IDAT, then the three tEXt chunks
with keywords "ROM Name", "ROM MD5", "Display Format" (keyword, NUL, and as
many bytes as the property is long), then IEND; the text chunks come after
the IDAT chunk. Such calls exist: the call runs to its end whenever the file
opens, the matrix has the screen's dimensions, its codes resolve and the
compressor succeeds. -/
theorem save_png_chunk_sequence (e : Exporter) (W : World) (m : List (List Int))
    (hW : ∀ src cap z, W.compress src cap = some z → z.length < 2 ^ 31) :
    ((save_png e W m).outcome = .finished →
      ∃ z q1 q2 q3, q1.length = e.Cartridge_Name.length ∧ q2.length = e.Cartridge_MD5.length ∧
        q3.length = e.Display_Format.length ∧
        (save_png e W m).out =
          header ++ chunk (cstr "IHDR") (ihdr e.i_screen_width e.i_screen_height) ++
            chunk (cstr "IDAT") z ++
            chunk (cstr "tEXt") (cstr "ROM Name" ++ 0 :: q1) ++
            chunk (cstr "tEXt") (cstr "ROM MD5" ++ 0 :: q2) ++
            chunk (cstr "tEXt") (cstr "Display Format" ++ 0 :: q3) ++
            chunk (cstr "IEND") []) ∧
    (W.openOk = true → Rect m e.i_screen_height e.i_screen_width → Resolves e.toPalette m →
      W.compress (indexedBytes e.toPalette m)
        (compmemsize e.i_screen_height e.i_screen_width) ≠ none →
      (save_png e W m).outcome = .finished) := by
  constructor
  · intro hfin
    unfold save_png at hfin ⊢
    by_cases hopen : W.openOk = true
    · simp only [hopen, Bool.not_true, Bool.false_eq_true, if_false, ihdr_chunk] at hfin ⊢
      cases hfill : indexedScanlines e.toPalette W.heap m e.i_screen_height e.i_screen_width with
      | error f => rw [hfill] at hfin; exact absurd hfin (by simp)
      | ok buffer =>
        rw [hfill] at hfin
        simp only [] at hfin ⊢
        cases hc : W.compress (List.take (e.i_screen_height * (e.i_screen_width * 3 + 1)) buffer)
            (compmemsize e.i_screen_height e.i_screen_width) with
        | none => rw [hc] at hfin; exact absurd hfin (by simp)
        | some z =>
          simp only []
          obtain ⟨q1, hq1, -, h1⟩ := writePNGText_chunk W.heap
            (header ++ chunk (cstr "IHDR") (ihdr e.i_screen_width e.i_screen_height) ++
              chunk (cstr "IDAT") z) (cstr "ROM Name") e.Cartridge_Name (by decide)
          obtain ⟨q2, hq2, -, h2⟩ := writePNGText_chunk W.heap
            (header ++ chunk (cstr "IHDR") (ihdr e.i_screen_width e.i_screen_height) ++
              chunk (cstr "IDAT") z ++ chunk (cstr "tEXt") (cstr "ROM Name" ++ 0 :: q1))
            (cstr "ROM MD5") e.Cartridge_MD5 (by decide)
          obtain ⟨q3, hq3, -, h3⟩ := writePNGText_chunk W.heap
            (header ++ chunk (cstr "IHDR") (ihdr e.i_screen_width e.i_screen_height) ++
              chunk (cstr "IDAT") z ++ chunk (cstr "tEXt") (cstr "ROM Name" ++ 0 :: q1) ++
              chunk (cstr "tEXt") (cstr "ROM MD5" ++ 0 :: q2))
            (cstr "Display Format") e.Display_Format (by decide)
          refine ⟨z, q1, q2, q3, hq1, hq2, hq3, ?_⟩
          rw [idat_chunk _ z (hW _ _ z hc), h1, h2, h3, iend_chunk]
    · simp only [Bool.not_eq_true] at hopen
      simp only [hopen, Bool.not_false, if_true] at hfin
      exact absurd hfin (by simp)
  · intro hopen hrect hres hc
    unfold save_png
    simp only [hopen, Bool.not_true, Bool.false_eq_true, if_false,
      indexedScanlines_eq e.toPalette W.heap m _ _ hrect hres,
      take_indexedBytes e.toPalette m _ _ hrect hres]
    cases hz : W.compress (indexedBytes e.toPalette m)
        (compmemsize e.i_screen_height e.i_screen_width) with
    | none => exact absurd hz hc
    | some z => rfl

set_option maxRecDepth 100000 in
/-- Witness for C3: the 2 x 2 demo screen runs to its end and its stream has
the stated shape. -/
theorem save_png_chunk_sequence_witness :
    ∃ z q1 q2 q3, q1.length = demoExporter.Cartridge_Name.length ∧
      q2.length = demoExporter.Cartridge_MD5.length ∧
      q3.length = demoExporter.Display_Format.length ∧
      (save_png demoExporter demoWorld [[0, 1], [2, 3]]).out =
        header ++ chunk (cstr "IHDR") (ihdr demoExporter.i_screen_width
            demoExporter.i_screen_height) ++
          chunk (cstr "IDAT") z ++
          chunk (cstr "tEXt") (cstr "ROM Name" ++ 0 :: q1) ++
          chunk (cstr "tEXt") (cstr "ROM MD5" ++ 0 :: q2) ++
          chunk (cstr "tEXt") (cstr "Display Format" ++ 0 :: q3) ++
          chunk (cstr "IEND") [] :=
  (save_png_chunk_sequence demoExporter demoWorld [[0, 1], [2, 3]]
    storedCompress_small).1 (by decide)

set_option maxRecDepth 100000 in
/-- C3 (as stated) fails: in the stream written for the 2 x 2 demo screen the
chunk tags are IHDR, IDAT, tEXt, tEXt, tEXt, IEND, so the text chunks do not
come before the IDAT chunk. -/
theorem save_png_text_after_data :
    chunkTags (save_png demoExporter demoWorld [[0, 1], [2, 3]]).out =
        [cstr "IHDR", cstr "IDAT", cstr "tEXt", cstr "tEXt", cstr "tEXt", cstr "IEND"] ∧
      ¬ TextBeforeData (chunkTags (save_png demoExporter demoWorld [[0, 1], [2, 3]]).out) := by
  have h : chunkTags (save_png demoExporter demoWorld [[0, 1], [2, 3]]).out =
      [cstr "IHDR", cstr "IDAT", cstr "tEXt", cstr "tEXt", cstr "tEXt", cstr "IEND"] := by
    decide
  refine ⟨h, ?_⟩
  rw [h]
  intro hb
  exact absurd (hb 2 1 (by decide) (by decide)) (by decide)

/-! ## Header and IHDR of `save_png` -/

/-- C5. For screen dimensions between 1 and `2 ^ 31 - 1`, the stream of
`save_png` (once the file is open) begins with the bytes 137, 80, 78, 71, 13,
10, 26, 10, followed by the IHDR chunk, whose payload has 13 bytes: the first
four decode big-endian to the width, the next four to the height, and the
rest are 8, 2, 0, 0, 0. -/
theorem save_png_header_ihdr (e : Exporter) (W : World) (m : List (List Int))
    (hopen : W.openOk = true)
    (hw1 : 1 ≤ e.i_screen_width) (hw : e.i_screen_width < 2 ^ 31)
    (hh1 : 1 ≤ e.i_screen_height) (hh : e.i_screen_height < 2 ^ 31) :
    ∃ payload rest,
      (save_png e W m).out =
        [137, 80, 78, 71, 13, 10, 26, 10] ++
          (be32 13 ++ cstr "IHDR" ++ payload ++ be32 (ieeeCrc32 (cstr "IHDR" ++ payload))) ++
          rest ∧
      payload.length = 13 ∧
      decode32 (payload.take 4) = some e.i_screen_width ∧
      decode32 ((payload.drop 4).take 4) = some e.i_screen_height ∧
      payload.drop 8 = [8, 2, 0, 0, 0] := by
  obtain ⟨rest, hrest⟩ := save_png_starts e W m hopen
  refine ⟨ihdr e.i_screen_width e.i_screen_height, rest, ?_, length_ihdr _ _, ?_, ?_, ?_⟩
  · rw [hrest]
    rfl
  · rw [ihdr_eq]
    exact decode32_be32 _ (by omega)
  · rw [ihdr_eq]
    exact decode32_be32 _ (by omega)
  · rw [ihdr_eq]
    rfl

set_option maxRecDepth 100000 in
/-- Witness for C5: the 2 x 2 demo screen. -/
theorem save_png_header_ihdr_witness :
    ∃ payload rest,
      (save_png demoExporter demoWorld [[0, 1], [2, 3]]).out =
        [137, 80, 78, 71, 13, 10, 26, 10] ++
          (be32 13 ++ cstr "IHDR" ++ payload ++ be32 (ieeeCrc32 (cstr "IHDR" ++ payload))) ++
          rest ∧
      payload.length = 13 ∧
      decode32 (payload.take 4) = some 2 ∧
      decode32 ((payload.drop 4).take 4) = some 2 ∧
      payload.drop 8 = [8, 2, 0, 0, 0] :=
  save_png_header_ihdr demoExporter demoWorld [[0, 1], [2, 3]] (by decide) (by decide)
    (by decide) (by decide) (by decide)

/-! ## Layout of the indexed scanline buffer -/

/-- Indexing into a concatenation of blocks of equal length. -/
theorem getElem?_flatMap_block {α β : Type} (f : α → List β) (n : Nat) (l : List α)
    (hl : ∀ x ∈ l, (f x).length = n) (i : Nat) (x : α) (hx : l[i]? = some x)
    (off : Nat) (hoff : off < n) :
    (l.flatMap f)[i * n + off]? = (f x)[off]? := by
  induction l generalizing i with
  | nil => simp at hx
  | cons a as ih =>
    have ha : (f a).length = n := hl a (List.mem_cons_self _ _)
    cases i with
    | zero =>
      simp only [List.getElem?_cons_zero, Option.some.injEq] at hx
      subst hx
      rw [List.flatMap_cons, Nat.zero_mul, Nat.zero_add,
        List.getElem?_append_left (by omega)]
    | succ i =>
      simp only [List.getElem?_cons_succ] at hx
      have hidx : (i + 1) * n + off - (f a).length = i * n + off := by
        rw [ha, Nat.add_mul, Nat.one_mul]
        omega
      rw [List.flatMap_cons, List.getElem?_append_right
        (by rw [ha, Nat.add_mul, Nat.one_mul]; omega), hidx]
      exact ih (fun y hy => hl y (List.mem_cons_of_mem _ hy)) i hx

theorem resolves_of_isOk (pal : Palette) (m : List (List Int))
    (h : ∀ row ∈ m, ∀ v ∈ row, (get_rgb_from_pallete pal v).toBool = true) : Resolves pal m := by
  intro row hrow v hv
  have := h row hrow v hv
  cases hc : get_rgb_from_pallete pal v with
  | error f => rw [hc] at this; exact absurd this (by simp [Except.toBool])
  | ok c => exact ⟨c, rfl⟩

theorem get_rgb_base (p : List Nat) (ext : List RGB) (v : Int) (e : Nat) (h0 : 0 ≤ v)
    (h1 : v < 256) (he : p[v.toNat]? = some e) :
    get_rgb_from_pallete ⟨some p, ext⟩ v =
      .ok (((e >>> 16) &&& 0xff : Nat), ((e >>> 8) &&& 0xff : Nat), ((e &&& 0xff : Nat) : Int)) := by
  simp only [get_rgb_from_pallete]
  rw [if_pos h1, if_neg (by omega), he]

/-- C7 (with the byte count the listed body has). For the matrix
`[[0,1],[2,3]]` and a base palette whose entries 0-3 are the packed colours
(0,0,0), (255,0,0), (0,255,0), (0,0,255), the indexed scanline loop produces,
before compression, the 14-byte body
`[0, 0,0,0, 255,0,0, 0, 0,255,0, 0,0,255]`. -/
theorem scenario_two_by_two (p : List Nat) (ext : List RGB) (heap : Nat → Nat)
    (h0 : p[0]? = some 0x000000) (h1 : p[1]? = some 0xFF0000)
    (h2 : p[2]? = some 0x00FF00) (h3 : p[3]? = some 0x0000FF) :
    indexedScanlines ⟨some p, ext⟩ heap [[0, 1], [2, 3]] 2 2 =
      .ok [0, 0, 0, 0, 255, 0, 0, 0, 0, 255, 0, 0, 0, 255] ∧
    ([0, 0, 0, 0, 255, 0, 0, 0, 0, 255, 0, 0, 0, 255] : List Nat).length = 14 := by
  have g0 : get_rgb_from_pallete ⟨some p, ext⟩ 0 = .ok (0, 0, 0) := by
    rw [get_rgb_base p ext 0 _ (by decide) (by decide) h0]
    rfl
  have g1 : get_rgb_from_pallete ⟨some p, ext⟩ 1 = .ok (255, 0, 0) := by
    rw [get_rgb_base p ext 1 _ (by decide) (by decide) h1]
    rfl
  have g2 : get_rgb_from_pallete ⟨some p, ext⟩ 2 = .ok (0, 255, 0) := by
    rw [get_rgb_base p ext 2 _ (by decide) (by decide) h2]
    rfl
  have g3 : get_rgb_from_pallete ⟨some p, ext⟩ 3 = .ok (0, 0, 255) := by
    rw [get_rgb_base p ext 3 _ (by decide) (by decide) h3]
    rfl
  have hres : Resolves ⟨some p, ext⟩ [[0, 1], [2, 3]] := by
    intro row hrow v hv
    simp only [List.mem_cons, List.mem_singleton, List.not_mem_nil, or_false] at hrow
    rcases hrow with rfl | rfl
    · simp only [List.mem_cons, List.mem_singleton, List.not_mem_nil, or_false] at hv
      rcases hv with rfl | rfl
      · exact ⟨_, g0⟩
      · exact ⟨_, g1⟩
    · simp only [List.mem_cons, List.mem_singleton, List.not_mem_nil, or_false] at hv
      rcases hv with rfl | rfl
      · exact ⟨_, g2⟩
      · exact ⟨_, g3⟩
  refine ⟨?_, rfl⟩
  rw [indexedScanlines_eq _ heap [[0, 1], [2, 3]] 2 2 ⟨rfl, by decide⟩ hres]
  simp only [indexedBytes, indexedRowBytes, List.flatMap_cons, List.flatMap_nil, resolveBytes,
    g0, g1, g2, g3, rgbBytes, List.append_nil, List.cons_append, List.nil_append]
  rfl

set_option maxRecDepth 100000 in
/-- Witness for C7: the demo palette. -/
theorem scenario_two_by_two_witness :
    indexedScanlines demoPalette (fun _ => 0) [[0, 1], [2, 3]] 2 2 =
      .ok [0, 0, 0, 0, 255, 0, 0, 0, 0, 255, 0, 0, 0, 255] ∧
    ([0, 0, 0, 0, 255, 0, 0, 0, 0, 255, 0, 0, 0, 255] : List Nat).length = 14 :=
  scenario_two_by_two ([0x000000, 0xFF0000, 0x00FF00, 0x0000FF] ++ List.replicate 252 0) []
    (fun _ => 0) (by decide) (by decide) (by decide) (by decide)

set_option maxRecDepth 100000 in
/-- C7 (as stated) fails: the body produced for the scenario has 14 bytes
(2 rows of 1 + 3 * 2), not 21. -/
theorem scenario_body_not_21_bytes :
    ∃ body, indexedScanlines demoPalette (fun _ => 0) [[0, 1], [2, 3]] 2 2 = .ok body ∧
      body = [0, 0, 0, 0, 255, 0, 0, 0, 0, 255, 0, 0, 0, 255] ∧ body.length ≠ 21 :=
  ⟨[0, 0, 0, 0, 255, 0, 0, 0, 0, 255, 0, 0, 0, 255], by decide, rfl, by decide⟩

/-! ## Arithmetic in `double` -/

theorem bitsAux_zero (fuel : Nat) : bitsAux fuel 0 = 0 := by
  cases fuel <;> simp [bitsAux]

/-- The digit count brackets the number between two powers of two. -/
theorem bitsAux_spec (fuel : Nat) : ∀ n : Nat, n ≤ fuel →
    n < 2 ^ bitsAux fuel n ∧ (n ≠ 0 → 2 ^ (bitsAux fuel n - 1) ≤ n) := by
  induction fuel with
  | zero =>
    intro n hn
    have h0 : n = 0 := by omega
    subst h0
    exact ⟨by simp [bitsAux], fun h => absurd rfl h⟩
  | succ f ih =>
    intro n hn
    by_cases h0 : n = 0
    · subst h0
      exact ⟨by simp [bitsAux], fun h => absurd rfl h⟩
    · have hstep : bitsAux (f + 1) n = bitsAux f (n / 2) + 1 := by
        simp [bitsAux, h0]
      obtain ⟨hlt, hge⟩ := ih (n / 2) (by omega)
      rw [hstep]
      constructor
      · rw [pow_succ]
        omega
      · intro _
        rw [Nat.add_sub_cancel]
        by_cases h2 : n / 2 = 0
        · rw [h2, bitsAux_zero, pow_zero]
          omega
        · have hb : bitsAux f (n / 2) ≠ 0 := by
            intro hb
            rw [hb, pow_zero] at hlt
            omega
          have hpow : 2 ^ bitsAux f (n / 2) = 2 * 2 ^ (bitsAux f (n / 2) - 1) := by
            rw [← pow_succ']
            congr 1
            omega
          have := hge h2
          omega

theorem lt_two_pow_bitLength (n : Nat) : n < 2 ^ bitLength n :=
  (bitsAux_spec n n (Nat.le_refl n)).1

theorem two_pow_bitLength_le (n : Nat) (h : n ≠ 0) : 2 ^ (bitLength n - 1) ≤ n :=
  (bitsAux_spec n n (Nat.le_refl n)).2 h

theorem bitLength_zero : bitLength 0 = 0 := rfl

theorem rneDiv_cases (p q : Nat) : rneDiv p q = p / q ∨ rneDiv p q = p / q + 1 := by
  unfold rneDiv
  split_ifs <;> simp

theorem rneDiv_ge (p q k : Nat) (hq : 0 < q) (h : k * q ≤ p) : k ≤ rneDiv p q := by
  have hk : k ≤ p / q := (Nat.le_div_iff_mul_le hq).mpr h
  rcases rneDiv_cases p q with e | e <;> omega

theorem rneDiv_le (p q k : Nat) (hq : 0 < q) (h : p ≤ k * q) : rneDiv p q ≤ k := by
  have hk : p / q ≤ k := by
    calc p / q ≤ k * q / q := Nat.div_le_div_right h
      _ = k := Nat.mul_div_cancel k hq
  rcases Nat.lt_or_ge (p / q) k with hlt | hge
  · rcases rneDiv_cases p q with e | e <;> omega
  · have hkk : p / q = k := by omega
    have hmod : p % q = 0 := by
      have e := Nat.div_add_mod p q
      rw [hkk] at e
      have : q * k = k * q := Nat.mul_comm q k
      omega
    unfold rneDiv
    rw [hmod, if_pos (by omega), hkk]

theorem rneDiv_err (p q : Nat) (hq : 0 < q) :
    2 * (rneDiv p q * q) ≤ 2 * p + q ∧ 2 * p ≤ 2 * (rneDiv p q * q) + q := by
  have e := Nat.div_add_mod p q
  have hm := Nat.mod_lt p hq
  have e2 : (p / q + 1) * q = q * (p / q) + q := by ring
  have e3 : p / q * q = q * (p / q) := Nat.mul_comm _ _
  unfold rneDiv
  split_ifs with h1 h2 h3
  · rw [e3]; omega
  · rw [e2]; omega
  · rw [e3]; omega
  · rw [e2]; omega

/-- A fraction below `2 ^ B` has a binary exponent below `B`. -/
theorem binade_lt (a d B : Nat) (h : a < d * 2 ^ B) : binade a d < (B : Int) := by
  unfold binade
  by_contra hcon
  have hd : d < 2 ^ bitLength d := lt_two_pow_bitLength d
  split_ifs at hcon with htest
  · have hL : (B : Int) ≤ (bitLength a : Int) - (bitLength d : Int) := by omega
    have hnn : (0 : Int) ≤ (bitLength a : Int) - (bitLength d : Int) := by omega
    unfold scaled at htest
    rw [if_pos hnn] at htest
    simp only [] at htest
    have hle : B ≤ ((bitLength a : Int) - (bitLength d : Int)).toNat := by omega
    have hp : 2 ^ B ≤ 2 ^ ((bitLength a : Int) - (bitLength d : Int)).toNat :=
      Nat.pow_le_pow_right (by norm_num) hle
    have := Nat.mul_le_mul_left d hp
    omega
  · have hL : (B : Int) + 1 ≤ (bitLength a : Int) - (bitLength d : Int) := by omega
    have ha0 : a ≠ 0 := by
      intro h0
      rw [h0, bitLength_zero] at hL
      omega
    have ha := two_pow_bitLength_le a ha0
    have hle : bitLength d + B ≤ bitLength a - 1 := by omega
    have hp : 2 ^ (bitLength d + B) ≤ 2 ^ (bitLength a - 1) :=
      Nat.pow_le_pow_right (by norm_num) hle
    rw [pow_add] at hp
    have hB : 0 < 2 ^ B := by positivity
    have := Nat.mul_lt_mul_of_pos_right hd hB
    omega

/-- The shape of a rounded non-negative fraction below `2 ^ B`, `B ≤ 52`. -/
theorem ofFrac_shape (a d B : Nat) (hB : B ≤ 52) (h : a < d * 2 ^ B) :
    ∃ t : Nat, 53 ≤ t + B ∧
      Double.ofFrac (a : Int) d = ⟨(rneDiv (a * 2 ^ t) d : Int), -(t : Int)⟩ := by
  have hb := binade_lt a d B h
  have hr : roundExp a d ≤ (B : Int) - 53 := by
    unfold roundExp
    omega
  refine ⟨(-roundExp a d).toNat, by omega, ?_⟩
  have hneg : ¬ (0 : Int) ≤ roundExp a d := by omega
  have hexp : -(((-roundExp a d).toNat : Nat) : Int) = roundExp a d := by omega
  unfold Double.ofFrac
  simp only [Int.natAbs_ofNat, hexp]
  rw [if_neg (by omega)]
  unfold scaled
  rw [if_neg hneg]

theorem toRat_mk_neg (m : Int) (t : Nat) (ht : 0 < t) :
    Double.toRat ⟨m, -(t : Int)⟩ = (m : ℚ) / 2 ^ t := by
  unfold Double.toRat Double.num Double.den
  simp only []
  rw [if_neg (by omega), if_neg (by omega)]
  have : (-(-(t : Int))).toNat = t := by omega
  rw [this]
  push_cast
  rfl

/-- Rounding a non-negative fraction below `2 ^ B` (`B ≤ 52`) to a double:
the result is not negative, stays on the same side of every natural number,
and is within `2 ^ (B - 54)` of the fraction. -/
theorem ofFrac_spec (n : Int) (d B : Nat) (hn : 0 ≤ n) (hd : 0 < d) (hB : B ≤ 52)
    (hlt : (n : ℚ) / d < 2 ^ B) :
    0 ≤ (Double.ofFrac n d).num ∧
    (∀ k : Nat, (k : ℚ) ≤ (n : ℚ) / d → (k : ℚ) ≤ (Double.ofFrac n d).toRat) ∧
    (∀ k : Nat, (n : ℚ) / d ≤ k → (Double.ofFrac n d).toRat ≤ k) ∧
    |(Double.ofFrac n d).toRat - (n : ℚ) / d| * 2 ^ (54 - B) ≤ 1 := by
  obtain ⟨a, rfl⟩ := Int.eq_ofNat_of_zero_le hn
  have hdq : (0 : ℚ) < d := by exact_mod_cast hd
  have ha : a < d * 2 ^ B := by
    rw [div_lt_iff₀ hdq] at hlt
    have : (a : ℚ) < ((d * 2 ^ B : Nat) : ℚ) := by
      push_cast
      push_cast at hlt
      linarith
    exact_mod_cast this
  obtain ⟨t, ht, hshape⟩ := ofFrac_shape a d B hB ha
  have htpos : 0 < t := by omega
  have hval := toRat_mk_neg (rneDiv (a * 2 ^ t) d : Int) t htpos
  rw [hshape, hval]
  have h2t : (0 : ℚ) < 2 ^ t := by positivity
  refine ⟨?_, ?_, ?_, ?_⟩
  · unfold Double.num
    simp only []
    rw [if_neg (by omega)]
    exact Int.natCast_nonneg _
  · intro k hk
    rw [le_div_iff₀ hdq] at hk
    have hk' : k * d ≤ a := by exact_mod_cast hk
    have hm : k * 2 ^ t * d ≤ a * 2 ^ t := by
      calc k * 2 ^ t * d = k * d * 2 ^ t := by ring
        _ ≤ a * 2 ^ t := Nat.mul_le_mul_right _ hk'
    have := rneDiv_ge (a * 2 ^ t) d (k * 2 ^ t) hd hm
    rw [le_div_iff₀ h2t]
    exact_mod_cast this
  · intro k hk
    rw [div_le_iff₀ hdq] at hk
    have hk' : a ≤ k * d := by exact_mod_cast hk
    have hm : a * 2 ^ t ≤ k * 2 ^ t * d := by
      calc a * 2 ^ t ≤ k * d * 2 ^ t := Nat.mul_le_mul_right _ hk'
        _ = k * 2 ^ t * d := by ring
    have := rneDiv_le (a * 2 ^ t) d (k * 2 ^ t) hd hm
    rw [div_le_iff₀ h2t]
    exact_mod_cast this
  · obtain ⟨e1, e2⟩ := rneDiv_err (a * 2 ^ t) d hd
    have e1q : (2 : ℚ) * ((rneDiv (a * 2 ^ t) d : ℚ) * d) ≤ 2 * ((a : ℚ) * 2 ^ t) + d := by
      exact_mod_cast e1
    have e2q : (2 : ℚ) * ((a : ℚ) * 2 ^ t) ≤ 2 * ((rneDiv (a * 2 ^ t) d : ℚ) * d) + d := by
      exact_mod_cast e2
    have hsplit : (2 : ℚ) ^ (54 - B) * 2 ^ (t + B - 53) = 2 ^ (t + 1) := by
      rw [← pow_add]
      congr 1
      omega
    have hone : (1 : ℚ) ≤ 2 ^ (t + B - 53) := one_le_pow₀ (by norm_num)
    have hpos54 : (0 : ℚ) < 2 ^ (54 - B) := by positivity
    have hkey : |((rneDiv (a * 2 ^ t) d : Int) : ℚ) / 2 ^ t - ((a : Int) : ℚ) / d| * 2 ^ (t + 1) ≤ 1 := by
      have hx : (((rneDiv (a * 2 ^ t) d : Int) : ℚ) / 2 ^ t - ((a : Int) : ℚ) / d) * 2 ^ (t + 1) =
          (2 * ((rneDiv (a * 2 ^ t) d : ℚ) * d) - 2 * ((a : ℚ) * 2 ^ t)) / d := by
        push_cast
        field_simp
        ring
      have hp : (0 : ℚ) < 2 ^ (t + 1) := by positivity
      rw [← abs_of_pos hp, ← abs_mul, hx, abs_le]
      constructor
      · rw [le_div_iff₀ hdq]
        linarith
      · rw [div_le_iff₀ hdq]
        linarith
    calc |((rneDiv (a * 2 ^ t) d : Int) : ℚ) / 2 ^ t - ((a : Int) : ℚ) / d| * 2 ^ (54 - B)
        ≤ |((rneDiv (a * 2 ^ t) d : Int) : ℚ) / 2 ^ t - ((a : Int) : ℚ) / d| *
            (2 ^ (54 - B) * 2 ^ (t + B - 53)) := by
          apply mul_le_mul_of_nonneg_left _ (abs_nonneg _)
          calc (2 : ℚ) ^ (54 - B) = 2 ^ (54 - B) * 1 := (mul_one _).symm
            _ ≤ 2 ^ (54 - B) * 2 ^ (t + B - 53) := by
              apply mul_le_mul_of_nonneg_left hone hpos54.le
      _ = |((rneDiv (a * 2 ^ t) d : Int) : ℚ) / 2 ^ t - ((a : Int) : ℚ) / d| * 2 ^ (t + 1) := by
          rw [hsplit]
      _ ≤ 1 := hkey


theorem den_pos (x : Double) : 0 < x.den := by
  unfold Double.den
  split_ifs
  · exact Nat.one_pos
  · positivity

/-- Dropping the fraction of a double that is not negative is taking its floor. -/
theorem trunc_eq_floor (x : Double) (h0 : 0 ≤ x.num) : x.num.tdiv x.den = ⌊x.toRat⌋ := by
  unfold Double.toRat
  rw [Rat.floor_intCast_div_natCast, Int.tdiv_eq_ediv h0 (Int.natCast_nonneg _)]

theorem truncToInt_eq_floor (x : Double) (h0 : 0 ≤ x.num) (h1 : x.toRat < 2 ^ 31) :
    truncToInt x = ⌊x.toRat⌋ := by
  have hfl := trunc_eq_floor x h0
  have hnn : (0 : ℚ) ≤ x.toRat := by
    unfold Double.toRat
    have : (0 : ℚ) ≤ (x.num : ℚ) := by exact_mod_cast h0
    positivity
  have hlo : (0 : Int) ≤ ⌊x.toRat⌋ := Int.floor_nonneg.mpr hnn
  have hhi : ⌊x.toRat⌋ < 2 ^ 31 := by
    rw [Int.floor_lt]
    exact_mod_cast h1
  unfold truncToInt
  rw [hfl, if_pos ⟨by omega, hhi⟩]

theorem toRat_mul_eq (x y : Double) :
    ((x.num * y.num : Int) : ℚ) / ((x.den * y.den : Nat) : ℚ) = x.toRat * y.toRat := by
  unfold Double.toRat
  push_cast
  rw [div_mul_div_comm]

theorem toRat_add_eq (x y : Double) :
    ((x.num * y.den + y.num * x.den : Int) : ℚ) / ((x.den * y.den : Nat) : ℚ) =
      x.toRat + y.toRat := by
  have hx : (x.den : ℚ) ≠ 0 := by exact_mod_cast (den_pos x).ne'
  have hy : (y.den : ℚ) ≠ 0 := by exact_mod_cast (den_pos y).ne'
  unfold Double.toRat
  push_cast
  field_simp

/-- The product of two non-negative doubles is the exact product up to half a
unit in the last place. -/
theorem mul_spec (x y : Double) (B : Nat) (hx : 0 ≤ x.num) (hy : 0 ≤ y.num) (hB : B ≤ 52)
    (hlt : x.toRat * y.toRat < 2 ^ B) :
    0 ≤ (Double.mul x y).num ∧
    |(Double.mul x y).toRat - x.toRat * y.toRat| * 2 ^ (54 - B) ≤ 1 := by
  have h := ofFrac_spec (x.num * y.num) (x.den * y.den) B (Int.mul_nonneg hx hy)
    (Nat.mul_pos (den_pos x) (den_pos y)) hB (by rw [toRat_mul_eq]; exact hlt)
  rw [toRat_mul_eq] at h
  exact ⟨h.1, h.2.2.2⟩

/-- The sum of two non-negative doubles is the exact sum up to half a unit in
the last place. -/
theorem add_spec (x y : Double) (B : Nat) (hx : 0 ≤ x.num) (hy : 0 ≤ y.num) (hB : B ≤ 52)
    (hlt : x.toRat + y.toRat < 2 ^ B) :
    0 ≤ (Double.add x y).num ∧
    |(Double.add x y).toRat - (x.toRat + y.toRat)| * 2 ^ (54 - B) ≤ 1 := by
  have hnum : (0 : Int) ≤ x.num * y.den + y.num * x.den :=
    Int.add_nonneg (Int.mul_nonneg hx (Int.natCast_nonneg _))
      (Int.mul_nonneg hy (Int.natCast_nonneg _))
  have h := ofFrac_spec (x.num * y.den + y.num * x.den) (x.den * y.den) B hnum
    (Nat.mul_pos (den_pos x) (den_pos y)) hB (by rw [toRat_add_eq]; exact hlt)
  rw [toRat_add_eq] at h
  exact ⟨h.1, h.2.2.2⟩

/-- An integer below `2 ^ 52` converts to a double without change. -/
theorem ofInt_spec (k : Nat) (hk : k < 2 ^ 52) :
    0 ≤ (Double.ofInt (k : Int)).num ∧ (Double.ofInt (k : Int)).toRat = k := by
  have hq : (((k : Int) : ℚ)) / ((1 : Nat) : ℚ) = (k : ℚ) := by
    push_cast
    rw [div_one]
  have h := ofFrac_spec (k : Int) 1 52 (Int.natCast_nonneg k) Nat.one_pos (Nat.le_refl _)
    (by rw [hq]; exact_mod_cast hk)
  rw [hq] at h
  exact ⟨h.1, le_antisymm (h.2.2.1 k (le_refl _)) (h.2.1 k (le_refl _))⟩

theorem ofInt_one : 0 ≤ (Double.ofInt 1).num ∧ (Double.ofInt 1).toRat = 1 := by
  simpa using ofInt_spec 1 (by norm_num)

theorem ofInt_twelve : 0 ≤ (Double.ofInt 12).num ∧ (Double.ofInt 12).toRat = 12 := by
  simpa using ofInt_spec 12 (by norm_num)

theorem abs_scaled_le (a K : ℚ) (hK : 0 < K) (h : |a| * K ≤ 1) : -1 ≤ a * K ∧ a * K ≤ 1 := by
  have : |a * K| ≤ 1 := by
    rw [abs_mul, abs_of_pos hK]
    exact h
  exact abs_le.mp this

/-! ## Heat-plot colours -/

/-- The bytes of entry `(i, j)` of a rectangular heat plot sit at offsets
`i * (1 + 3 * w) + 1 + 3 * j + 0, 1, 2` of the scanline buffer. -/
theorem heat_pixel_bytes (m : List (List ℚ)) (h w : Nat)
    (hrect : Rect m h w) (i j : Nat) (row : List ℚ) (v : ℚ) (hrow : m[i]? = some row)
    (hv : row[j]? = some v) (c : Nat) (hc : c < 3) :
    (heatBytes m)[i * (1 + 3 * w) + 1 + 3 * j + c]? = (rgbBytes (heatColour v))[c]? := by
  have hmem : row ∈ m := List.getElem?_mem hrow
  have hj : j < w := by
    rw [← hrect.2 row hmem]
    exact (List.getElem?_eq_some_iff.mp hv).1
  have e1 : i * (1 + 3 * w) + 1 + 3 * j + c = i * (1 + 3 * w) + (1 + (j * 3 + c)) := by omega
  rw [e1]
  unfold heatBytes
  rw [getElem?_flatMap_block heatRowBytes (1 + 3 * w) m
    (fun x hx => by rw [length_heatRowBytes, hrect.2 x hx]) i row hrow _ (by omega)]
  show (0 :: row.flatMap fun v => rgbBytes (heatColour v))[1 + (j * 3 + c)]? = _
  rw [Nat.add_comm 1, List.getElem?_cons_succ,
    getElem?_flatMap_block (fun v => rgbBytes (heatColour v)) 3 row
      (fun x _ => length_rgbBytes _) j v hv c hc]

/-- The grey level of an entry `v` with `0 ≤ v ≤ 1`: the integer part of the
double product `255.0 * v`, which lies within `2 ^ (-46)` of `255 * v`. -/
theorem heatColour_unit (v : ℚ) (h0 : 0 ≤ v) (h1 : v ≤ 1) :
    heatColour v = (⌊(Double.ofFrac (255 * v.num) v.den).toRat⌋,
      ⌊(Double.ofFrac (255 * v.num) v.den).toRat⌋,
      ⌊(Double.ofFrac (255 * v.num) v.den).toRat⌋) ∧
    |(Double.ofFrac (255 * v.num) v.den).toRat - 255 * v| * 2 ^ 46 ≤ 1 ∧
    ⌊255 * v⌋ ≤ ⌊(Double.ofFrac (255 * v.num) v.den).toRat⌋ ∧
    ⌊(Double.ofFrac (255 * v.num) v.den).toRat⌋ ≤ ⌊255 * v⌋ + 1 ∧
    0 ≤ ⌊(Double.ofFrac (255 * v.num) v.den).toRat⌋ ∧
    ⌊(Double.ofFrac (255 * v.num) v.den).toRat⌋ ≤ 255 := by
  have hnum : (0 : Int) ≤ 255 * v.num := by
    have := Rat.num_nonneg.mpr h0
    omega
  have hfrac : ((255 * v.num : Int) : ℚ) / ((v.den : Nat) : ℚ) = 255 * v := by
    push_cast
    rw [mul_div_assoc, Rat.num_div_den]
  have hpos : (0 : ℚ) ≤ 255 * v := by positivity
  have hle : 255 * v ≤ 255 := by linarith
  obtain ⟨hn, hge, hup, herr⟩ := ofFrac_spec (255 * v.num) v.den 8 hnum v.den_pos (by norm_num)
    (by rw [hfrac]; norm_num; linarith)
  rw [hfrac] at hge hup herr
  generalize hp : Double.ofFrac (255 * v.num) v.den = p at hn hge hup herr
  have hfl0 : (0 : Int) ≤ ⌊255 * v⌋ := Int.floor_nonneg.mpr hpos
  obtain ⟨k, hk⟩ := Int.eq_ofNat_of_zero_le hfl0
  have hkq : ((k : Nat) : ℚ) ≤ 255 * v := by
    have := Int.floor_le (255 * v)
    rw [hk] at this
    exact_mod_cast this
  have hkq' : 255 * v ≤ ((k + 1 : Nat) : ℚ) := by
    have := (Int.lt_floor_add_one (255 * v)).le
    rw [hk] at this
    exact_mod_cast this
  have hp255 : p.toRat ≤ 255 := by
    have := hup 255 (by exact_mod_cast hle)
    exact_mod_cast this
  have hpk := hge k hkq
  have hpk' := hup (k + 1) hkq'
  have hp0 : (0 : ℚ) ≤ p.toRat := le_trans (Nat.cast_nonneg k) hpk
  have hflp : ⌊p.toRat⌋ ≤ 255 := by
    have : ⌊p.toRat⌋ < 256 := by
      rw [Int.floor_lt]
      push_cast
      linarith
    omega
  refine ⟨?_, herr, ?_, ?_, Int.floor_nonneg.mpr hp0, hflp⟩
  · unfold heatColour
    rw [if_neg (by intro h; rw [h] at h1; norm_num at h1),
      if_neg (by intro h; rw [h] at h1; norm_num at h1)]
    rw [hp, truncToInt_eq_floor p hn (by linarith)]
  · rw [hk, Int.le_floor]
    exact_mod_cast hpk
  · rw [hk]
    have : ⌊p.toRat⌋ < (k : Int) + 1 + 1 := by
      rw [Int.floor_lt]
      push_cast
      push_cast at hpk'
      linarith
    omega

theorem heatColour_frac (n : Int) (d : Nat) (v : ℚ) (hn : v.num = n) (hd : v.den = d)
    (h13 : v ≠ 1313) (h14 : v ≠ 1314) :
    heatColour v = (truncToInt (Double.ofFrac (255 * n) d),
      truncToInt (Double.ofFrac (255 * n) d), truncToInt (Double.ofFrac (255 * n) d)) := by
  unfold heatColour
  rw [if_neg h13, if_neg h14, hn, hd]

set_option maxRecDepth 100000 in
theorem heatColour_half : heatColour (1 / 2) = (127, 127, 127) := by
  rw [heatColour_frac 1 2 (1 / 2) (by norm_num) (by norm_num) (by norm_num) (by norm_num)]
  decide

set_option maxRecDepth 100000 in
theorem heatColour_near_255th :
    heatColour (282578800148737 / 72057594037927936) = (1, 1, 1) := by
  rw [heatColour_frac 282578800148737 72057594037927936 (282578800148737 / 72057594037927936)
    (by norm_num) (by norm_num) (by norm_num) (by norm_num)]
  decide

/-- C8 (as the code has it). In the scanline buffer of a rectangular heat
plot, every entry `v` with `0 ≤ v ≤ 1` (so neither sentinel) is emitted as
three equal colour bytes, each the integer part of the double product
`255.0 * v`. That product is `255 * v` rounded to the nearest double, within
`2 ^ (-46)` of it, so the byte is `floor(255 * v)`, or `floor(255 * v) + 1`
when the rounding reaches the next integer; it lies in 0..255. The `(int)`
conversion truncates: nothing rounds to the nearest integer. At the double
nearest to `1 / 255` the byte is 1, while the exact product is below 1. -/
theorem heat_grey_is_truncated (heap : Nat → Nat) (m : List (List ℚ)) (h w : Nat)
    (hrect : Rect m h w) :
    (∃ buf, heatScanlines heap m h w = .ok buf ∧
      ∀ (i : Nat) (row : List ℚ) (j : Nat) (v : ℚ), m[i]? = some row → row[j]? = some v →
        0 ≤ v → v ≤ 1 →
        |(Double.ofFrac (255 * v.num) v.den).toRat - 255 * v| * 2 ^ 46 ≤ 1 ∧
        (⌊255 * v⌋ ≤ ⌊(Double.ofFrac (255 * v.num) v.den).toRat⌋ ∧
          ⌊(Double.ofFrac (255 * v.num) v.den).toRat⌋ ≤ ⌊255 * v⌋ + 1) ∧
        (0 ≤ ⌊(Double.ofFrac (255 * v.num) v.den).toRat⌋ ∧
          ⌊(Double.ofFrac (255 * v.num) v.den).toRat⌋ ≤ 255) ∧
        buf[i * (1 + 3 * w) + 1 + 3 * j + 0]? =
          some ⌊(Double.ofFrac (255 * v.num) v.den).toRat⌋.toNat ∧
        buf[i * (1 + 3 * w) + 1 + 3 * j + 1]? =
          some ⌊(Double.ofFrac (255 * v.num) v.den).toRat⌋.toNat ∧
        buf[i * (1 + 3 * w) + 1 + 3 * j + 2]? =
          some ⌊(Double.ofFrac (255 * v.num) v.den).toRat⌋.toNat) ∧
    (heatColour (282578800148737 / 72057594037927936) = (1, 1, 1) ∧
      ⌊(255 : ℚ) * (282578800148737 / 72057594037927936)⌋ = 0) := by
  refine ⟨⟨heatBytes m, heatScanlines_eq heap m h w hrect, ?_⟩, heatColour_near_255th, ?_⟩
  · intro i row j v hrow hv h0 h1
    obtain ⟨hcol, herr, hlo, hhi, hnn, h255⟩ := heatColour_unit v h0 h1
    have hu : u8 ⌊(Double.ofFrac (255 * v.num) v.den).toRat⌋ =
        ⌊(Double.ofFrac (255 * v.num) v.den).toRat⌋.toNat := by
      unfold u8
      omega
    refine ⟨herr, ⟨hlo, hhi⟩, ⟨hnn, h255⟩, ?_, ?_, ?_⟩
    · rw [heat_pixel_bytes m h w hrect i j row v hrow hv 0 (by omega), hcol]
      simp only [rgbBytes, hu, List.getElem?_cons_zero]
    · rw [heat_pixel_bytes m h w hrect i j row v hrow hv 1 (by omega), hcol]
      simp only [rgbBytes, hu, List.getElem?_cons_succ, List.getElem?_cons_zero]
    · rw [heat_pixel_bytes m h w hrect i j row v hrow hv 2 (by omega), hcol]
      simp only [rgbBytes, hu, List.getElem?_cons_succ, List.getElem?_cons_zero]
  · rw [Int.floor_eq_iff]
    norm_num

/-- Witness for C8: the 1 x 1 plot holding 1/2. -/
theorem heat_grey_is_truncated_witness :
    (∃ buf, heatScanlines (fun _ => 0) [[1 / 2]] 1 1 = .ok buf ∧
      ∀ (i : Nat) (row : List ℚ) (j : Nat) (v : ℚ),
        ([[1 / 2]] : List (List ℚ))[i]? = some row → row[j]? = some v →
        0 ≤ v → v ≤ 1 →
        |(Double.ofFrac (255 * v.num) v.den).toRat - 255 * v| * 2 ^ 46 ≤ 1 ∧
        (⌊255 * v⌋ ≤ ⌊(Double.ofFrac (255 * v.num) v.den).toRat⌋ ∧
          ⌊(Double.ofFrac (255 * v.num) v.den).toRat⌋ ≤ ⌊255 * v⌋ + 1) ∧
        (0 ≤ ⌊(Double.ofFrac (255 * v.num) v.den).toRat⌋ ∧
          ⌊(Double.ofFrac (255 * v.num) v.den).toRat⌋ ≤ 255) ∧
        buf[i * (1 + 3 * 1) + 1 + 3 * j + 0]? =
          some ⌊(Double.ofFrac (255 * v.num) v.den).toRat⌋.toNat ∧
        buf[i * (1 + 3 * 1) + 1 + 3 * j + 1]? =
          some ⌊(Double.ofFrac (255 * v.num) v.den).toRat⌋.toNat ∧
        buf[i * (1 + 3 * 1) + 1 + 3 * j + 2]? =
          some ⌊(Double.ofFrac (255 * v.num) v.den).toRat⌋.toNat) ∧
    (heatColour (282578800148737 / 72057594037927936) = (1, 1, 1) ∧
      ⌊(255 : ℚ) * (282578800148737 / 72057594037927936)⌋ = 0) :=
  heat_grey_is_truncated (fun _ => 0) [[1 / 2]] 1 1 ⟨rfl, by simp⟩

/-- C8 (as stated) fails: the normalised entry 1/2 is emitted as 127, 127,
127 (the product 127.5 is exact and is truncated), while `255 * 1/2 = 127.5`
rounds to 128. -/
theorem heat_grey_not_rounded :
    heatScanlines (fun _ => 0) [[1 / 2]] 1 1 = .ok [0, 127, 127, 127] ∧
      round (255 * (1 / 2) : ℚ) = 128 := by
  constructor
  · rw [heatScanlines_eq (fun _ => 0) [[1 / 2]] 1 1 ⟨rfl, by simp⟩]
    have hb : heatBytes [[(1 : ℚ) / 2]] = [0, 127, 127, 127] := by
      unfold heatBytes heatRowBytes
      simp only [List.flatMap_cons, List.flatMap_nil, List.append_nil, heatColour_half, rgbBytes]
      decide
    rw [hb]
  · rw [round_eq, Int.floor_eq_iff]
    norm_num

/-- C9. In the scanline buffer of a rectangular heat plot, every entry equal
to 1313 is emitted as the bytes 255, 0, 0 and every entry equal to 1314 as
0, 0, 0, without scaling. With a normaliser that leaves `[[1313]]` as it is,
`save_heat_plot` on `[[1313]]` builds the scanline `[0, 255, 0, 0]` and hands
exactly it to the compressor. -/
theorem heat_sentinels (heap : Nat → Nat) (m : List (List ℚ)) (h w : Nat)
    (hrect : Rect m h w) :
    (∃ buf, heatScanlines heap m h w = .ok buf ∧
      ∀ (i : Nat) (row : List ℚ) (j : Nat) (v : ℚ), m[i]? = some row → row[j]? = some v →
        (v = 1313 →
          buf[i * (1 + 3 * w) + 1 + 3 * j + 0]? = some 255 ∧
          buf[i * (1 + 3 * w) + 1 + 3 * j + 1]? = some 0 ∧
          buf[i * (1 + 3 * w) + 1 + 3 * j + 2]? = some 0) ∧
        (v = 1314 →
          buf[i * (1 + 3 * w) + 1 + 3 * j + 0]? = some 0 ∧
          buf[i * (1 + 3 * w) + 1 + 3 * j + 1]? = some 0 ∧
          buf[i * (1 + 3 * w) + 1 + 3 * j + 2]? = some 0)) ∧
    (∀ (normalize_matrix : List (List ℚ) → List (List ℚ)) (W : World),
      normalize_matrix [[1313]] = [[1313]] → W.openOk = true →
      heatScanlines W.heap (normalize_matrix [[1313]]) 1 1 = .ok [0, 255, 0, 0] ∧
      save_heat_plot normalize_matrix W [[1313]] =
        match W.compress [0, 255, 0, 0] (compmemsize 1 1) with
        | none =>
          ⟨header ++ chunk (cstr "IHDR") (ihdr 1 1), .caught "Error: Couldn't compress PNG"⟩
        | some z =>
          ⟨writePNGChunk
            (writePNGChunk (header ++ chunk (cstr "IHDR") (ihdr 1 1)) (cstr "IDAT") z
              (toInt32 z.length))
            (cstr "IEND") [] 0, .finished⟩) := by
  constructor
  · refine ⟨heatBytes m, heatScanlines_eq heap m h w hrect, ?_⟩
    intro i row j v hrow hv
    have hb := heat_pixel_bytes m h w hrect i j row v hrow hv
    constructor
    · intro h13
      subst h13
      have hcol : heatColour 1313 = (255, 0, 0) := by decide
      rw [hb 0 (by omega), hb 1 (by omega), hb 2 (by omega), hcol]
      exact ⟨rfl, rfl, rfl⟩
    · intro h14
      subst h14
      have hcol : heatColour 1314 = (0, 0, 0) := by decide
      rw [hb 0 (by omega), hb 1 (by omega), hb 2 (by omega), hcol]
      exact ⟨rfl, rfl, rfl⟩
  · intro normalize_matrix W hnorm hopen
    have hcol : heatColour 1313 = (255, 0, 0) := by decide
    have hfill : heatScanlines W.heap [[1313]] 1 1 = .ok [0, 255, 0, 0] := by
      rw [heatScanlines_eq W.heap [[1313]] 1 1 ⟨rfl, by simp⟩]
      simp [heatBytes, heatRowBytes, hcol, rgbBytes, u8]
    rw [hnorm]
    refine ⟨hfill, ?_⟩
    unfold save_heat_plot
    simp only [List.length_cons, List.length_nil, List.headD_cons, hnorm, hopen, hfill,
      ihdr_chunk]
    rfl

/-- Witness for C9: the 1 x 2 plot holding both sentinels. -/
theorem heat_sentinels_witness :
    ∃ buf, heatScanlines (fun _ => 0) [[1313, 1314]] 1 2 = .ok buf ∧
      ∀ (i : Nat) (row : List ℚ) (j : Nat) (v : ℚ),
        ([[1313, 1314]] : List (List ℚ))[i]? = some row → row[j]? = some v →
        (v = 1313 →
          buf[i * (1 + 3 * 2) + 1 + 3 * j + 0]? = some 255 ∧
          buf[i * (1 + 3 * 2) + 1 + 3 * j + 1]? = some 0 ∧
          buf[i * (1 + 3 * 2) + 1 + 3 * j + 2]? = some 0) ∧
        (v = 1314 →
          buf[i * (1 + 3 * 2) + 1 + 3 * j + 0]? = some 0 ∧
          buf[i * (1 + 3 * 2) + 1 + 3 * j + 1]? = some 0 ∧
          buf[i * (1 + 3 * 2) + 1 + 3 * j + 2]? = some 0) :=
  (heat_sentinels (fun _ => 0) [[1313, 1314]] 1 2 ⟨rfl, by simp⟩).1

/-! ## Jagged matrices -/

set_option maxRecDepth 100000 in
/-- C11 (the code on empty input). `save_heat_plot` rejects a matrix with no
rows, or with an empty row 0, by its two assertions, with nothing written.
`export_any_matrix` has no such check: given no rows it indexes row 0 of the
empty vector, and given the one empty row `[[]]` it raises nothing and writes
a complete stream (IHDR with width 0, IDAT, IEND). -/
theorem empty_matrix_handling :
    (∀ (normalize_matrix : List (List ℚ) → List (List ℚ)) (W : World),
      save_heat_plot normalize_matrix W [] = ⟨[], .fault .assertion⟩) ∧
    (∀ (normalize_matrix : List (List ℚ) → List (List ℚ)) (W : World) (rows : List (List ℚ)),
      save_heat_plot normalize_matrix W ([] :: rows) = ⟨[], .fault .assertion⟩) ∧
    (∀ (pal : Palette) (W : World),
      export_any_matrix pal W [] = ⟨[], .fault .outOfBounds⟩) ∧
    (export_any_matrix demoPalette demoWorld [[]]).outcome = .finished ∧
    (export_any_matrix demoPalette demoWorld [[]]).out.take 33 =
      header ++ chunk (cstr "IHDR") (ihdr 0 1) ∧
    chunkTags (export_any_matrix demoPalette demoWorld [[]]).out =
      [cstr "IHDR", cstr "IDAT", cstr "IEND"] := by
  refine ⟨fun _ _ => rfl, ?_, fun _ _ => rfl, by decide, by decide, by decide⟩
  intro normalize_matrix W rows
  simp [save_heat_plot]

/-! ## Text chunks -/

/-- C13. For a keyword `k` and a text `t` without NUL bytes, `writePNGText`
appends exactly one chunk, framed as `writePNGChunk` frames it: the declared
length `|k| + 1 + |t|` (big-endian), the tag "tEXt", the payload `k`, one NUL,
`t` with no trailing NUL, and the CRC over the tag and that payload. -/
theorem writePNGText_payload (heap : Nat → Nat) (out k t : List Nat)
    (hk : ∀ c ∈ k, c ≠ 0) (ht : ∀ c ∈ t, c ≠ 0) :
    writePNGText heap out k t =
      out ++ (be32 (k.length + 1 + t.length) ++ cstr "tEXt" ++ (k ++ [0] ++ t) ++
        be32 (ieeeCrc32 (cstr "tEXt" ++ (k ++ [0] ++ t)))) ∧
    writePNGText heap out k t =
      writePNGChunk out (cstr "tEXt") (k ++ [0] ++ t) ((k ++ [0] ++ t).length : Nat) ∧
    (k ++ [0] ++ t).length = k.length + 1 + t.length ∧
    (k.length + 1 + t.length < 2 ^ 32 →
      decode32 (be32 (k.length + 1 + t.length)) = some (k.length + 1 + t.length)) := by
  have hlen : (k ++ [0] ++ t).length = k.length + 1 + t.length := by
    simp only [List.length_append, List.length_singleton]
  obtain ⟨q, -, hq, hw⟩ := writePNGText_chunk heap out k t hk
  have hq' := hq ht
  subst hq'
  have hpay : k ++ 0 :: q = k ++ [0] ++ q := by
    simp only [List.append_assoc, List.singleton_append]
  rw [hpay] at hw
  refine ⟨?_, ?_, hlen, fun h => decode32_be32 _ h⟩
  · rw [hw, chunk, hlen]
  · rw [hw, writePNGChunk_eq out (cstr "tEXt") _ (by decide), chunk]

/-- Witness for C13: the "Display Format" chunk with the text "NTSC". -/
theorem writePNGText_payload_witness :
    writePNGText (fun _ => 0) [] (cstr "Display Format") (cstr "NTSC") =
      [] ++ (be32 ((cstr "Display Format").length + 1 + (cstr "NTSC").length) ++ cstr "tEXt" ++
        (cstr "Display Format" ++ [0] ++ cstr "NTSC") ++
        be32 (ieeeCrc32 (cstr "tEXt" ++ (cstr "Display Format" ++ [0] ++ cstr "NTSC")))) :=
  (writePNGText_payload (fun _ => 0) [] (cstr "Display Format") (cstr "NTSC")
    (by decide) (by decide)).1

/-! ## Failed exports -/

theorem chunkTagsFrom_nil (fuel : Nat) : chunkTagsFrom fuel [] = [] := by
  cases fuel with
  | zero => rfl
  | succ n => simp [chunkTagsFrom, decode32]

theorem length_chunk (t d : List Nat) (ht : t.length = 4) :
    (chunk t d).length = 12 + d.length := by
  simp only [chunk, List.length_append, be32, List.length_cons, List.length_nil, ht]
  omega

/-- Reading a stream that starts with a framed chunk yields its tag and goes
on behind the chunk. -/
theorem chunkTagsFrom_chunk (fuel : Nat) (t d rest : List Nat) (ht : t.length = 4)
    (hd : d.length < 2 ^ 32) :
    chunkTagsFrom (fuel + 1) (chunk t d ++ rest) = t :: chunkTagsFrom fuel rest := by
  have hsplit : chunk t d ++ rest =
      be32 d.length ++ (t ++ (d ++ (be32 (ieeeCrc32 (t ++ d)) ++ rest))) := by
    simp only [chunk, List.append_assoc]
  have hbe : ∀ n, (be32 n).length = 4 := fun n => rfl
  have htake : (chunk t d ++ rest).take 4 = be32 d.length := by
    rw [hsplit, List.take_append_of_le_length (by rw [hbe]),
      List.take_of_length_le (by rw [hbe])]
  have htag : ((chunk t d ++ rest).drop 4).take 4 = t := by
    rw [hsplit, List.drop_append_of_le_length (by rw [hbe]),
      List.drop_of_length_le (by rw [hbe]), List.nil_append,
      List.take_append_of_le_length (by omega), List.take_of_length_le (by omega)]
  have hrest : (chunk t d ++ rest).drop (12 + d.length) = rest := by
    rw [List.drop_append_of_le_length (by rw [length_chunk t d ht]),
      List.drop_of_length_le (by rw [length_chunk t d ht]), List.nil_append]
  have hlen : ¬ (chunk t d ++ rest).length < 12 + d.length := by
    rw [List.length_append, length_chunk t d ht]
    omega
  rw [chunkTagsFrom, htake, decode32_be32 _ hd]
  simp only [hlen, if_false, htag, hrest]

/-- Reading an encoded chunk sequence gives back its tags, given fuel for
every chunk. -/
theorem chunkTagsFrom_encode (cs : List (List Nat × List Nat)) (fuel : Nat)
    (hwf : ∀ c ∈ cs, c.1.length = 4 ∧ c.2.length < 2 ^ 32) (hfuel : cs.length ≤ fuel) :
    chunkTagsFrom fuel (encodeChunks cs) = cs.map Prod.fst := by
  induction cs generalizing fuel with
  | nil => exact chunkTagsFrom_nil fuel
  | cons c cs ih =>
    obtain ⟨ht, hd⟩ := hwf c (List.mem_cons_self _ _)
    match fuel, hfuel with
    | fuel + 1, hfuel =>
      have hcons : encodeChunks (c :: cs) = chunk c.1 c.2 ++ encodeChunks cs := by
        simp only [encodeChunks, List.flatMap_cons]
      rw [hcons, chunkTagsFrom_chunk fuel c.1 c.2 _ ht hd,
        ih fuel (fun x hx => hwf x (List.mem_cons_of_mem _ hx))
          (by simp only [List.length_cons] at hfuel; omega)]
      rfl

theorem length_encodeChunks_ge (cs : List (List Nat × List Nat)) :
    cs.length ≤ (encodeChunks cs).length := by
  induction cs with
  | nil => simp
  | cons c cs ih =>
    have h4 : 4 ≤ (chunk c.1 c.2).length := by
      simp only [chunk, List.length_append, be32, List.length_cons, List.length_nil]
      omega
    simp only [encodeChunks, List.flatMap_cons, List.length_append, List.length_cons] at ih ⊢
    omega

/-- The chunk tags of the header followed by a chunk sequence are the tags of
the sequence. -/
theorem chunkTags_encode (cs : List (List Nat × List Nat))
    (hwf : ∀ c ∈ cs, c.1.length = 4 ∧ c.2.length < 2 ^ 32) :
    chunkTags (header ++ encodeChunks cs) = cs.map Prod.fst := by
  have hdrop : (header ++ encodeChunks cs).drop 8 = encodeChunks cs := by
    rw [List.drop_append_of_le_length (by decide)]
    rfl
  unfold chunkTags
  rw [hdrop]
  apply chunkTagsFrom_encode cs _ hwf
  have := length_encodeChunks_ge cs
  rw [List.length_append]
  omega

/-- The stream made of the header and the IHDR chunk holds that one chunk. -/
theorem chunkTags_header_ihdr (width height : Nat) :
    chunkTags (header ++ chunk (cstr "IHDR") (ihdr width height)) = [cstr "IHDR"] := by
  have h := chunkTags_encode [(cstr "IHDR", ihdr width height)]
    (by
      intro c hc
      rw [List.mem_singleton] at hc
      subst hc
      refine ⟨?_, ?_⟩
      · show (cstr "IHDR").length = 4
        decide
      · show (ihdr width height).length < 2 ^ 32
        rw [length_ihdr]
        norm_num)
  simpa [encodeChunks] using h

/-- The same for `export_any_matrix`. -/
theorem export_any_matrix_partial (pal : Palette) (W : World) (m : List (List Int))
    (h : (export_any_matrix pal W m).outcome ≠ .finished) :
    ((m = [] ∨ W.openOk = false) ∧ (export_any_matrix pal W m).out = []) ∨
    (W.openOk = true ∧ (export_any_matrix pal W m).outcome ≠ .caught "Couldn't open PNG file" ∧
      (export_any_matrix pal W m).out =
        header ++ chunk (cstr "IHDR") (ihdr (m.headD []).length m.length)) := by
  unfold export_any_matrix at h ⊢
  cases m with
  | nil => left; simp
  | cons row0 rows =>
    simp only [List.getElem?_cons_zero, List.headD_cons] at h ⊢
    cases hopen : W.openOk with
    | false => left; simp
    | true =>
      right
      simp only [hopen, Bool.not_true, Bool.false_eq_true, if_false, ihdr_chunk, true_and]
        at h ⊢
      cases hfill : indexedScanlines pal W.heap (row0 :: rows) (row0 :: rows).length
          row0.length with
      | error f => simp
      | ok buffer =>
        rw [hfill] at h
        simp only [] at h ⊢
        cases hc : W.compress
            (List.take ((row0 :: rows).length * (row0.length * 3 + 1)) buffer)
            (compmemsize (row0 :: rows).length row0.length) with
        | none =>
        refine ⟨?_, rfl⟩
        show Outcome.caught "Error: Couldn't compress PNG" ≠ _
        decide
        | some z => rw [hc] at h; exact absurd rfl h

/-- The same for `save_heat_plot`. -/
theorem save_heat_plot_partial (normalize_matrix : List (List ℚ) → List (List ℚ)) (W : World)
    (m : List (List ℚ)) (h : (save_heat_plot normalize_matrix W m).outcome ≠ .finished) :
    ((m = [] ∨ m.headD [] = [] ∨ W.openOk = false) ∧
      (save_heat_plot normalize_matrix W m).out = []) ∨
    (W.openOk = true ∧
      (save_heat_plot normalize_matrix W m).outcome ≠ .caught "Couldn't open PNG file" ∧
      (save_heat_plot normalize_matrix W m).out =
        header ++ chunk (cstr "IHDR") (ihdr (m.headD []).length m.length)) := by
  unfold save_heat_plot at h ⊢
  by_cases hh : m.length > 0
  · by_cases hw : (m.headD []).length > 0
    · cases hopen : W.openOk with
      | false =>
        left
        simp only [hh, hw, not_true_eq_false, if_false, Bool.not_false, if_true, or_true,
          and_self]
      | true =>
        right
        simp only [hh, hw, not_true_eq_false, if_false, hopen, Bool.not_true,
          Bool.false_eq_true, ihdr_chunk, true_and] at h ⊢
        cases hfill : heatScanlines W.heap (normalize_matrix m) m.length (m.headD []).length with
        | error f => simp
        | ok buffer =>
          rw [hfill] at h
          simp only [] at h ⊢
          cases hc : W.compress
              (List.take (m.length * ((m.headD []).length * 3 + 1)) buffer)
              (compmemsize m.length (m.headD []).length) with
          | none =>
        refine ⟨?_, rfl⟩
        show Outcome.caught "Error: Couldn't compress PNG" ≠ _
        decide
          | some z => rw [hc] at h; exact absurd rfl h
    · left
      have : m.headD [] = [] := List.length_eq_zero.mp (by omega)
      refine ⟨Or.inr (Or.inl this), ?_⟩
      simp only [hh, hw, not_true_eq_false, not_false_eq_true, if_false, if_true]
  · left
    have : m = [] := List.length_eq_zero.mp (by omega)
    simp [this]

theorem chunkTags_nil : chunkTags [] = [] := rfl

/-- A finished `export_any_matrix` call has written header, IHDR, IDAT, IEND. -/
theorem export_any_matrix_finished (pal : Palette) (W : World) (m : List (List Int))
    (hW : ∀ src cap z, W.compress src cap = some z → z.length < 2 ^ 31)
    (hfin : (export_any_matrix pal W m).outcome = .finished) :
    ∃ buffer z, indexedScanlines pal W.heap m m.length (m.headD []).length = .ok buffer ∧
      W.compress (buffer.take (m.length * ((m.headD []).length * 3 + 1)))
        (compmemsize m.length (m.headD []).length) = some z ∧
      (export_any_matrix pal W m).out =
        header ++ encodeChunks [(cstr "IHDR", ihdr (m.headD []).length m.length),
          (cstr "IDAT", z), (cstr "IEND", [])] := by
  unfold export_any_matrix at hfin ⊢
  cases m with
  | nil => exact absurd hfin (by simp)
  | cons row0 rows =>
    simp only [List.getElem?_cons_zero, List.headD_cons] at hfin ⊢
    cases hopen : W.openOk with
    | false => rw [hopen] at hfin; exact absurd hfin (by simp)
    | true =>
      simp only [hopen, Bool.not_true, Bool.false_eq_true, if_false, ihdr_chunk] at hfin ⊢
      cases hfill : indexedScanlines pal W.heap (row0 :: rows) (row0 :: rows).length
          row0.length with
      | error f => rw [hfill] at hfin; exact absurd hfin (by simp)
      | ok buffer =>
        rw [hfill] at hfin
        simp only [] at hfin ⊢
        cases hc : W.compress
            (List.take ((row0 :: rows).length * (row0.length * 3 + 1)) buffer)
            (compmemsize (row0 :: rows).length row0.length) with
        | none => rw [hc] at hfin; exact absurd hfin (by simp)
        | some z =>
          refine ⟨buffer, z, rfl, hc, ?_⟩
          simp only []
          rw [idat_chunk _ z (hW _ _ z hc), iend_chunk]
          simp only [encodeChunks, List.flatMap_cons, List.flatMap_nil, List.append_nil,
            List.append_assoc]

/-- A finished `save_heat_plot` call has written header, IHDR, IDAT, IEND. -/
theorem save_heat_plot_finished (normalize_matrix : List (List ℚ) → List (List ℚ)) (W : World)
    (m : List (List ℚ)) (hW : ∀ src cap z, W.compress src cap = some z → z.length < 2 ^ 31)
    (hfin : (save_heat_plot normalize_matrix W m).outcome = .finished) :
    ∃ z, z.length < 2 ^ 31 ∧ (save_heat_plot normalize_matrix W m).out =
      header ++ encodeChunks [(cstr "IHDR", ihdr (m.headD []).length m.length),
        (cstr "IDAT", z), (cstr "IEND", [])] := by
  unfold save_heat_plot at hfin ⊢
  by_cases hh : m.length > 0
  · by_cases hw : (m.headD []).length > 0
    · cases hopen : W.openOk with
      | false =>
        simp only [hh, hw, not_true_eq_false, if_false, hopen, Bool.not_false, if_true] at hfin
        exact absurd hfin (by simp)
      | true =>
        simp only [hh, hw, not_true_eq_false, if_false, hopen, Bool.not_true,
          Bool.false_eq_true, ihdr_chunk] at hfin ⊢
        cases hfill : heatScanlines W.heap (normalize_matrix m) m.length (m.headD []).length with
        | error f => rw [hfill] at hfin; exact absurd hfin (by simp)
        | ok buffer =>
          rw [hfill] at hfin
          simp only [] at hfin ⊢
          cases hc : W.compress
              (List.take (m.length * ((m.headD []).length * 3 + 1)) buffer)
              (compmemsize m.length (m.headD []).length) with
          | none => rw [hc] at hfin; exact absurd hfin (by simp)
          | some z =>
            refine ⟨z, hW _ _ z hc, ?_⟩
            simp only []
            rw [idat_chunk _ z (hW _ _ z hc), iend_chunk]
            simp only [encodeChunks, List.flatMap_cons, List.flatMap_nil, List.append_nil,
              List.append_assoc]
    · simp only [hh, hw, not_true_eq_false, not_false_eq_true, if_false, if_true] at hfin
      exact absurd hfin (by simp)
  · simp only [hh, not_false_eq_true, if_true] at hfin
    exact absurd hfin (by simp)

theorem tags_of_plain_stream (d z : List Nat) (hd : d.length = 13) (hz : z.length < 2 ^ 31) :
    chunkTags (header ++ encodeChunks [(cstr "IHDR", d), (cstr "IDAT", z), (cstr "IEND", [])]) =
      [cstr "IHDR", cstr "IDAT", cstr "IEND"] := by
  rw [chunkTags_encode]
  · rfl
  · intro c hc
    simp only [List.mem_cons, List.mem_singleton, List.not_mem_nil, or_false] at hc
    rcases hc with rfl | rfl | rfl
    · exact ⟨by show (cstr "IHDR").length = 4; decide,
        by show d.length < 2 ^ 32; rw [hd]; norm_num⟩
    · exact ⟨by show (cstr "IDAT").length = 4; decide, by show z.length < 2 ^ 32; omega⟩
    · exact ⟨by decide, by decide⟩

/-- The complete run of `save_png` when the file opens, the matrix has the
screen's size, its codes resolve and the compressor returns `z`. -/
theorem save_png_run_ok (e : Exporter) (W : World) (m : List (List Int)) (z : List Nat)
    (hopen : W.openOk = true) (hrect : Rect m e.i_screen_height e.i_screen_width)
    (hres : Resolves e.toPalette m)
    (hc : W.compress (indexedBytes e.toPalette m)
      (compmemsize e.i_screen_height e.i_screen_width) = some z)
    (hz : z.length < 2 ^ 31) :
    ∃ q1 q2 q3, q1.length = e.Cartridge_Name.length ∧ q2.length = e.Cartridge_MD5.length ∧
      q3.length = e.Display_Format.length ∧
      save_png e W m =
        ⟨header ++ encodeChunks [(cstr "IHDR", ihdr e.i_screen_width e.i_screen_height),
          (cstr "IDAT", z), (cstr "tEXt", cstr "ROM Name" ++ 0 :: q1),
          (cstr "tEXt", cstr "ROM MD5" ++ 0 :: q2),
          (cstr "tEXt", cstr "Display Format" ++ 0 :: q3), (cstr "IEND", [])], .finished⟩ := by
  obtain ⟨q1, hq1, -, h1⟩ := writePNGText_chunk W.heap
    (header ++ chunk (cstr "IHDR") (ihdr e.i_screen_width e.i_screen_height) ++
      chunk (cstr "IDAT") z) (cstr "ROM Name") e.Cartridge_Name (by decide)
  obtain ⟨q2, hq2, -, h2⟩ := writePNGText_chunk W.heap
    (header ++ chunk (cstr "IHDR") (ihdr e.i_screen_width e.i_screen_height) ++
      chunk (cstr "IDAT") z ++ chunk (cstr "tEXt") (cstr "ROM Name" ++ 0 :: q1))
    (cstr "ROM MD5") e.Cartridge_MD5 (by decide)
  obtain ⟨q3, hq3, -, h3⟩ := writePNGText_chunk W.heap
    (header ++ chunk (cstr "IHDR") (ihdr e.i_screen_width e.i_screen_height) ++
      chunk (cstr "IDAT") z ++ chunk (cstr "tEXt") (cstr "ROM Name" ++ 0 :: q1) ++
      chunk (cstr "tEXt") (cstr "ROM MD5" ++ 0 :: q2))
    (cstr "Display Format") e.Display_Format (by decide)
  refine ⟨q1, q2, q3, hq1, hq2, hq3, ?_⟩
  unfold save_png
  simp only [hopen, Bool.not_true, Bool.false_eq_true, if_false,
    indexedScanlines_eq e.toPalette W.heap m _ _ hrect hres,
    take_indexedBytes e.toPalette m _ _ hrect hres, hc, ihdr_chunk]
  rw [idat_chunk _ z hz, h1, h2, h3, iend_chunk]
  simp only [encodeChunks, List.flatMap_cons, List.flatMap_nil, List.append_nil,
    List.append_assoc]

/-- The complete run of `export_any_matrix` on a rectangular matrix with at
least one row whose codes resolve. -/
theorem export_any_matrix_run (pal : Palette) (W : World) (m : List (List Int)) (h w : Nat)
    (hopen : W.openOk = true) (hh : 1 ≤ h) (hrect : Rect m h w) (hres : Resolves pal m) :
    export_any_matrix pal W m =
      match W.compress (indexedBytes pal m) (compmemsize h w) with
      | none => ⟨header ++ chunk (cstr "IHDR") (ihdr w h), .caught "Error: Couldn't compress PNG"⟩
      | some z =>
        ⟨writePNGChunk
          (writePNGChunk (header ++ chunk (cstr "IHDR") (ihdr w h)) (cstr "IDAT") z
            (toInt32 z.length)) (cstr "IEND") [] 0, .finished⟩ := by
  have h0 : 0 < m.length := by rw [hrect.1]; omega
  have hrow0 : m[0]? = some m[0] := List.getElem?_eq_getElem h0
  have hw0 : m[0].length = w := hrect.2 _ (List.getElem_mem _)
  unfold export_any_matrix
  simp only [hrow0, hopen, Bool.not_true, Bool.false_eq_true, if_false, ihdr_chunk, hw0, hrect.1,
    indexedScanlines_eq pal W.heap m h w hrect hres, take_indexedBytes pal m h w hrect hres]

theorem withoutMetadata_save_png (d z p1 p2 p3 : List Nat) :
    withoutMetadata [(cstr "IHDR", d), (cstr "IDAT", z), (cstr "tEXt", p1), (cstr "tEXt", p2),
      (cstr "tEXt", p3), (cstr "IEND", [])] =
      [(cstr "IHDR", d), (cstr "IDAT", z), (cstr "IEND", [])] := by
  have h1 : cstr "IHDR" ≠ cstr "tEXt" := by decide
  have h2 : cstr "IDAT" ≠ cstr "tEXt" := by decide
  have h3 : cstr "IEND" ≠ cstr "tEXt" := by decide
  simp [withoutMetadata, List.filter, h1, h2, h3]

/-- No stream of `export_any_matrix` holds a text chunk. -/
theorem export_any_matrix_no_text (pal : Palette) (W : World) (m : List (List Int))
    (hW : ∀ src cap z, W.compress src cap = some z → z.length < 2 ^ 31) :
    cstr "tEXt" ∉ chunkTags (export_any_matrix pal W m).out := by
  by_cases hfin : (export_any_matrix pal W m).outcome = .finished
  · obtain ⟨buffer, z, -, hc, hout⟩ := export_any_matrix_finished pal W m hW hfin
    rw [hout, tags_of_plain_stream _ z (length_ihdr _ _) (hW _ _ z hc)]
    decide
  · rcases export_any_matrix_partial pal W m hfin with ⟨-, h⟩ | ⟨-, -, h⟩
    · rw [h]; simp [chunkTags_nil]
    · rw [h, chunkTags_header_ihdr]; decide

/-- No stream of `save_heat_plot` holds a text chunk. -/
theorem save_heat_plot_no_text (normalize_matrix : List (List ℚ) → List (List ℚ)) (W : World)
    (m : List (List ℚ)) (hW : ∀ src cap z, W.compress src cap = some z → z.length < 2 ^ 31) :
    cstr "tEXt" ∉ chunkTags (save_heat_plot normalize_matrix W m).out := by
  by_cases hfin : (save_heat_plot normalize_matrix W m).outcome = .finished
  · have hz := save_heat_plot_finished normalize_matrix W m hW hfin
    obtain ⟨z, hzlen, hout⟩ := hz
    rw [hout, tags_of_plain_stream _ z (length_ihdr _ _) hzlen]
    decide
  · rcases save_heat_plot_partial normalize_matrix W m hfin with ⟨-, h⟩ | ⟨-, -, h⟩
    · rw [h]; simp [chunkTags_nil]
    · rw [h, chunkTags_header_ihdr]; decide

/-! ### A jagged heat plot is written in full -/

/-- C15. For a rectangular matrix with at least one row whose dimensions are
the screen's and whose codes resolve (file open, compressed data shorter than
`2 ^ 31` bytes): both exporters hand the same scanline bytes to the
compressor with the same capacity; when it returns `z`, the chunk sequence of
`export_any_matrix` is that of `save_png` with every tEXt chunk removed, that
is the same header, the same IHDR chunk, the IDAT chunk of `z` and the same
IEND; when it fails both leave header and IHDR. Neither `export_any_matrix`
nor `save_heat_plot` ever emits a tEXt chunk. -/
theorem export_any_matrix_refines_save_png (e : Exporter) (W : World) (m : List (List Int))
    (hopen : W.openOk = true) (hh : 1 ≤ e.i_screen_height)
    (hrect : Rect m e.i_screen_height e.i_screen_width) (hres : Resolves e.toPalette m)
    (hW : ∀ src cap z, W.compress src cap = some z → z.length < 2 ^ 31) :
    (∀ z, W.compress (indexedBytes e.toPalette m)
        (compmemsize e.i_screen_height e.i_screen_width) = some z →
      ∃ cs q1 q2 q3,
        cs = [(cstr "IHDR", ihdr e.i_screen_width e.i_screen_height), (cstr "IDAT", z),
          (cstr "tEXt", cstr "ROM Name" ++ 0 :: q1), (cstr "tEXt", cstr "ROM MD5" ++ 0 :: q2),
          (cstr "tEXt", cstr "Display Format" ++ 0 :: q3), (cstr "IEND", [])] ∧
        save_png e W m = ⟨header ++ encodeChunks cs, .finished⟩ ∧
        export_any_matrix e.toPalette W m =
          ⟨header ++ encodeChunks (withoutMetadata cs), .finished⟩ ∧
        withoutMetadata cs =
          [(cstr "IHDR", ihdr e.i_screen_width e.i_screen_height), (cstr "IDAT", z),
            (cstr "IEND", [])]) ∧
    (W.compress (indexedBytes e.toPalette m)
        (compmemsize e.i_screen_height e.i_screen_width) = none →
      save_png e W m =
        ⟨header ++ chunk (cstr "IHDR") (ihdr e.i_screen_width e.i_screen_height),
          .caught "Error: Couldn't compress PNG"⟩ ∧
      export_any_matrix e.toPalette W m = save_png e W m) ∧
    cstr "tEXt" ∉ chunkTags (export_any_matrix e.toPalette W m).out ∧
    (∀ (normalize_matrix : List (List ℚ) → List (List ℚ)) (mq : List (List ℚ)),
      cstr "tEXt" ∉ chunkTags (save_heat_plot normalize_matrix W mq).out) := by
  have hany := export_any_matrix_run e.toPalette W m _ _ hopen hh hrect hres
  refine ⟨?_, ?_, export_any_matrix_no_text _ W m hW,
    fun n mq => save_heat_plot_no_text n W mq hW⟩
  · intro z hc
    obtain ⟨q1, q2, q3, -, -, -, hpng⟩ := save_png_run_ok e W m z hopen hrect hres hc
      (hW _ _ z hc)
    refine ⟨_, q1, q2, q3, rfl, hpng, ?_, withoutMetadata_save_png _ _ _ _ _⟩
    rw [hany, hc, withoutMetadata_save_png]
    simp only []
    rw [idat_chunk _ z (hW _ _ z hc), iend_chunk]
    simp only [encodeChunks, List.flatMap_cons, List.flatMap_nil, List.append_nil,
      List.append_assoc]
  · intro hc
    have hpng : save_png e W m =
        ⟨header ++ chunk (cstr "IHDR") (ihdr e.i_screen_width e.i_screen_height),
          .caught "Error: Couldn't compress PNG"⟩ := by
      unfold save_png
      simp only [hopen, Bool.not_true, Bool.false_eq_true, if_false,
        indexedScanlines_eq e.toPalette W.heap m _ _ hrect hres,
        take_indexedBytes e.toPalette m _ _ hrect hres, hc, ihdr_chunk]
    refine ⟨hpng, ?_⟩
    rw [hany, hc, hpng]

set_option maxRecDepth 100000 in
/-- Witness for C15: the 2 x 2 demo screen. -/
theorem export_any_matrix_refines_save_png_witness :
    cstr "tEXt" ∉ chunkTags (export_any_matrix demoExporter.toPalette demoWorld
      [[0, 1], [2, 3]]).out :=
  (export_any_matrix_refines_save_png demoExporter demoWorld [[0, 1], [2, 3]] rfl (by decide)
    ⟨rfl, by decide⟩ (resolves_of_isOk _ _ (by decide)) storedCompress_small).2.2.1

/-! ## Size of the compression buffer -/

theorem floor_div_thousand (A : Nat) (k : Nat) :
    ⌊((A : ℚ) / 1000 + (k : ℚ) : ℚ)⌋ = ((A / 1000 + k : Nat) : ℤ) := by
  rw [Int.floor_eq_iff]
  have e1 := Nat.div_add_mod A 1000
  have e2 := Nat.mod_lt A (by norm_num : 1000 > 0)
  have h1 : (A / 1000) * 1000 ≤ A := by omega
  have h3 : A < (A / 1000 + 1) * 1000 := by omega
  have h1q : ((A / 1000 : Nat) : ℚ) * 1000 ≤ (A : ℚ) := by exact_mod_cast h1
  have h3q : (A : ℚ) < (((A / 1000 : Nat) : ℚ) + 1) * 1000 := by exact_mod_cast h3
  have hcast : (((A / 1000 + k : Nat) : ℤ) : ℚ) = ((A / 1000 : Nat) : ℚ) + (k : ℚ) := by
    rw [Int.cast_natCast, Nat.cast_add]
  rw [hcast]
  constructor
  · have : ((A / 1000 : Nat) : ℚ) ≤ (A : ℚ) / 1000 := by
      rw [le_div_iff₀ (by norm_num)]
      exact h1q
    linarith
  · have : (A : ℚ) / 1000 < ((A / 1000 : Nat) : ℚ) + 1 := by
      rw [div_lt_iff₀ (by norm_num)]
      exact h3q
    linarith

set_option maxRecDepth 100000 in
/-- The double nearest to `1.001`. -/
theorem double_1001 : Double.ofFrac 1001 1000 = ⟨4508103226997866, -52⟩ := by decide

theorem double_1001_spec :
    0 ≤ (Double.ofFrac 1001 1000).num ∧
    (Double.ofFrac 1001 1000).toRat = 4508103226997866 / 4503599627370496 := by
  rw [double_1001]
  constructor
  · decide
  · have := toRat_mk_neg 4508103226997866 52 (by norm_num)
    rw [show (-(52 : Int)) = -((52 : Nat) : Int) from rfl, this]
    norm_num

/-- The value converted to `uLongf` at the end of the size computation is
within `2 ^ (-19)` of `n * 1001 / 1000 + 13`. -/
theorem compmemsize_near (h w : Nat) (hint : h * (w + 1) * 3 < 2 ^ 31) :
    ∃ r : ℚ, (compmemsize h w : Int) = ⌊r⌋ ∧
      ((h * (w + 1) * 3 : Nat) : ℚ) * 1001 / 1000 + 13 - 1 / 2 ^ 19 ≤ r ∧
      r ≤ ((h * (w + 1) * 3 : Nat) : ℚ) * 1001 / 1000 + 13 + 1 / 2 ^ 19 := by
  generalize hN : h * (w + 1) * 3 = N at hint
  have hNq : (N : ℚ) < 2 ^ 31 := by exact_mod_cast hint
  have hN0 : (0 : ℚ) ≤ N := Nat.cast_nonneg N
  obtain ⟨n0, r0⟩ := ofInt_spec N (by omega)
  obtain ⟨nc, rc⟩ := double_1001_spec
  obtain ⟨n1, r1⟩ := ofInt_one
  obtain ⟨n12, r12⟩ := ofInt_twelve
  -- the product
  obtain ⟨m1, p1⟩ := mul_spec (Double.ofInt (N : Int)) (Double.ofFrac 1001 1000) 32 n0 nc
    (by norm_num) (by rw [r0, rc]; norm_num; linarith)
  rw [r0, rc] at p1
  obtain ⟨p1l, p1u⟩ := abs_scaled_le _ _ (by positivity) p1
  norm_num at p1l p1u
  -- plus one
  obtain ⟨m2, p2⟩ := add_spec (Double.mul (Double.ofInt (N : Int)) (Double.ofFrac 1001 1000))
    (Double.ofInt 1) 33 m1 n1 (by norm_num) (by rw [r1]; norm_num; linarith)
  rw [r1] at p2
  obtain ⟨p2l, p2u⟩ := abs_scaled_le _ _ (by positivity) p2
  norm_num at p2l p2u
  -- plus twelve
  obtain ⟨m3, p3⟩ := add_spec
    (Double.add (Double.mul (Double.ofInt (N : Int)) (Double.ofFrac 1001 1000)) (Double.ofInt 1))
    (Double.ofInt 12) 33 m2 n12 (by norm_num) (by rw [r12]; norm_num; linarith)
  rw [r12] at p3
  obtain ⟨p3l, p3u⟩ := abs_scaled_le _ _ (by positivity) p3
  norm_num at p3l p3u
  refine ⟨(Double.add (Double.add (Double.mul (Double.ofInt (N : Int))
    (Double.ofFrac 1001 1000)) (Double.ofInt 1)) (Double.ofInt 12)).toRat, ?_, ?_, ?_⟩
  · unfold compmemsize Double.toULong
    simp only [hN]
    rw [trunc_eq_floor _ m3]
    refine Int.toNat_of_nonneg (Int.floor_nonneg.mpr ?_)
    linarith
  · norm_num
    linarith
  · norm_num
    linarith


/-- C16 (as the code has it). For `h ≥ 1` and `w ≥ 1` whose product
`h * (w + 1) * 3` fits an `int`, the size the exporters allocate for the
compression output is computed in `double`, with the double nearest to
`1.001`: it is `floor(h * (w + 1) * 3 * 1001 / 1000 + 1) + 12` or one less,
the former whenever `h * (w + 1) * 3` is not a multiple of 1000; in every
case it is at least `ceil(inputSize * 1001 / 1000) + 12`, where
`inputSize = h * (3 * w + 1)` is the number of scanline bytes given to the
compressor. -/
theorem compmemsize_covers_input (h w : Nat) (hh : 1 ≤ h) (_hw : 1 ≤ w)
    (hint : h * (w + 1) * 3 < 2 ^ 31) :
    (⌊((h : ℚ) * ((w : ℚ) + 1) * 3 * (1001 / 1000) + 1 : ℚ)⌋ + 12 - 1 ≤
        ((compmemsize h w : Nat) : ℤ) ∧
      ((compmemsize h w : Nat) : ℤ) ≤
        ⌊((h : ℚ) * ((w : ℚ) + 1) * 3 * (1001 / 1000) + 1 : ℚ)⌋ + 12) ∧
    (h * (w + 1) * 3 % 1000 ≠ 0 →
      ((compmemsize h w : Nat) : ℤ) =
        ⌊((h : ℚ) * ((w : ℚ) + 1) * 3 * (1001 / 1000) + 1 : ℚ)⌋ + 12) ∧
    ⌈((h * (3 * w + 1) : Nat) : ℚ) * (1001 / 1000)⌉ + 12 ≤ ((compmemsize h w : Nat) : ℤ) := by
  obtain ⟨r, hr, hlo, hhi⟩ := compmemsize_near h w hint
  have hq : ((h : ℚ) * ((w : ℚ) + 1) * 3 * (1001 / 1000) + 1 : ℚ) =
      ((h * (w + 1) * 3 * 1001 : Nat) : ℚ) / 1000 + ((1 : Nat) : ℚ) := by
    push_cast
    ring
  rw [hq, floor_div_thousand, hr]
  have hS : h * (3 * w + 1) + 2 * h = h * (w + 1) * 3 := by ring
  generalize h * (w + 1) * 3 = N at hint hlo hhi hS
  have e1 := Nat.div_add_mod (N * 1001) 1000
  have e2 := Nat.mod_lt (N * 1001) (by norm_num : 1000 > 0)
  have hsplit : ((N : ℚ)) * 1001 / 1000 =
      ((N * 1001 / 1000 : Nat) : ℚ) + ((N * 1001 % 1000 : Nat) : ℚ) / 1000 := by
    have : ((N * 1001 : Nat) : ℚ) =
        1000 * ((N * 1001 / 1000 : Nat) : ℚ) + ((N * 1001 % 1000 : Nat) : ℚ) := by
      exact_mod_cast e1.symm
    push_cast at this
    field_simp
    linarith
  rw [hsplit] at hlo hhi
  have h3 : h * (3 * w + 1) * 1001 ≤ (N * 1001 / 1000) * 1000 := by omega
  have hmodN : N * 1001 % 1000 = N % 1000 := by omega
  rw [hmodN] at hlo hhi
  have hR1' : N % 1000 ≤ 999 := by omega
  generalize N * 1001 / 1000 = Q at hlo hhi h3 ⊢
  generalize N % 1000 = R at hlo hhi hR1' ⊢
  have hR0 : (0 : ℚ) ≤ (R : ℚ) := Nat.cast_nonneg _
  have hR1 : (R : ℚ) ≤ 999 := by exact_mod_cast hR1'
  have heps : (1 : ℚ) / 2 ^ 19 < 1 / 1000 := by norm_num
  have hge : (Q : ℤ) + 12 ≤ ⌊r⌋ := by
    rw [Int.le_floor]
    push_cast
    linarith
  have hle : ⌊r⌋ < (Q : ℤ) + 14 := by
    rw [Int.floor_lt]
    push_cast
    linarith
  refine ⟨⟨?_, ?_⟩, ?_, ?_⟩
  · push_cast
    omega
  · push_cast
    omega
  · intro hmod
    have hR : 1 ≤ R := by omega
    have hRq : (1 : ℚ) ≤ (R : ℚ) := by exact_mod_cast hR
    have : (Q : ℤ) + 13 ≤ ⌊r⌋ := by
      rw [Int.le_floor]
      push_cast
      linarith
    push_cast
    omega
  · have hc : ⌈((h * (3 * w + 1) : Nat) : ℚ) * (1001 / 1000)⌉ ≤ (Q : ℤ) := by
      rw [Int.ceil_le]
      have h3q : ((h * (3 * w + 1) : Nat) : ℚ) * 1001 ≤ (Q : ℚ) * 1000 := by
        exact_mod_cast h3
      rw [Int.cast_natCast]
      linarith
    omega

/-- Witness for C16: the 2 x 2 image, 14 input bytes and 31 allocated. -/
theorem compmemsize_covers_input_witness :
    (⌊(((2 : Nat) : ℚ) * (((2 : Nat) : ℚ) + 1) * 3 * (1001 / 1000) + 1 : ℚ)⌋ + 12 - 1 ≤
        ((compmemsize 2 2 : Nat) : ℤ) ∧
      ((compmemsize 2 2 : Nat) : ℤ) ≤
        ⌊(((2 : Nat) : ℚ) * (((2 : Nat) : ℚ) + 1) * 3 * (1001 / 1000) + 1 : ℚ)⌋ + 12) ∧
    (2 * (2 + 1) * 3 % 1000 ≠ 0 →
      ((compmemsize 2 2 : Nat) : ℤ) =
        ⌊(((2 : Nat) : ℚ) * (((2 : Nat) : ℚ) + 1) * 3 * (1001 / 1000) + 1 : ℚ)⌋ + 12) ∧
    ⌈((2 * (3 * 2 + 1) : Nat) : ℚ) * (1001 / 1000)⌉ + 12 ≤ ((compmemsize 2 2 : Nat) : ℤ) :=
  compmemsize_covers_input 2 2 (by decide) (by decide) (by decide)

set_option maxRecDepth 100000 in
/-- C16 (as stated) fails: for the 10 x 99 image the size allocated is 3015,
while `floor(3000 * 1001 / 1000 + 1) + 12` is 3016; the double nearest to
`1.001` is below `1.001`, and the product `3000 * 1.001` stays below 3003. -/
theorem compmemsize_below_exact_formula :
    compmemsize 10 99 = 3015 ∧
      ⌊(((10 : Nat) : ℚ) * (((99 : Nat) : ℚ) + 1) * 3 * (1001 / 1000) + 1 : ℚ)⌋ + 12 = 3016 := by
  constructor
  · decide
  · have : ⌊(((10 : Nat) : ℚ) * (((99 : Nat) : ℚ) + 1) * 3 * (1001 / 1000) + 1 : ℚ)⌋ = 3004 := by
      rw [Int.floor_eq_iff]
      norm_num
    rw [this]
    rfl


/-! ## Building the extended palette -/

theorem length_pushRandom (draws : Nat → Int) (n : Nat) (v : List RGB) :
    (pushRandom draws n v).length = v.length + n := by
  unfold pushRandom
  induction n with
  | zero => simp
  | succ n ih =>
    rw [List.range_succ, List.foldl_append, List.foldl_cons, List.foldl_nil, List.length_append,
      ih]
    simp only [List.length_singleton]
    omega

/-- The random colours are pushed behind the table and leave it in place. -/
theorem pushRandom_prefix (draws : Nat → Int) (n : Nat) (v : List RGB) :
    ∃ tail, tail.length = n ∧ pushRandom draws n v = v ++ tail := by
  unfold pushRandom
  induction n with
  | zero => exact ⟨[], rfl, by simp⟩
  | succ n ih =>
    obtain ⟨tail, hlen, htail⟩ := ih
    refine ⟨tail ++ [(draws (3 * n), draws (3 * n + 1), draws (3 * n + 2))], ?_, ?_⟩
    · simp [hlen]
    · rw [List.range_succ, List.foldl_append, List.foldl_cons, List.foldl_nil, htail,
        List.append_assoc]

theorem assign_ok (v : List RGB) (idx : Nat) (c : RGB) (h : idx < v.length) :
    assign v idx c = .ok (v.set idx c) := by
  simp [assign, h]

/-- With every reserved index inside the table, `init_custom_pallete` ends
normally with the shuffled web-safe colours, then the random colours, with
the eleven reserved slots overwritten in order. -/
theorem init_custom_pallete_eq (K : PaletteConsts) (random_shuffle : List RGB → List RGB)
    (draws : Nat → Int) (v : List RGB)
    (hin : ∀ i ∈ reservedIndices K,
      i < (random_shuffle (pushWebSafe v)).length + K.CUSTOM_PALETTE_SIZE) :
    init_custom_pallete K random_shuffle draws v =
      .ok (overwriteReserved K
        (pushRandom draws K.CUSTOM_PALETTE_SIZE (random_shuffle (pushWebSafe v)))) := by
  have hlen := length_pushRandom draws K.CUSTOM_PALETTE_SIZE (random_shuffle (pushWebSafe v))
  unfold init_custom_pallete overwriteReserved
  simp only []
  generalize pushRandom draws K.CUSTOM_PALETTE_SIZE (random_shuffle (pushWebSafe v)) = base
    at hlen ⊢
  rw [← hlen] at hin
  simp only [reservedIndices, List.mem_cons, List.mem_singleton, List.not_mem_nil, or_false,
    forall_eq_or_imp, forall_eq] at hin
  obtain ⟨h0, h1, h2, h3, h4, h5, h6, h7, h8, h9, h10⟩ := hin
  show (assign base K.BLACK_COLOR_IND (0, 0, 0) >>= fun v =>
    assign v K.RED_COLOR_IND (255, 0, 0) >>= fun v =>
    assign v K.WHITE_COLOR_IND (255, 255, 255) >>= fun v =>
    assign v (K.SECAM_COLOR_IND + 0) (0, 0, 0) >>= fun v =>
    assign v (K.SECAM_COLOR_IND + 1) (33, 33, 255) >>= fun v =>
    assign v (K.SECAM_COLOR_IND + 2) (255, 33, 33) >>= fun v =>
    assign v (K.SECAM_COLOR_IND + 3) (255, 80, 255) >>= fun v =>
    assign v (K.SECAM_COLOR_IND + 4) (127, 255, 0) >>= fun v =>
    assign v (K.SECAM_COLOR_IND + 5) (127, 255, 255) >>= fun v =>
    assign v (K.SECAM_COLOR_IND + 6) (255, 255, 63) >>= fun v =>
    assign v (K.SECAM_COLOR_IND + 7) (255, 255, 255)) = _
  rw [assign_ok _ _ _ h0]
  show (assign _ K.RED_COLOR_IND (255, 0, 0) >>= _) = _
  rw [assign_ok _ _ _ (by rw [List.length_set]; exact h1)]
  show (assign _ K.WHITE_COLOR_IND (255, 255, 255) >>= _) = _
  rw [assign_ok _ _ _ (by simp only [List.length_set]; exact h2)]
  show (assign _ (K.SECAM_COLOR_IND + 0) (0, 0, 0) >>= _) = _
  rw [assign_ok _ _ _ (by simp only [List.length_set]; exact h3)]
  show (assign _ (K.SECAM_COLOR_IND + 1) (33, 33, 255) >>= _) = _
  rw [assign_ok _ _ _ (by simp only [List.length_set]; exact h4)]
  show (assign _ (K.SECAM_COLOR_IND + 2) (255, 33, 33) >>= _) = _
  rw [assign_ok _ _ _ (by simp only [List.length_set]; exact h5)]
  show (assign _ (K.SECAM_COLOR_IND + 3) (255, 80, 255) >>= _) = _
  rw [assign_ok _ _ _ (by simp only [List.length_set]; exact h6)]
  show (assign _ (K.SECAM_COLOR_IND + 4) (127, 255, 0) >>= _) = _
  rw [assign_ok _ _ _ (by simp only [List.length_set]; exact h7)]
  show (assign _ (K.SECAM_COLOR_IND + 5) (127, 255, 255) >>= _) = _
  rw [assign_ok _ _ _ (by simp only [List.length_set]; exact h8)]
  show (assign _ (K.SECAM_COLOR_IND + 6) (255, 255, 63) >>= _) = _
  rw [assign_ok _ _ _ (by simp only [List.length_set]; exact h9)]
  show assign _ (K.SECAM_COLOR_IND + 7) (255, 255, 255) = _
  rw [assign_ok _ _ _ (by simp only [List.length_set]; exact h10)]

theorem length_overwriteReserved (K : PaletteConsts) (v : List RGB) :
    (overwriteReserved K v).length = v.length := by
  simp only [overwriteReserved, List.length_set]

/-- An overwritten table holds at each index the colour of the last overwrite
of that index, or the old entry if there was none. -/
theorem getElem?_set_of_lt (v : List RGB) (i j : Nat) (c : RGB) (hj : j < v.length) :
    (v.set i c)[j]? = if i = j then some c else v[j]? := by
  rw [List.getElem?_set]
  by_cases h : i = j
  · subst h; simp [hj]
  · simp [h]

set_option maxRecDepth 100000 in
theorem length_pushWebSafe : (pushWebSafe []).length = 215 := by decide

theorem overwriteReserved_get (K : PaletteConsts) (v : List RGB) (t : Nat) (ht : t < v.length) :
    (overwriteReserved K v)[t]? =
      if K.SECAM_COLOR_IND + 7 = t then some (255, 255, 255)
      else if K.SECAM_COLOR_IND + 6 = t then some (255, 255, 63)
      else if K.SECAM_COLOR_IND + 5 = t then some (127, 255, 255)
      else if K.SECAM_COLOR_IND + 4 = t then some (127, 255, 0)
      else if K.SECAM_COLOR_IND + 3 = t then some (255, 80, 255)
      else if K.SECAM_COLOR_IND + 2 = t then some (255, 33, 33)
      else if K.SECAM_COLOR_IND + 1 = t then some (33, 33, 255)
      else if K.SECAM_COLOR_IND + 0 = t then some (0, 0, 0)
      else if K.WHITE_COLOR_IND = t then some (255, 255, 255)
      else if K.RED_COLOR_IND = t then some (255, 0, 0)
      else if K.BLACK_COLOR_IND = t then some (0, 0, 0)
      else v[t]? := by
  unfold overwriteReserved
  rw [getElem?_set_of_lt _ _ _ _ (by simp only [List.length_set]; exact ht),
    getElem?_set_of_lt _ _ _ _ (by simp only [List.length_set]; exact ht),
    getElem?_set_of_lt _ _ _ _ (by simp only [List.length_set]; exact ht),
    getElem?_set_of_lt _ _ _ _ (by simp only [List.length_set]; exact ht),
    getElem?_set_of_lt _ _ _ _ (by simp only [List.length_set]; exact ht),
    getElem?_set_of_lt _ _ _ _ (by simp only [List.length_set]; exact ht),
    getElem?_set_of_lt _ _ _ _ (by simp only [List.length_set]; exact ht),
    getElem?_set_of_lt _ _ _ _ (by simp only [List.length_set]; exact ht),
    getElem?_set_of_lt _ _ _ _ (by simp only [List.length_set]; exact ht),
    getElem?_set_of_lt _ _ _ _ (by simp only [List.length_set]; exact ht),
    getElem?_set_of_lt _ _ _ _ ht]

/-- Two SECAM slots at different offsets are different indices. -/
theorem secam_ne (K : PaletteConsts) (a b : Nat) (h : a ≠ b) :
    ¬ K.SECAM_COLOR_IND + a = K.SECAM_COLOR_IND + b :=
  fun e => h (Nat.add_left_cancel e)

/-- C12 (with the proviso the overwrites need). For every shuffle permutation
and every outcome of the random fill, and for reserved index constants that
lie inside the table, `init_custom_pallete` ends normally and the extended
palette holds (0,0,0), (33,33,255), (255,33,33), (255,80,255), (127,255,0),
(127,255,255), (255,255,63), (255,255,255) at the SECAM indices +0..+7; it
holds (255,255,255) at the white index unless that is one of the SECAM
indices +0..+6, (255,0,0) at the red index unless that is the white index or
a SECAM index, and (0,0,0) at the black index unless that is the red index,
the white index or one of the SECAM indices +1..+7. All provisos hold when
the eleven indices are pairwise distinct. -/
theorem reserved_slots_hold (K : PaletteConsts) (random_shuffle : List RGB → List RGB)
    (draws : Nat → Int)
    (hperm : (random_shuffle (pushWebSafe [])).Perm (pushWebSafe []))
    (hin : ∀ i ∈ reservedIndices K, i < 215 + K.CUSTOM_PALETTE_SIZE) :
    ∃ table, init_custom_pallete K random_shuffle draws [] = .ok table ∧
      (K.BLACK_COLOR_IND ≠ K.RED_COLOR_IND → K.BLACK_COLOR_IND ≠ K.WHITE_COLOR_IND →
        (∀ k, 1 ≤ k → k ≤ 7 → K.BLACK_COLOR_IND ≠ K.SECAM_COLOR_IND + k) →
        table[K.BLACK_COLOR_IND]? = some (0, 0, 0)) ∧
      (K.RED_COLOR_IND ≠ K.WHITE_COLOR_IND →
        (∀ k, k ≤ 7 → K.RED_COLOR_IND ≠ K.SECAM_COLOR_IND + k) →
        table[K.RED_COLOR_IND]? = some (255, 0, 0)) ∧
      ((∀ k, k ≤ 6 → K.WHITE_COLOR_IND ≠ K.SECAM_COLOR_IND + k) →
        table[K.WHITE_COLOR_IND]? = some (255, 255, 255)) ∧
      table[K.SECAM_COLOR_IND + 0]? = some (0, 0, 0) ∧
      table[K.SECAM_COLOR_IND + 1]? = some (33, 33, 255) ∧
      table[K.SECAM_COLOR_IND + 2]? = some (255, 33, 33) ∧
      table[K.SECAM_COLOR_IND + 3]? = some (255, 80, 255) ∧
      table[K.SECAM_COLOR_IND + 4]? = some (127, 255, 0) ∧
      table[K.SECAM_COLOR_IND + 5]? = some (127, 255, 255) ∧
      table[K.SECAM_COLOR_IND + 6]? = some (255, 255, 63) ∧
      table[K.SECAM_COLOR_IND + 7]? = some (255, 255, 255) := by
  have hshuf : (random_shuffle (pushWebSafe [])).length = 215 := by
    rw [hperm.length_eq, length_pushWebSafe]
  have hin' : ∀ i ∈ reservedIndices K,
      i < (random_shuffle (pushWebSafe [])).length + K.CUSTOM_PALETTE_SIZE := by
    rw [hshuf]; exact hin
  refine ⟨_, init_custom_pallete_eq K random_shuffle draws [] hin', ?_⟩
  have hlen := length_pushRandom draws K.CUSTOM_PALETTE_SIZE (random_shuffle (pushWebSafe []))
  rw [hshuf] at hlen
  generalize pushRandom draws K.CUSTOM_PALETTE_SIZE (random_shuffle (pushWebSafe [])) = base
    at hlen ⊢
  rw [← hlen] at hin
  simp only [reservedIndices, List.mem_cons, List.mem_singleton, List.not_mem_nil, or_false,
    forall_eq_or_imp, forall_eq] at hin
  obtain ⟨h0, h1, h2, h3, h4, h5, h6, h7, h8, h9, h10⟩ := hin
  refine ⟨?_, ?_, ?_, ?_, ?_, ?_, ?_, ?_, ?_, ?_, ?_⟩
  · intro hr hw hs
    have off : ∀ k, 1 ≤ k → k ≤ 7 → ¬ K.SECAM_COLOR_IND + k = K.BLACK_COLOR_IND :=
      fun k h1 h7 e => hs k h1 h7 e.symm
    rw [overwriteReserved_get K base _ h0, if_neg (off 7 (by decide) (by decide)),
      if_neg (off 6 (by decide) (by decide)), if_neg (off 5 (by decide) (by decide)),
      if_neg (off 4 (by decide) (by decide)), if_neg (off 3 (by decide) (by decide)),
      if_neg (off 2 (by decide) (by decide)), if_neg (off 1 (by decide) (by decide))]
    by_cases hz : K.SECAM_COLOR_IND + 0 = K.BLACK_COLOR_IND
    · rw [if_pos hz]
    · rw [if_neg hz, if_neg (Ne.symm hw), if_neg (Ne.symm hr), if_pos rfl]
  · intro hw hs
    have off : ∀ k, k ≤ 7 → ¬ K.SECAM_COLOR_IND + k = K.RED_COLOR_IND :=
      fun k h7 e => hs k h7 e.symm
    rw [overwriteReserved_get K base _ h1, if_neg (off 7 (by decide)),
      if_neg (off 6 (by decide)), if_neg (off 5 (by decide)), if_neg (off 4 (by decide)),
      if_neg (off 3 (by decide)), if_neg (off 2 (by decide)), if_neg (off 1 (by decide)),
      if_neg (off 0 (by decide)), if_neg (Ne.symm hw), if_pos rfl]
  · intro hs
    have off : ∀ k, k ≤ 6 → ¬ K.SECAM_COLOR_IND + k = K.WHITE_COLOR_IND :=
      fun k h6 e => hs k h6 e.symm
    rw [overwriteReserved_get K base _ h2]
    by_cases hz : K.SECAM_COLOR_IND + 7 = K.WHITE_COLOR_IND
    · rw [if_pos hz]
    · rw [if_neg hz, if_neg (off 6 (by decide)), if_neg (off 5 (by decide)),
        if_neg (off 4 (by decide)), if_neg (off 3 (by decide)), if_neg (off 2 (by decide)),
        if_neg (off 1 (by decide)), if_neg (off 0 (by decide)), if_pos rfl]
  · rw [overwriteReserved_get K base _ h3, if_neg (secam_ne K 7 0 (by decide)),
      if_neg (secam_ne K 6 0 (by decide)), if_neg (secam_ne K 5 0 (by decide)),
      if_neg (secam_ne K 4 0 (by decide)), if_neg (secam_ne K 3 0 (by decide)),
      if_neg (secam_ne K 2 0 (by decide)), if_neg (secam_ne K 1 0 (by decide)), if_pos rfl]
  · rw [overwriteReserved_get K base _ h4, if_neg (secam_ne K 7 1 (by decide)),
      if_neg (secam_ne K 6 1 (by decide)), if_neg (secam_ne K 5 1 (by decide)),
      if_neg (secam_ne K 4 1 (by decide)), if_neg (secam_ne K 3 1 (by decide)),
      if_neg (secam_ne K 2 1 (by decide)), if_pos rfl]
  · rw [overwriteReserved_get K base _ h5, if_neg (secam_ne K 7 2 (by decide)),
      if_neg (secam_ne K 6 2 (by decide)), if_neg (secam_ne K 5 2 (by decide)),
      if_neg (secam_ne K 4 2 (by decide)), if_neg (secam_ne K 3 2 (by decide)), if_pos rfl]
  · rw [overwriteReserved_get K base _ h6, if_neg (secam_ne K 7 3 (by decide)),
      if_neg (secam_ne K 6 3 (by decide)), if_neg (secam_ne K 5 3 (by decide)),
      if_neg (secam_ne K 4 3 (by decide)), if_pos rfl]
  · rw [overwriteReserved_get K base _ h7, if_neg (secam_ne K 7 4 (by decide)),
      if_neg (secam_ne K 6 4 (by decide)), if_neg (secam_ne K 5 4 (by decide)), if_pos rfl]
  · rw [overwriteReserved_get K base _ h8, if_neg (secam_ne K 7 5 (by decide)),
      if_neg (secam_ne K 6 5 (by decide)), if_pos rfl]
  · rw [overwriteReserved_get K base _ h9, if_neg (secam_ne K 7 6 (by decide)), if_pos rfl]
  · rw [overwriteReserved_get K base _ h10, if_pos rfl]

set_option maxRecDepth 100000 in
/-- Witness for C12: distinct constants, the reversing shuffle, and draws
`k mod 256`. -/
theorem reserved_slots_hold_witness :
    ∃ table, init_custom_pallete demoConsts List.reverse (fun k => (k : Int) % 256) [] =
        .ok table ∧
      table[demoConsts.BLACK_COLOR_IND]? = some (0, 0, 0) ∧
      table[demoConsts.RED_COLOR_IND]? = some (255, 0, 0) ∧
      table[demoConsts.WHITE_COLOR_IND]? = some (255, 255, 255) ∧
      table[demoConsts.SECAM_COLOR_IND + 1]? = some (33, 33, 255) := by
  obtain ⟨table, h, hb, hr, hw, -, hs1, -⟩ := reserved_slots_hold demoConsts List.reverse
    (fun k => (k : Int) % 256) (List.reverse_perm _) (by decide)
  exact ⟨table, h, hb (by decide) (by decide) (by intro k _ _; simp [demoConsts]; omega),
    hr (by decide) (by intro k _; simp [demoConsts]; omega),
    hw (by intro k _; simp [demoConsts]; omega), hs1⟩

set_option maxRecDepth 100000 in
/-- C12 (as stated) fails: with all reserved indices inside the table but the
black index equal to the SECAM index +1, the black slot ends up holding
(33,33,255). -/
theorem reserved_black_overwritten :
    (∀ i ∈ reservedIndices clashConsts, i < 215 + clashConsts.CUSTOM_PALETTE_SIZE) ∧
    (init_custom_pallete clashConsts List.reverse (fun k => (k : Int) % 256) []).map
        (fun table => table[clashConsts.BLACK_COLOR_IND]?) = .ok (some (33, 33, 255)) ∧
    (init_custom_pallete clashConsts List.reverse (fun k => (k : Int) % 256) []).map
        (fun table => table[clashConsts.BLACK_COLOR_IND]?) ≠ .ok (some (0, 0, 0)) := by
  decide

/-! ## The web-safe colours -/

set_option maxRecDepth 100000 in
theorem pushWebSafe_eq_listing : pushWebSafe [] = webSafeListing := by decide

set_option maxRecDepth 100000 in
theorem nodup_pushWebSafe : (pushWebSafe []).Nodup := by decide

/-- The listing holds exactly the triples of shade levels other than black. -/
theorem mem_webSafeListing (r g b : Int) :
    (r, g, b) ∈ webSafeListing ↔
      r ∈ shades ∧ g ∈ shades ∧ b ∈ shades ∧ (r, g, b) ≠ (0, 0, 0) := by
  have hd : ∀ x : Int, x ∈ ([255, 204, 153, 102, 51, 0] : List Int) ↔ x ∈ shades := by
    intro x
    simp only [shades, List.mem_cons, List.mem_singleton, List.not_mem_nil, or_false]
    omega
  have ha : ∀ x : Int, x ∈ ([0, 51, 102, 153, 204, 255] : List Int) ↔ x ∈ shades := by
    intro x
    rfl
  unfold webSafeListing
  simp only [List.mem_flatMap]
  constructor
  · rintro ⟨r', hr', g', hg', b', hb', hmem⟩
    by_cases hz : r' = 0 ∧ g' = 0 ∧ b' = 0
    · rw [if_pos hz] at hmem
      exact absurd hmem (List.not_mem_nil _)
    · rw [if_neg hz, List.mem_singleton, Prod.mk.injEq, Prod.mk.injEq] at hmem
      obtain ⟨rfl, rfl, rfl⟩ := hmem
      refine ⟨(hd r).mp hr', (hd g).mp hg', (ha b).mp hb', ?_⟩
      intro h
      rw [Prod.mk.injEq, Prod.mk.injEq] at h
      exact hz h
  · rintro ⟨hr, hg, hb, hne⟩
    refine ⟨r, (hd r).mpr hr, g, (hd g).mpr hg, b, (ha b).mpr hb, ?_⟩
    have hz : ¬ (r = 0 ∧ g = 0 ∧ b = 0) := by
      intro h
      apply hne
      rw [Prod.mk.injEq, Prod.mk.injEq]
      exact h
    rw [if_neg hz]
    exact List.mem_singleton.mpr rfl

/-- C17 (with the order the loops have). The enumeration phase of
`init_custom_pallete` produces exactly 215 triples: every `(r, g, b)` with
`r`, `g`, `b` among 0, 51, 102, 153, 204, 255 except (0,0,0), each exactly
once, listed with the red and the green level descending and the blue level
(the innermost loop) ascending. Consequently, for every shuffle permutation,
every random fill and reserved indices inside the table, the finished
extended palette has exactly 215 + CUSTOM_PALETTE_SIZE entries, and its first
215 entries, apart from the reserved slots, are those of the shuffled
enumeration, a permutation of the web-safe triples. -/
theorem web_safe_enumeration (K : PaletteConsts) (random_shuffle : List RGB → List RGB)
    (draws : Nat → Int)
    (hperm : (random_shuffle (pushWebSafe [])).Perm (pushWebSafe []))
    (hin : ∀ i ∈ reservedIndices K, i < 215 + K.CUSTOM_PALETTE_SIZE) :
    (pushWebSafe []).length = 215 ∧
    (∀ r g b : Int, (r, g, b) ∈ pushWebSafe [] ↔
      r ∈ shades ∧ g ∈ shades ∧ b ∈ shades ∧ (r, g, b) ≠ (0, 0, 0)) ∧
    (pushWebSafe []).Nodup ∧
    pushWebSafe [] = webSafeListing ∧
    ∃ (table p : List RGB), init_custom_pallete K random_shuffle draws [] = .ok table ∧
      table.length = 215 + K.CUSTOM_PALETTE_SIZE ∧
      p.Perm (pushWebSafe []) ∧
      ∀ i, i < 215 → i ∉ reservedIndices K → table[i]? = p[i]? := by
  have hshuf : (random_shuffle (pushWebSafe [])).length = 215 := by
    rw [hperm.length_eq, length_pushWebSafe]
  have hin' : ∀ i ∈ reservedIndices K,
      i < (random_shuffle (pushWebSafe [])).length + K.CUSTOM_PALETTE_SIZE := by
    rw [hshuf]; exact hin
  refine ⟨length_pushWebSafe, ?_, nodup_pushWebSafe, pushWebSafe_eq_listing, ?_⟩
  · intro r g b
    rw [pushWebSafe_eq_listing]
    exact mem_webSafeListing r g b
  · refine ⟨_, random_shuffle (pushWebSafe []),
      init_custom_pallete_eq K random_shuffle draws [] hin', ?_, hperm, ?_⟩
    · rw [length_overwriteReserved, length_pushRandom, hshuf]
    · intro i hi hres
      obtain ⟨tail, -, htail⟩ := pushRandom_prefix draws K.CUSTOM_PALETTE_SIZE
        (random_shuffle (pushWebSafe []))
      simp only [reservedIndices, List.mem_cons, List.mem_singleton, List.not_mem_nil,
        or_false, not_or] at hres
      obtain ⟨r0, r1, r2, r3, r4, r5, r6, r7, r8, r9, r10⟩ := hres
      rw [overwriteReserved_get K _ i (by rw [length_pushRandom, hshuf]; omega),
        if_neg (Ne.symm r10), if_neg (Ne.symm r9), if_neg (Ne.symm r8), if_neg (Ne.symm r7),
        if_neg (Ne.symm r6), if_neg (Ne.symm r5), if_neg (Ne.symm r4), if_neg (Ne.symm r3),
        if_neg (Ne.symm r2), if_neg (Ne.symm r1), if_neg (Ne.symm r0), htail,
        List.getElem?_append_left (by rw [hshuf]; exact hi)]

set_option maxRecDepth 100000 in
/-- Witness for C17: the demo constants, the reversing shuffle, and draws
`k mod 256`. -/
theorem web_safe_enumeration_witness :
    (pushWebSafe []).length = 215 ∧
    (∀ r g b : Int, (r, g, b) ∈ pushWebSafe [] ↔
      r ∈ shades ∧ g ∈ shades ∧ b ∈ shades ∧ (r, g, b) ≠ (0, 0, 0)) ∧
    (pushWebSafe []).Nodup ∧
    pushWebSafe [] = webSafeListing ∧
    ∃ (table p : List RGB),
      init_custom_pallete demoConsts List.reverse (fun k => (k : Int) % 256) [] =
        .ok table ∧
      table.length = 215 + demoConsts.CUSTOM_PALETTE_SIZE ∧
      p.Perm (pushWebSafe []) ∧
      ∀ i, i < 215 → i ∉ reservedIndices demoConsts → table[i]? = p[i]? :=
  web_safe_enumeration demoConsts List.reverse (fun k => (k : Int) % 256)
    (List.reverse_perm _) (by decide)

set_option maxRecDepth 100000 in
/-- C17 (as stated) fails: the enumeration is not in nested-descending order.
Its first triple is (255,255,0) and its sixth is (255,255,255), the blue level
rising, where the nested-descending listing starts with (255,255,255). -/
theorem enumeration_not_nested_descending :
    (pushWebSafe [])[0]? = some (255, 255, 0) ∧
    (pushWebSafe [])[5]? = some (255, 255, 255) ∧
    nestedDescending[0]? = some (255, 255, 255) ∧
    pushWebSafe [] ≠ nestedDescending := by
  decide

end ExportScreen

namespace AtariExperiment

open Action

/-! ## Choosing the action -/

theorem activations_eq (g : Nat → Nat → ℚ) :
    activations g =
      [(g 0 0, 0), (g 0 1, 3), (g 0 2, 6), (g 1 0, 1), (g 1 1, 4), (g 1 2, 7), (g 2 0, 2),
        (g 2 1, 5), (g 2 2, 8)] := rfl

/-- The entries of the vector are the nine pairs of an activation and its
direction index. -/
theorem mem_activations (g : Nat → Nat → ℚ) (p : ℚ × Nat) :
    p ∈ activations g ↔ ∃ x y, x < 3 ∧ y < 3 ∧ p = (g x y, x + 3 * y) := by
  rw [activations_eq]
  simp only [List.mem_cons, List.mem_singleton, List.not_mem_nil, or_false]
  constructor
  · rintro (h | h | h | h | h | h | h | h | h)
    · exact ⟨0, 0, by omega, by omega, h⟩
    · exact ⟨0, 1, by omega, by omega, h⟩
    · exact ⟨0, 2, by omega, by omega, h⟩
    · exact ⟨1, 0, by omega, by omega, h⟩
    · exact ⟨1, 1, by omega, by omega, h⟩
    · exact ⟨1, 2, by omega, by omega, h⟩
    · exact ⟨2, 0, by omega, by omega, h⟩
    · exact ⟨2, 1, by omega, by omega, h⟩
    · exact ⟨2, 2, by omega, by omega, h⟩
  · rintro ⟨x, y, hx, hy, h⟩
    have hx' : x = 0 ∨ x = 1 ∨ x = 2 := by omega
    have hy' : y = 0 ∨ y = 1 ∨ y = 2 := by omega
    rcases hx' with rfl | rfl | rfl <;> rcases hy' with rfl | rfl | rfl <;> simp [h]

/-- The linear search of `is_allowable` answers membership in the legal set. -/
theorem is_allowable_iff (legal : List Action) (a : Action) :
    is_allowable legal a = true ↔ a ∈ legal := by
  induction legal with
  | nil => simp [is_allowable]
  | cons x rest ih =>
    unfold is_allowable
    by_cases h : a = x
    · rw [if_pos h]
      simp [h]
    · rw [if_neg h, ih, List.mem_cons]
      exact ⟨Or.inr, fun h' => h'.resolve_left h⟩

theorem hasLegalVariant_iff (legal : List Action) (d : Nat) (firing : Bool) :
    HasLegalVariant legal d ↔
      map_to_action d firing ∈ legal ∨ map_to_action d (!firing) ∈ legal := by
  unfold HasLegalVariant
  cases firing
  · simp only [Bool.not_false]
    exact Or.comm
  · simp only [Bool.not_true]

/-- The loop returns nothing when no entry has a legal variant. -/
theorem selectLoop_none (legal : List Action) (firing : Bool) (l : List (ℚ × Nat))
    (h : ∀ p ∈ l, ¬ HasLegalVariant legal p.2) : selectLoop legal firing l = none := by
  induction l with
  | nil => rfl
  | cons p rest ih =>
    have hp := h p (List.mem_cons_self _ _)
    rw [hasLegalVariant_iff legal p.2 firing, not_or, ← is_allowable_iff, ← is_allowable_iff]
      at hp
    unfold selectLoop
    rw [if_neg hp.1, if_neg hp.2]
    exact ih fun q hq => h q (List.mem_cons_of_mem _ hq)

/-- The loop returns at the first entry that has a legal variant, preferring
the variant with the given `firing`; what it returns is in the legal set. -/
theorem selectLoop_some (legal : List Action) (firing : Bool) (l : List (ℚ × Nat))
    (h : ∃ p ∈ l, HasLegalVariant legal p.2) :
    ∃ pre p post, l = pre ++ p :: post ∧ (∀ q ∈ pre, ¬ HasLegalVariant legal q.2) ∧
      HasLegalVariant legal p.2 ∧
      selectLoop legal firing l =
        some (map_to_action p.2
          (if map_to_action p.2 firing ∈ legal then firing else !firing)) ∧
      map_to_action p.2 (if map_to_action p.2 firing ∈ legal then firing else !firing) ∈
        legal := by
  induction l with
  | nil =>
    obtain ⟨p, hp, -⟩ := h
    exact absurd hp (List.not_mem_nil _)
  | cons p rest ih =>
    by_cases hp : HasLegalVariant legal p.2
    · refine ⟨[], p, rest, rfl, fun q hq => absurd hq (List.not_mem_nil _), hp, ?_, ?_⟩
      · unfold selectLoop
        by_cases h1 : map_to_action p.2 firing ∈ legal
        · rw [if_pos ((is_allowable_iff _ _).mpr h1), if_pos h1]
        · have h2 : map_to_action p.2 (!firing) ∈ legal := by
            rcases (hasLegalVariant_iff legal p.2 firing).mp hp with h | h
            · exact absurd h h1
            · exact h
          rw [if_neg (fun h => h1 ((is_allowable_iff _ _).mp h)),
            if_pos ((is_allowable_iff _ _).mpr h2), if_neg h1]
      · by_cases h1 : map_to_action p.2 firing ∈ legal
        · rw [if_pos h1]; exact h1
        · rw [if_neg h1]
          rcases (hasLegalVariant_iff legal p.2 firing).mp hp with h | h
          · exact absurd h h1
          · exact h
    · have hrest : ∃ q ∈ rest, HasLegalVariant legal q.2 := by
        obtain ⟨q, hq, hleg⟩ := h
        rcases List.mem_cons.mp hq with rfl | hq'
        · exact absurd hleg hp
        · exact ⟨q, hq', hleg⟩
      obtain ⟨pre, p', post, hl, hpre, hp', hsel, hallow⟩ := ih hrest
      refine ⟨p :: pre, p', post, by rw [hl]; rfl, ?_, hp', ?_, hallow⟩
      · intro q hq
        rcases List.mem_cons.mp hq with rfl | hq'
        · exact hp
        · exact hpre q hq'
      · have hp2 := hp
        rw [hasLegalVariant_iff legal p.2 firing, not_or, ← is_allowable_iff,
          ← is_allowable_iff] at hp2
        unfold selectLoop
        rw [if_neg hp2.1, if_neg hp2.2]
        exact hsel

/-- C18. In the `CON_ACTION` build, for every grid of activations, every fire
output and every set of legal actions, with `std::sort` returning a sorted
permutation of the vector: if some direction index `d` in 0..8 has
`map_to_action(d, true)` or `map_to_action(d, false)` in the legal set, then
`selectAction` returns a legal action, namely `map_to_action(d*, f)` for a
direction `d* = x + 3 * y` such that no direction with a legal variant has a
greater activation, where `f` is `fire_output > 0` when that variant is legal
and its negation otherwise; if no direction has a legal variant, the loop
ends without returning an action. Legal means being an element of the list of
legal actions, which is what the search of `is_allowable` decides. -/
theorem selectAction_spec (sort : List (ℚ × Nat) → List (ℚ × Nat)) (legal : List Action)
    (getValue : Nat → Nat → ℚ) (fire_output : ℚ)
    (hperm : (sort (activations getValue)).Perm (activations getValue))
    (hsorted : (sort (activations getValue)).Pairwise fun a b => a.1 ≤ b.1) :
    ((∃ d, d < 9 ∧ HasLegalVariant legal d) →
      ∃ x y f, x < 3 ∧ y < 3 ∧
        f = (if map_to_action (x + 3 * y) (decide (fire_output > 0)) ∈ legal
              then decide (fire_output > 0) else !decide (fire_output > 0)) ∧
        selectAction sort legal getValue fire_output = some (map_to_action (x + 3 * y) f) ∧
        map_to_action (x + 3 * y) f ∈ legal ∧
        ∀ x' y', x' < 3 → y' < 3 → HasLegalVariant legal (x' + 3 * y') →
          getValue x' y' ≤ getValue x y) ∧
    ((∀ d, d < 9 → ¬ HasLegalVariant legal d) →
      selectAction sort legal getValue fire_output = none) := by
  have hlen : (sort (activations getValue)).reverse.length = 9 := by
    rw [List.length_reverse, hperm.length_eq]
    rfl
  have htake : (sort (activations getValue)).reverse.take 9 =
      (sort (activations getValue)).reverse := List.take_of_length_le (by omega)
  have hmem : ∀ p, p ∈ (sort (activations getValue)).reverse ↔
      ∃ x y, x < 3 ∧ y < 3 ∧ p = (getValue x y, x + 3 * y) := by
    intro p
    rw [List.mem_reverse, hperm.mem_iff, mem_activations]
  have hdesc : (sort (activations getValue)).reverse.Pairwise fun a b => b.1 ≤ a.1 :=
    List.pairwise_reverse.mpr hsorted
  constructor
  · rintro ⟨d, hd, hleg⟩
    have hex : ∃ p ∈ (sort (activations getValue)).reverse, HasLegalVariant legal p.2 := by
      refine ⟨(getValue (d % 3) (d / 3), d), (hmem _).mpr ⟨d % 3, d / 3, ?_, ?_, ?_⟩, hleg⟩
      · omega
      · omega
      · have : d % 3 + 3 * (d / 3) = d := by omega
        rw [this]
    obtain ⟨pre, p, post, hl, hpre, hp, hsel, hallow⟩ :=
      selectLoop_some legal (decide (fire_output > 0)) _ hex
    have hpmem : p ∈ (sort (activations getValue)).reverse := by
      rw [hl]; simp
    obtain ⟨x, y, hx, hy, hpxy⟩ := (hmem p).mp hpmem
    subst hpxy
    refine ⟨x, y, _, hx, hy, rfl, ?_, hallow, ?_⟩
    · unfold selectAction
      simp only []
      rw [htake]
      exact hsel
    · intro x' y' hx' hy' hleg'
      have hq : (getValue x' y', x' + 3 * y') ∈ (sort (activations getValue)).reverse :=
        (hmem _).mpr ⟨x', y', hx', hy', rfl⟩
      rw [hl] at hq hdesc
      rcases List.mem_append.mp hq with hq | hq
      · exact absurd hleg' (hpre _ hq)
      · rcases List.mem_cons.mp hq with hq | hq
        · rw [Prod.mk.injEq] at hq
          rw [hq.1]
        · have hpw := (List.pairwise_append.mp hdesc).2.1
          exact (List.pairwise_cons.mp hpw).1 _ hq
  · intro hnone
    unfold selectAction
    simp only []
    rw [htake]
    apply selectLoop_none
    intro p hp
    obtain ⟨x, y, hx, hy, rfl⟩ := (hmem p).mp hp
    exact hnone _ (by show x + 3 * y < 9; omega)

/-- Witness for C18: activations equal to the direction index, insertion
sort, and only UP and FIRE legal; direction 4 (FIRE) is chosen. -/
theorem selectAction_spec_witness :
    ∃ x y f, x < 3 ∧ y < 3 ∧
      f = (if map_to_action (x + 3 * y) (decide ((1 : ℚ) > 0)) ∈
              [PLAYER_A_UP, PLAYER_A_FIRE]
            then decide ((1 : ℚ) > 0) else !decide ((1 : ℚ) > 0)) ∧
      selectAction demoSort [PLAYER_A_UP, PLAYER_A_FIRE] demoGrid 1 =
        some (map_to_action (x + 3 * y) f) ∧
      map_to_action (x + 3 * y) f ∈ [PLAYER_A_UP, PLAYER_A_FIRE] ∧
      ∀ x' y', x' < 3 → y' < 3 → HasLegalVariant [PLAYER_A_UP, PLAYER_A_FIRE] (x' + 3 * y') →
        demoGrid x' y' ≤ demoGrid x y :=
  (selectAction_spec demoSort [PLAYER_A_UP, PLAYER_A_FIRE] demoGrid 1
    (List.perm_insertionSort _ _) (by decide)).1 ⟨4, by decide, Or.inl (by decide)⟩

end AtariExperiment
